import Mathlib

/-!
# Game of Life with ageing rules: the simulation engine of `main.cpp`

A shallow embedding of the globals and of `field_init`, `field_rand` and
`field_step`, followed by the properties proved about them.

Conventions of the embedding.

* A C `int` is an `Int`.  The arithmetic on values that the grid stores, the ages
  (`state[idx]+1`, `state[idx]-1`), and on the size and the indices of the pixel
  buffer is that of a 32-bit two's complement `int`: the result is reduced by
  `wrap32`.  The index arithmetic of the engine on the grid stays within `FX*FY`
  cells of an allocated grid and is not reduced.
* An `int*` / `float*` buffer is a total map from index to value; a store is
  `Function.update`.  Which cells a loop touches is part of what is proved.
* A `float` is a rational number (exact arithmetic).
* `rand()` is a stream `draws : Nat → Nat` of the values it returns together with
  the number `used` of calls made so far.
* `for (int i = lo; i < hi; i++)` runs its body over `upto lo hi`.  The two loops
  whose stride is a run-time value (`y += FY-1`, `x += FX-1`) are run by
  `strideLoop`, which counts evaluations of the loop condition against a fuel
  bound and yields `none` when the bound is exhausted.
-/

namespace GameOfLife

/-! ## Data model -/

/-- The two age buffers `state1` and `state2`; a value of this type is what the
pointers `state` and `state_n` hold. -/
inductive Buf where
  | b1
  | b2
  deriving DecidableEq

/-- The globals of the engine (`FX`, `FY`, `state1`, `state2`, `state`, `state_sum`,
`state_tmp`, `trace`, `rand_rules`) and the state of the random generator. -/
structure Field where
  FX : Int
  FY : Int
  state1 : Int → Int
  state2 : Int → Int
  state : Buf
  state_sum : Int → Int
  state_tmp : Int → Int
  trace : Int → ℚ
  rand_rules : Int
  draws : Nat → Nat
  used : Nat

/-- The buffer a pointer value designates. -/
def Field.buf (s : Field) : Buf → Int → Int
  | Buf.b1 => s.state1
  | Buf.b2 => s.state2

/-- The buffer `state` points to: the current generation. -/
def Field.cur (s : Field) : Int → Int := s.buf s.state

/-- The pointer `state_n` selected at the top of `field_step`:
`state_n = state2; if (state == state2) state_n = state1;`. -/
def Field.next (s : Field) : Buf :=
  let state_n := Buf.b2
  if s.state = Buf.b2 then Buf.b1 else state_n

/-! ## Machine integers -/

/-- The value of a 32-bit two's complement `int` after an operation whose exact
result is `n`: `n` itself from `-2^31` to `2^31 - 1`, wrapped around otherwise. -/
def wrap32 (n : Int) : Int := (n + 2147483648) % 4294967296 - 2147483648

/-! ## Loops -/

/-- The successive values of `i` in `for (int i = lo; i < hi; i++)`. -/
def upto (lo hi : Int) : List Int :=
  (List.range (hi - lo).toNat).map (fun (k : Nat) => lo + (k : Int))

/-- The loop `for (i = i0; i < bound; i += stride) body`, with `fuel` bounding the
number of times the condition `i < bound` is evaluated. -/
def strideLoop {σ : Type} (bound stride : Int) (body : Int → σ → σ) :
    Nat → Int → σ → Option σ
  | 0, _, _ => none
  | fuel + 1, i, s =>
    if i < bound then strideLoop bound stride body fuel (i + stride) (body i s)
    else some s

/-! ## `field_init` and `field_rand` -/

/-- The function `field_init(x, y)` when it returns: `g` is the machine state at
the call, whose buffer contents stand for the contents of the freshly allocated
arrays; only `state1` and `trace` are cleared.  The size `x*y` is taken to be one
that the allocations accept; `field_init_call` has the call with its failure
path. -/
def field_init (g : Field) (x y : Int) : Field :=
  let z := (upto 0 (x * y)).foldl
    (fun (p : (Int → Int) × (Int → ℚ)) xx =>
      (Function.update p.1 xx 0, Function.update p.2 xx 0))
    (g.state1, g.trace)
  { g with FX := x, FY := y, state1 := z.1, trace := z.2, state := Buf.b1 }

/-- Store a buffer back through the pointer `state`. -/
def Field.setCur (s : Field) (b : Int → Int) : Field :=
  match s.state with
  | Buf.b1 => { s with state1 := b }
  | Buf.b2 => { s with state2 := b }

/-- The function `field_rand()`: a 40 x 40 square around the centre receives
`(rand()%3)==1`, one call of `rand()` per cell; `FX/2` is C division. -/
def field_rand (s : Field) : Field :=
  let N : Int := 20
  let r := (upto (s.FX.tdiv 2 - N) (s.FX.tdiv 2 + N)).foldl
    (fun (acc : (Int → Int) × Nat) x =>
      (upto (s.FY.tdiv 2 - N) (s.FY.tdiv 2 + N)).foldl
        (fun (acc : (Int → Int) × Nat) y =>
          (Function.update acc.1 (y * s.FX + x) (if s.draws acc.2 % 3 = 1 then 1 else 0),
            acc.2 + 1))
        acc)
    (s.cur, s.used)
  { s.setCur r.1 with used := r.2 }

/-! ## `field_step` -/

/-- First loop of `field_step`: `st[x] = state[x] > 0` for `x < FX*FY`, written
into `state_tmp`. -/
def snapshot (s : Field) : Int → Int :=
  (upto 0 (s.FX * s.FY)).foldl
    (fun st x => Function.update st x (if s.cur x > 0 then 1 else 0))
    s.state_tmp

/-- Second loop: the explicit eight-term sum for `1 <= x < FX-1`, `1 <= y < FY-1`
(the three statements `=`, `+=`, `+=` on `state_sum[idx]` are one store of their
total). -/
def sum_interior (FX FY : Int) (st sum0 : Int → Int) : Int → Int :=
  (upto 1 (FX - 1)).foldl
    (fun acc x =>
      (upto 1 (FY - 1)).foldl
        (fun acc y =>
          let idx := y * FX + x
          Function.update acc idx
            (st (idx - 1) + st (idx + 1)
              + (st (idx - FX - 1) + st (idx - FX) + st (idx - FX + 1))
              + (st (idx + FX - 1) + st (idx + FX) + st (idx + FX + 1))))
        acc)
    sum0

/-- The body shared by the two edge loops: the `ddx`, `ddy` double loop with the
four wrapping tests, for the cell `(x, y)`. -/
def wrap_sum (FX FY : Int) (st : Int → Int) (x y : Int) : Int :=
  (upto (-1) 2).foldl
    (fun sum ddx =>
      (upto (-1) 2).foldl
        (fun sum ddy =>
          let dx := ddx
          let dy := ddy
          if dx = 0 ∧ dy = 0 then sum
          else
            let dx := if x + dx < 0 then FX - 1 else dx
            let dy := if y + dy < 0 then FY - 1 else dy
            let dx := if x + dx ≥ FX then 1 - FX else dx
            let dy := if y + dy ≥ FY then 1 - FY else dy
            let idx := (y + dy) * FX + x + dx
            sum + st idx)
        sum)
    0

/-- Third loop: every `x`, and `y` running `0, FY-1, ...` with stride `FY-1`. -/
def sum_rows (fuel : Nat) (FX FY : Int) (st sum0 : Int → Int) : Option (Int → Int) :=
  (upto 0 FX).foldlM
    (fun acc x =>
      strideLoop FY (FY - 1)
        (fun y acc => Function.update acc (y * FX + x) (wrap_sum FX FY st x y))
        fuel 0 acc)
    sum0

/-- Fourth loop: `x` running `0, FX-1, ...` with stride `FX-1`, and every `y`. -/
def sum_cols (fuel : Nat) (FX FY : Int) (st sum0 : Int → Int) : Option (Int → Int) :=
  strideLoop FX (FX - 1)
    (fun x acc =>
      (upto 0 FY).foldl
        (fun acc y => Function.update acc (y * FX + x) (wrap_sum FX FY st x y))
        acc)
    fuel 0 sum0

/-- The standard rules, lines `state_n[idx] = state[idx]` to `if(sum > 3)`. -/
def classical (a sum : Int) : Int :=
  let n := a
  let n := if sum < 2 then 0 else n
  let n := if sum = 3 then 1 else n
  let n := if sum > 3 then 0 else n
  n

/-- The test `state_n[idx]<=0 && state[idx]<=0` ("if cell stays empty"), on the
tentative value `n` and the current age `a`. -/
abbrev dead_guard (n a : Int) : Prop := n ≤ 0 ∧ a ≤ 0

/-- The test `state_n[idx]>0 && state[idx]>0` ("if cells keeps staying alive"). -/
abbrev alive_guard (n a : Int) : Prop := n > 0 ∧ a > 0

/-- The block `if(state_n[idx]<=0 && state[idx]<=0)`; returns the new
`state_n[idx]` and the number of `rand()` calls made so far. -/
def stays_dead (a sum n : Int) (draws : Nat → Nat) (used : Nat) : Int × Nat :=
  if dead_guard n a then
    let n := wrap32 (a - 1)
    let n := if sum = 0 then 0 else n
    if n < -100 then
      if sum = 2 then
        if draws used % 100 = 99 then (1, used + 1) else (0, used + 1)
      else (0, used)
    else (n, used)
  else (n, used)

/-- The block `if(state_n[idx]>0 && state[idx]>0)`. -/
def stays_alive (a n : Int) (draws : Nat → Nat) (used : Nat) : Int × Nat :=
  if alive_guard n a then
    let n := wrap32 (a + 1)
    if n > 100 then
      if draws used % 100 = 99 then (0, used + 1) else (1, used + 1)
    else (n, used)
  else (n, used)

/-- The rule part of the body of the last loop for one cell of age `a` and
neighbour sum `sum`; `state_n[idx]` is the accumulator. -/
def cell_next (rand_rules a sum : Int) (draws : Nat → Nat) (used : Nat) : Int × Nat :=
  let n := classical a sum
  if rand_rules ≠ 0 then
    let r := stays_dead a sum n draws used
    stays_alive a r.1 draws r.2
  else (n, used)

/-- What the last loop threads through its iterations. -/
structure Commit where
  state_n : Int → Int
  trace : Int → ℚ
  used : Nat

/-- Body of the last loop at the cell `(x, y)`. -/
def commit_cell (s : Field) (sum : Int → Int) (x y : Int) (c : Commit) : Commit :=
  let idx := y * s.FX + x
  let r := cell_next s.rand_rules (s.cur idx) (sum idx) s.draws c.used
  { state_n := Function.update c.state_n idx r.1
    trace := Function.update c.trace idx
      (c.trace idx * (99 / 100) + (1 / 100) * (if r.1 > 0 then 1 else 0))
    used := r.2 }

/-- The last loop: rules and trace for every `x < FX`, `y < FY`. -/
def commit (s : Field) (sum : Int → Int) (c0 : Commit) : Commit :=
  (upto 0 s.FX).foldl
    (fun c x => (upto 0 s.FY).foldl (fun c y => commit_cell s sum x y c) c)
    c0

/-- The function `field_step()`. -/
def field_step (fuel : Nat) (s : Field) : Option Field := do
  let state_n := s.next
  let st := snapshot s
  let sum1 := sum_interior s.FX s.FY st s.state_sum
  let sum2 ← sum_rows fuel s.FX s.FY st sum1
  let sum3 ← sum_cols fuel s.FX s.FY st sum2
  let c := commit s sum3 { state_n := s.buf state_n, trace := s.trace, used := s.used }
  some { s with
    state1 := if state_n = Buf.b1 then c.state_n else s.state1
    state2 := if state_n = Buf.b2 then c.state_n else s.state2
    state := state_n
    state_sum := sum3
    state_tmp := st
    trace := c.trace
    used := c.used }

/-- Run `n` successive calls of `field_step`. -/
def steps (fuel : Nat) : Nat → Field → Option Field
  | 0, s => some s
  | n + 1, s => (field_step fuel s).bind (steps fuel n)

/-! ## Definitions used to state and prove the properties -/

/-- Frame relation on buffers: every cell of `b'` is as in `b` or holds a value
satisfying `P` for its index. -/
def Writes {β : Type} (P : Int → β → Prop) (b b' : Int → β) : Prop :=
  ∀ i, b' i = b i ∨ P i (b' i)

/-- The displacement left by the wrapping tests of the edge loops on one axis:
`if(x+dx < 0) dx = F-1; if(x+dx >= F) dx = 1-F;`. -/
def wrapd (F x d : Int) : Int :=
  let dx := if x + d < 0 then F - 1 else d
  if x + dx ≥ F then 1 - F else dx

/-- Binary snapshot of the current generation at the cell `(x, y)`: 1 if its age
is positive, else 0. -/
def alive (s : Field) (x y : Int) : Int :=
  if s.cur (y * s.FX + x) > 0 then 1 else 0

/-- The eight offsets of `{-1,0,1}^2` other than `(0,0)`. -/
def offsets : List (Int × Int) :=
  [(-1, -1), (-1, 0), (-1, 1), (0, -1), (0, 1), (1, -1), (1, 0), (1, 1)]

/-- Brute-force toroidal neighbour sum of the cell `(x, y)`, as the specification
words it: the sum over the eight offsets of the binary snapshot at
`((x+dx) mod FX, (y+dy) mod FY)`. -/
def torus_sum (s : Field) (x y : Int) : Int :=
  (offsets.map (fun d => alive s ((x + d.1) % s.FX) ((y + d.2) % s.FY))).sum

/-- The toroidal sum of the cell stored at index `i`. -/
def torus_at (s : Field) (i : Int) : Int := torus_sum s (i % s.FX) (i / s.FX)

/-- The buffer cell holds the toroidal sum of the grid cell it stores. -/
def SumOk (s : Field) : Int → Int → Prop := fun i v => v = torus_at s i

/-- The three summing loops in sequence, as `field_step` runs them. -/
def sum_loops (fuel : Nat) (s : Field) : Option (Int → Int) :=
  (sum_rows fuel s.FX s.FY (snapshot s)
    (sum_interior s.FX s.FY (snapshot s) s.state_sum)).bind
    (sum_cols fuel s.FX s.FY (snapshot s))

/-- The value `v` is what the rules give the cell of index `i` when `u` calls of
`rand()` precede it, the calls of the cell lying between `lo` and `hi`. -/
def Drawn (s : Field) (sum : Int → Int) (lo hi : Nat) (i : Int) (v : Int) : Prop :=
  ∃ u, lo ≤ u ∧ (cell_next s.rand_rules (s.cur i) (sum i) s.draws u).2 ≤ hi
    ∧ v = (cell_next s.rand_rules (s.cur i) (sum i) s.draws u).1

/-- Frame relation of the rule loop: calls of `rand()` only accumulate, and a
cell of `state_n` is untouched or holds a rule value. -/
def CommitRel (s : Field) (sum : Int → Int) (c d : Commit) : Prop :=
  c.used ≤ d.used
    ∧ ∀ i, d.state_n i = c.state_n i ∨ Drawn s sum c.used d.used i (d.state_n i)

/-- What `field_step` does once `state_sum` holds `sum3`: the rule loop and the
switch of `state`. -/
def step_result (s : Field) (sum3 : Int → Int) : Field :=
  let c := commit s sum3 { state_n := s.buf s.next, trace := s.trace, used := s.used }
  { s with
    state1 := if s.next = Buf.b1 then c.state_n else s.state1
    state2 := if s.next = Buf.b2 then c.state_n else s.state2
    state := s.next
    state_sum := sum3
    state_tmp := snapshot s
    trace := c.trace
    used := c.used }

/-- Number of calls of `rand()` that the rules make for a cell of age `a` and
neighbour sum `sum`: one when the stays-dead block reaches its draw (dead cell,
`sum == 2`, decremented age below -100) or the stays-alive block reaches its draw
(live cell, sum 2 or 3, incremented age above 100), none otherwise. -/
def cell_draws (rand_rules a sum : Int) : Nat :=
  if rand_rules ≠ 0 ∧ a ≤ 0 ∧ sum = 2 ∧ wrap32 (a - 1) < -100 then 1
  else if rand_rules ≠ 0 ∧ 0 < a ∧ (sum = 2 ∨ sum = 3) ∧ wrap32 (a + 1) > 100 then 1
  else 0

/-- The cells that the rule loop (`x` outer, `y` inner) visits before it reaches
the cell `(x, y)`: the columns `0 .. x-1`, then `(x, 0) .. (x, y-1)`. -/
def cells_before (FY x y : Int) : List (Int × Int) :=
  (upto 0 x).flatMap (fun x' => (upto 0 FY).map (fun y' => (x', y')))
    ++ (upto 0 y).map (fun y' => (x, y'))

/-- Number of calls of `rand()` that `field_step` makes before its rule loop
reaches the cell `(x, y)`: those of the cells visited earlier. -/
def draws_before (s : Field) (x y : Int) : Nat :=
  ((cells_before s.FY x y).map
    (fun p => cell_draws s.rand_rules (s.cur (p.2 * s.FX + p.1)) (torus_sum s p.1 p.2))).sum

/-- The position in the stream of draws of the value that `rand()` returns when it
is called for the cell `(x, y)`. -/
def draw_index (s : Field) (x y : Int) : Nat := s.used + draws_before s x y

/-- Every cell age of the current generation satisfies `|age| <= 101`. -/
def AgeBounded (s : Field) : Prop :=
  ∀ i ∈ upto 0 (s.FX * s.FY), |s.cur i| ≤ 101

/-- Every cell age of the current generation is 0 or 1. -/
def SeedAges (s : Field) : Prop :=
  ∀ i ∈ upto 0 (s.FX * s.FY), s.cur i = 0 ∨ s.cur i = 1

/-- The states the program passes through: `field_init` and `field_rand` on a grid
at least 2 x 2, then any number of calls of `field_step` that return, the keys `R`
and `N` setting `rand_rules` in between. -/
inductive Reachable : Field → Prop where
  | seed (g : Field) (x y : Int) : 2 ≤ x → 2 ≤ y →
      Reachable (field_rand (field_init g x y))
  | step (fuel : Nat) (s t : Field) : Reachable s → field_step fuel s = some t →
      Reachable t
  | rules (s : Field) (v : Int) : Reachable s → Reachable { s with rand_rules := v }

/-- The three cells of a line centred at `c` on a ring of `F` cells. -/
abbrev line (F c u : Int) : Prop := u = (c - 1) % F ∨ u = c ∨ u = (c + 1) % F

/-- Cells of the horizontal blinker with middle cell `(cx, cy)`. -/
abbrev blinkerH (FX cx cy x y : Int) : Prop := y = cy ∧ line FX cx x

/-- Cells of the vertical blinker with middle cell `(cx, cy)`. -/
abbrev blinkerV (FY cx cy x y : Int) : Prop := x = cx ∧ line FY cy y

/-- The current generation has age 1 on the cells of `P` and age 0 on all
other cells of the grid. -/
def IsPattern (s : Field) (P : Int → Int → Prop) [∀ x y, Decidable (P x y)] : Prop :=
  ∀ x y, 0 ≤ x → x < s.FX → 0 ≤ y → y < s.FY →
    s.cur (y * s.FX + x) = if P x y then 1 else 0

/-- A 6 x 6 grid in modified mode with a live cell of age `INT_MAX` at `(2, 2)`,
between two live cells of age 1 (its neighbour sum is 2), and a dead cell of age
`INT_MIN` at `(4, 2)` (its neighbour sum is 1). -/
def huge6 : Field :=
  { FX := 6, FY := 6,
    state1 := fun i =>
      if i = 13 then 1 else if i = 14 then 2147483647 else if i = 15 then 1
      else if i = 16 then -2147483648 else 0,
    state2 := fun _ => 0, state := Buf.b1,
    state_sum := fun _ => 0, state_tmp := fun _ => 0, trace := fun _ => 0,
    rand_rules := 1, draws := fun n => n, used := 0 }

/-- The globals as the program starts: zero-initialised, `rand_rules = 1`; the
stream of draws is a fixed one. -/
def start : Field :=
  { FX := 0, FY := 0, state1 := fun _ => 0, state2 := fun _ => 0, state := Buf.b1,
    state_sum := fun _ => 0, state_tmp := fun _ => 0, trace := fun _ => 0,
    rand_rules := 1, draws := fun n => n, used := 0 }

/-- Two machine states hold the same run: same dimensions, rule mode and random
generator (stream and position), and the same age in every cell of the current
generation.  Nothing is asked of the other age buffer, of `state_sum`,
`state_tmp`, `trace` or of which buffer `state` points to. -/
def SameRun (s s' : Field) : Prop :=
  s.FX = s'.FX ∧ s.FY = s'.FY ∧ s.rand_rules = s'.rand_rules ∧ s.draws = s'.draws
    ∧ s.used = s'.used ∧ ∀ i ∈ upto 0 (s.FX * s.FY), s.cur i = s'.cur i

/-- The index `i` is untouched between `c` and `d`. -/
def Untouched (c d : Commit) (i : Int) : Prop :=
  d.trace i = c.trace i ∧ d.state_n i = c.state_n i

/-- The trace at `i` received its one update `trace = trace*0.99 + 0.01*(next > 0)`
between `c` and `d`. -/
def Decayed (c d : Commit) (i : Int) : Prop :=
  d.trace i = c.trace i * (99 / 100) + (1 / 100) * (if d.state_n i > 0 then 1 else 0)

/-- Every cell's trace lies in `[0, 1)`. -/
def TraceInRange (s : Field) : Prop :=
  ∀ i ∈ upto 0 (s.FX * s.FY), 0 ≤ s.trace i ∧ s.trace i < 1

/-- How a call of `field_init` ends, with the globals it leaves: it returns, or
the exception thrown by an array allocation leaves it (`std::bad_array_new_length`,
for a negative size). -/
inductive Outcome where
  | returned (s : Field)
  | thrown (s : Field)

/-- A call `field_init(x, y)` with its failure path.  `FX` and `FY` are stored
first; the size `FX*FY` of the arrays is computed in `int`; the first allocation
`new int[FX*FY]` throws when that size is negative, before any buffer is set;
otherwise the loop clears `state1` and `trace` up to that size and `state` is set.
An allocation of a non-negative size is taken to succeed. -/
def field_init_call (g : Field) (x y : Int) : Outcome :=
  let g1 : Field := { g with FX := x, FY := y }
  let n := wrap32 (g1.FX * g1.FY)
  if n < 0 then Outcome.thrown g1
  else
    let z := (upto 0 n).foldl
      (fun (p : (Int → Int) × (Int → ℚ)) xx =>
        (Function.update p.1 xx 0, Function.update p.2 xx 0))
      (g1.state1, g1.trace)
    Outcome.returned { g1 with state1 := z.1, trace := z.2, state := Buf.b1 }

/-- A rounding to a floating-point format (`float` or `double`, any rounding
mode that is monotone): it is exact on the integers of magnitude at most `2^24`
and on `1/2`.  Every arithmetic operation of the colour and raster code on `float`
or `double` operands is the exact operation followed by such a rounding. -/
structure Rounding where
  rnd : ℚ → ℚ
  mono : ∀ a b : ℚ, a ≤ b → rnd a ≤ rnd b
  exact_int : ∀ n : Int, |n| ≤ 16777216 → rnd (n : ℚ) = (n : ℚ)
  exact_half : rnd (1 / 2) = 1 / 2

/-- Exact arithmetic, the rounding that changes nothing. -/
def exactRounding : Rounding :=
  { rnd := fun q => q
    mono := fun _ _ h => h
    exact_int := fun _ _ => rfl
    exact_half := rfl }

/-- Conversion of a floating value to `int`: truncation toward zero; when the
truncated value is not an `int` the conversion instruction yields `INT_MIN`. -/
def ctrunc (q : ℚ) : Int :=
  let t : Int := if 0 ≤ q then ⌊q⌋ else -⌊-q⌋
  if -2147483648 ≤ t ∧ t ≤ 2147483647 then t else -2147483648

/-- The value `r | (g<<8) | (b<<16)`. -/
def pack (r g b : Int) : Int := Int.lor (Int.lor r (g <<< (8 : Int))) (b <<< (16 : Int))

/-- The channels `(r, g, b)` that `age2col` has computed when it reaches its last
line, for the `float` argument `st > 0`; `fl` rounds the `float` operations and
`dl` the `double` ones of `255 * (1.0 - vv)`. -/
def age2col_rgb (fl dl : Rounding) (st : ℚ) : Int × Int × Int :=
  let T1 : ℚ := 3
  let T2 : ℚ := 15
  let T3 : ℚ := 50
  let T4 : ℚ := 100
  if st < T1 then (0, 255, 0)
  else if st < T2 then
    let vv := fl.rnd (fl.rnd (st - T1) / fl.rnd (T2 - T1))
    (0, ctrunc (dl.rnd (255 * dl.rnd (1 - vv))), ctrunc (fl.rnd (255 * vv)))
  else if st < T3 then (0, 0, 255)
  else if st < T4 then
    let vv := fl.rnd (fl.rnd (st - T3) / fl.rnd (T4 - T3))
    (ctrunc (fl.rnd (255 * vv)), 0, ctrunc (dl.rnd (255 * dl.rnd (1 - vv))))
  else (255, 0, 0)

/-- The function `age2col(st)` called, as `draw_field` does, with an `int` age that
is converted to `float`. -/
def age2col (fl dl : Rounding) (age : Int) : Int :=
  let st : ℚ := fl.rnd (age : ℚ)
  if st ≤ 0 then 0
  else
    let c := age2col_rgb fl dl st
    pack c.1 c.2.1 c.2.2

/-- A memory access of `draw_field`: a read of `trace[i]`, a read of `state[i]` or
a store to `draw_pix[i]`. -/
inductive Access where
  | readTrace (i : Int)
  | readState (i : Int)
  | writePix (i : Int)
  deriving DecidableEq

/-- Body of the pixel loop of `draw_field` for the pixel `(x, y)`: the accesses it
makes, in order (none when the pixel is skipped by `continue`).  The values read
and the bytes stored are not part of the model: no index depends on them.  The
index `didx` of the pixel in the buffer is computed in `int`. -/
def draw_pixel (fl : Rounding) (FX FY w draw_trace : Int) (zm1 : ℚ) (DX DY x y : Int) :
    List Access :=
  let x0 := ctrunc (fl.rnd (fl.rnd ((x + DX : Int) : ℚ) * zm1))
  let y0 := ctrunc (fl.rnd (fl.rnd ((y + DY : Int) : ℚ) * zm1))
  if x0 < 0 ∨ x0 > FX then []
  else if y0 < 0 ∨ y0 > FY then []
  else
    let x1 := x0 + 1
    let y1 := y0 + 1
    let x1 := if x1 ≥ FX then 0 else x1
    let y1 := if y1 ≥ FY then 0 else y1
    let didx := wrap32 (wrap32 (y * w) + x)
    let didx := wrap32 (didx * 4)
    [Access.readTrace (y0 * FX + x0), Access.readTrace (y0 * FX + x1),
      Access.readTrace (y1 * FX + x0), Access.readTrace (y1 * FX + x1),
      Access.readState (y0 * FX + x0), Access.readState (y0 * FX + x1),
      Access.readState (y1 * FX + x0), Access.readState (y1 * FX + x1)]
    ++ (if draw_trace = 0 then [Access.readState (y0 * FX + x0)] else [])
    ++ [Access.writePix (wrap32 (didx + 2)), Access.writePix (wrap32 (didx + 1)),
      Access.writePix (wrap32 (didx + 0)), Access.writePix (wrap32 (didx + 3))]

/-- The function `draw_field(draw_pix, w, h, zm, sx, sy)` on the grid of `s`, as
the list of its memory accesses; `draw_trace` is the global of that name. -/
def draw_field (fl dl : Rounding) (s : Field) (draw_trace w h : Int) (zm sx sy : ℚ) :
    List Access :=
  let DX := ctrunc (fl.rnd (sx * zm))
  let DY := ctrunc (fl.rnd (sy * zm))
  let RX := ctrunc (fl.rnd (fl.rnd (s.FX : ℚ) * zm))
  let RY := ctrunc (fl.rnd (fl.rnd (s.FY : ℚ) * zm))
  let RX := if RX > w then w else RX
  let RY := if RY > h then h else RY
  let zm1 := fl.rnd (dl.rnd (1 / zm))
  (upto 0 RX).flatMap fun x =>
    (upto 0 RY).flatMap fun y => draw_pixel fl s.FX s.FY w draw_trace zm1 DX DY x y

/-- A 5 x 5 grid in classical mode holding the blinker `(1,2)`, `(2,2)`, `(3,2)`. -/
def blinker5 : Field :=
  { FX := 5, FY := 5,
    state1 := fun i => if i = 11 ∨ i = 12 ∨ i = 13 then 1 else 0,
    state2 := fun _ => 0, state := Buf.b1,
    state_sum := fun _ => 0, state_tmp := fun _ => 0, trace := fun _ => 0,
    rand_rules := 0, draws := fun n => n, used := 0 }

/-- A 6 x 6 grid in modified mode with cells of ages 100, 50, 7, 1, -5, -37 and
-100; every draw is 99. -/
def aged6 : Field :=
  { FX := 6, FY := 6,
    state1 := fun i =>
      if i = 13 then 1 else if i = 14 then 100 else if i = 15 then 1
      else if i = 8 then 7 else if i = 29 then 50 else if i = 6 then -5
      else if i = 19 then -100 else if i = 16 then -100 else if i = 32 then -37
      else 0,
    state2 := fun _ => 0, state := Buf.b1,
    state_sum := fun _ => 0, state_tmp := fun _ => 0, trace := fun _ => 0,
    rand_rules := 1, draws := fun _ => 99, used := 0 }

/-- A 4 x 4 grid in classical mode with live cells in three corners. -/
def corner4 : Field :=
  { FX := 4, FY := 4,
    state1 := fun i => if i = 0 ∨ i = 3 ∨ i = 15 then 1 else 0,
    state2 := fun _ => 0, state := Buf.b1,
    state_sum := fun _ => 0, state_tmp := fun _ => 0, trace := fun _ => 0,
    rand_rules := 0, draws := fun n => n, used := 0 }

/-- The grid `aged6` with a stream whose first draw is 99 and whose other draws
are 0: the dead cell `(1, 3)` of age -100 receives the first draw of the step and
the live cell `(2, 2)` of age 100 the second. -/
def aged6_stream : Field :=
  { aged6 with draws := fun n => if n = 0 then 99 else 0 }

/-- The grid `aged6` with other contents in the next-generation buffer, the scratch
buffers and the trace. -/
def aged6_dirty : Field :=
  { aged6 with
    state2 := fun i => 7 - i, state_sum := fun _ => 5, state_tmp := fun i => i,
    trace := fun _ => 1 / 2 }

/-- A 6 x 6 grid in modified mode with ages next to the `int` limits: a live cell
of age `INT_MAX - 1` at `(2, 2)` between two live cells of age 1, and a dead cell of
age `INT_MIN + 1` at `(4, 2)`. -/
def large6 : Field :=
  { FX := 6, FY := 6,
    state1 := fun i =>
      if i = 13 then 1 else if i = 14 then 2147483646 else if i = 15 then 1
      else if i = 16 then -2147483647 else 0,
    state2 := fun _ => 0, state := Buf.b1,
    state_sum := fun _ => 0, state_tmp := fun _ => 0, trace := fun _ => 0,
    rand_rules := 1, draws := fun n => n, used := 0 }

/-! ## Loop lemmas -/

theorem mem_upto (lo hi i : Int) : i ∈ upto lo hi ↔ lo ≤ i ∧ i < hi := by
  unfold upto
  simp only [List.mem_map, List.mem_range]
  constructor
  · rintro ⟨k, hk, rfl⟩
    omega
  · rintro ⟨h1, h2⟩
    refine ⟨(i - lo).toNat, ?_, ?_⟩ <;> omega

/-- Invariant rule for a `for` loop: a transitive frame relation `R` kept by every
iteration, and a fact `Q a` established by iteration `a` and kept by `R`. -/
theorem foldl_inv {α γ : Type} (R : γ → γ → Prop) (Q : α → γ → Prop)
    (f : γ → α → γ) (l : List α) (c0 : γ)
    (hrefl : ∀ c, R c c) (htrans : ∀ a b c, R a b → R b c → R a c)
    (hpres : ∀ a c d, R c0 c → Q a c → R c d → Q a d)
    (hstep : ∀ c, R c0 c → ∀ a ∈ l, R c (f c a) ∧ Q a (f c a)) :
    R c0 (l.foldl f c0) ∧ ∀ a ∈ l, Q a (l.foldl f c0) := by
  have aux : ∀ (l : List α), (∀ c, R c0 c → ∀ a ∈ l, R c (f c a) ∧ Q a (f c a)) →
      ∀ c, R c0 c → R c (l.foldl f c) ∧ ∀ a ∈ l, Q a (l.foldl f c) := by
    intro l
    induction l with
    | nil => intro _ c _; exact ⟨hrefl c, by simp⟩
    | cons a l ih =>
      intro hs c hc
      obtain ⟨h3, h4⟩ := hs c hc a (List.mem_cons_self a l)
      have hc1 : R c0 (f c a) := htrans _ _ _ hc h3
      obtain ⟨h1, h2⟩ := ih (fun c hc b hb => hs c hc b (List.mem_cons_of_mem a hb)) (f c a) hc1
      refine ⟨htrans _ _ _ h3 h1, ?_⟩
      intro b hb
      rcases List.mem_cons.1 hb with rfl | hb
      · exact hpres _ _ _ hc1 h4 h1
      · exact h2 b hb
  exact aux l hstep c0 (hrefl c0)

/-- A loop in `Option` whose body always returns is the plain loop. -/
theorem foldlM_some {α γ : Type} (f : γ → α → Option γ) (g : γ → α → γ) (l : List α)
    (h : ∀ c, ∀ a ∈ l, f c a = some (g c a)) (c0 : γ) :
    l.foldlM f c0 = some (l.foldl g c0) := by
  induction l generalizing c0 with
  | nil => rfl
  | cons a l ih =>
    rw [List.foldlM_cons, h c0 a (List.mem_cons_self a l)]
    exact ih (fun c b hb => h c b (List.mem_cons_of_mem a hb)) (g c0 a)

/-- A loop in `Option` one of whose iterations fails, fails. -/
theorem foldlM_none {α γ : Type} (f : γ → α → Option γ) (l : List α)
    (hne : l ≠ []) (h : ∀ c a, f c a = none) (c0 : γ) :
    l.foldlM f c0 = none := by
  cases l with
  | nil => exact absurd rfl hne
  | cons a l => rw [List.foldlM_cons, h c0 a]; rfl

/-- With a bound of at least 2 the stride `bound - 1` visits `0` and `bound - 1`
and stops at the third test. -/
theorem strideLoop_two {σ : Type} (bound : Int) (body : Int → σ → σ) (fuel : Nat)
    (hb : 2 ≤ bound) (hf : 3 ≤ fuel) (s : σ) :
    strideLoop bound (bound - 1) body fuel 0 s = some (body (bound - 1) (body 0 s)) := by
  obtain ⟨k, rfl⟩ : ∃ k, fuel = k + 3 := ⟨fuel - 3, by omega⟩
  have h1 : (0 : Int) < bound := by omega
  have h2 : (0 : Int) + (bound - 1) < bound := by omega
  have h3 : ¬ ((0 : Int) + (bound - 1) + (bound - 1) < bound) := by omega
  simp only [strideLoop, h1, h2, h3, if_true, if_false]
  simp

/-- With stride 0 and a start below the bound the loop never leaves. -/
theorem strideLoop_zero {σ : Type} (bound : Int) (body : Int → σ → σ) (i : Int)
    (hi : i < bound) (fuel : Nat) (s : σ) :
    strideLoop bound 0 body fuel i s = none := by
  induction fuel generalizing s with
  | zero => rfl
  | succ n ih =>
    simp only [strideLoop, hi, if_true, add_zero]
    exact ih _

/-! ## Buffers written by loops -/

theorem writes_refl {β : Type} (P : Int → β → Prop) (b : Int → β) : Writes P b b :=
  fun _ => Or.inl rfl

theorem writes_trans {β : Type} {P : Int → β → Prop} {a b c : Int → β}
    (h1 : Writes P a b) (h2 : Writes P b c) : Writes P a c := by
  intro i
  rcases h2 i with h | h
  · rcases h1 i with h' | h'
    · exact Or.inl (h.trans h')
    · exact Or.inr (by rw [h]; exact h')
  · exact Or.inr h

theorem writes_keep {β : Type} {P : Int → β → Prop} {b c : Int → β}
    (h : Writes P b c) {i : Int} (hi : P i (b i)) : P i (c i) := by
  rcases h i with h' | h'
  · rw [h']; exact hi
  · exact h'

theorem writes_update {β : Type} {P : Int → β → Prop} (b : Int → β) {k : Int} {v : β}
    (h : P k v) : Writes P b (Function.update b k v) := by
  intro i
  by_cases hik : i = k
  · subst hik; right; simpa using h
  · left; simp [Function.update, hik]

/-- A loop over buffers each of whose iterations only stores `P`-values, and
stores one at every index of `K a`. -/
theorem foldl_writes {α β : Type} (P : Int → β → Prop) (K : α → Int → Prop)
    (f : (Int → β) → α → (Int → β)) (l : List α)
    (hstep : ∀ b, ∀ a ∈ l, Writes P b (f b a) ∧ ∀ i, K a i → P i (f b a i))
    (b0 : Int → β) :
    Writes P b0 (l.foldl f b0) ∧ ∀ a ∈ l, ∀ i, K a i → P i (l.foldl f b0 i) :=
  foldl_inv (Writes P) (fun a b => ∀ i, K a i → P i (b i)) f l b0
    (writes_refl P) (fun _ _ _ => writes_trans)
    (fun _ _ _ _ hq hr i hi => writes_keep hr (hq i hi)) (fun c _ => hstep c)

/-! ## Cells and indices -/

theorem index_lt (FX FY x y : Int) (hx0 : 0 ≤ x) (hx : x < FX) (hy0 : 0 ≤ y) (hy : y < FY) :
    0 ≤ y * FX + x ∧ y * FX + x < FX * FY := by
  have h1 : 0 ≤ y * FX := mul_nonneg hy0 (by omega)
  have h2 : (y + 1) * FX ≤ FY * FX := mul_le_mul_of_nonneg_right (by omega) (by omega)
  constructor
  · omega
  · nlinarith

theorem index_emod (FX x y : Int) (hx0 : 0 ≤ x) (hx : x < FX) : (y * FX + x) % FX = x := by
  rw [add_comm, Int.add_mul_emod_self]
  exact Int.emod_eq_of_lt hx0 hx

theorem index_ediv (FX x y : Int) (hx0 : 0 ≤ x) (hx : x < FX) : (y * FX + x) / FX = y := by
  rw [add_comm, Int.add_mul_ediv_right _ _ (by omega : FX ≠ 0), Int.ediv_eq_zero_of_lt hx0 hx]
  simp

/-- Every index of the grid is the index of a cell `(x, y)`. -/
theorem cell_of_index (FX FY i : Int) (h0 : 0 ≤ i) (h : i < FX * FY) (hFX : 0 < FX) :
    0 ≤ i % FX ∧ i % FX < FX ∧ 0 ≤ i / FX ∧ i / FX < FY ∧ i = (i / FX) * FX + i % FX := by
  have h1 := Int.emod_nonneg i (by omega : FX ≠ 0)
  have h2 := Int.emod_lt_of_pos i hFX
  have h3 := Int.ediv_add_emod i FX
  have h4 : 0 ≤ i / FX := Int.ediv_nonneg h0 (by omega)
  have h5 : i / FX < FY := by
    by_contra hc
    have : FX * FY ≤ FX * (i / FX) := mul_le_mul_of_nonneg_left (by omega) (by omega)
    omega
  refine ⟨h1, h2, h4, h5, ?_⟩
  rw [mul_comm]; omega

theorem emod_of_shift (z F r k : Int) (h : r = z + k * F) (h0 : 0 ≤ r) (h1 : r < F) :
    z % F = r := by
  rw [← Int.add_mul_emod_self (a := z) (b := k) (c := F), ← h]
  exact Int.emod_eq_of_lt h0 h1

theorem wrapd_spec (F x d : Int) (hx0 : 0 ≤ x) (hx : x < F)
    (hd : d = -1 ∨ d = 0 ∨ d = 1) : x + wrapd F x d = (x + d) % F := by
  unfold wrapd
  by_cases h1 : x + d < 0
  · have h2 : ¬ (x + (F - 1) ≥ F) := by omega
    simp only [h1, h2, if_true, if_false]
    exact (emod_of_shift (x + d) F _ 1 (by omega) (by omega) (by omega)).symm
  · by_cases h2 : x + d ≥ F
    · simp only [h1, h2, if_true, if_false]
      exact (emod_of_shift (x + d) F _ (-1) (by omega) (by omega) (by omega)).symm
    · simp only [h1, h2, if_false]
      exact (emod_of_shift (x + d) F _ 0 (by omega) (by omega) (by omega)).symm

/-! ## Neighbour sums -/

theorem snapshot_index (s : Field) (i : Int) (h0 : 0 ≤ i) (h : i < s.FX * s.FY) :
    snapshot s i = if s.cur i > 0 then 1 else 0 := by
  have key := (foldl_writes (fun i v => v = if s.cur i > 0 then 1 else 0)
    (fun a i => i = a)
    (fun st x => Function.update st x (if s.cur x > 0 then 1 else 0))
    (upto 0 (s.FX * s.FY))
    (fun b a _ => ⟨writes_update b rfl, fun i hi => by subst hi; simp⟩) s.state_tmp).2
  exact key i ((mem_upto _ _ _).2 ⟨h0, h⟩) i rfl

theorem snapshot_cell (s : Field) (x y : Int) (hx0 : 0 ≤ x) (hx : x < s.FX)
    (hy0 : 0 ≤ y) (hy : y < s.FY) : snapshot s (y * s.FX + x) = alive s x y := by
  obtain ⟨h1, h2⟩ := index_lt s.FX s.FY x y hx0 hx hy0 hy
  rw [snapshot_index s _ h1 h2]; rfl

theorem emod_range (F z : Int) (hF : 0 < F) : 0 ≤ z % F ∧ z % F < F :=
  ⟨Int.emod_nonneg z (by omega), Int.emod_lt_of_pos z hF⟩

/-- One term of the edge loops is the snapshot of the wrapped neighbour. -/
theorem wrap_term (s : Field) (x y dx dy : Int) (hx0 : 0 ≤ x) (hx : x < s.FX)
    (hy0 : 0 ≤ y) (hy : y < s.FY) (hdx : dx = -1 ∨ dx = 0 ∨ dx = 1)
    (hdy : dy = -1 ∨ dy = 0 ∨ dy = 1) :
    snapshot s ((y + wrapd s.FY y dy) * s.FX + x + wrapd s.FX x dx)
      = alive s ((x + dx) % s.FX) ((y + dy) % s.FY) := by
  rw [add_assoc, wrapd_spec s.FX x dx hx0 hx hdx, wrapd_spec s.FY y dy hy0 hy hdy]
  obtain ⟨a1, a2⟩ := emod_range s.FX (x + dx) (by omega)
  obtain ⟨b1, b2⟩ := emod_range s.FY (y + dy) (by omega)
  exact snapshot_cell s _ _ a1 a2 b1 b2

/-- The double offset loop of the edge paths, unrolled. -/
theorem wrap_sum_unroll (FX FY : Int) (st : Int → Int) (x y : Int) :
    wrap_sum FX FY st x y =
      0 + st ((y + wrapd FY y (-1)) * FX + x + wrapd FX x (-1))
        + st ((y + wrapd FY y 0) * FX + x + wrapd FX x (-1))
        + st ((y + wrapd FY y 1) * FX + x + wrapd FX x (-1))
        + st ((y + wrapd FY y (-1)) * FX + x + wrapd FX x 0)
        + st ((y + wrapd FY y 1) * FX + x + wrapd FX x 0)
        + st ((y + wrapd FY y (-1)) * FX + x + wrapd FX x 1)
        + st ((y + wrapd FY y 0) * FX + x + wrapd FX x 1)
        + st ((y + wrapd FY y 1) * FX + x + wrapd FX x 1) := by
  rfl

/-- The edge-loop body computes the brute-force toroidal sum. -/
theorem wrap_sum_eq (s : Field) (x y : Int) (hx0 : 0 ≤ x) (hx : x < s.FX)
    (hy0 : 0 ≤ y) (hy : y < s.FY) :
    wrap_sum s.FX s.FY (snapshot s) x y = torus_sum s x y := by
  have e : ∀ dx dy, dx = -1 ∨ dx = 0 ∨ dx = 1 → dy = -1 ∨ dy = 0 ∨ dy = 1 →
      snapshot s ((y + wrapd s.FY y dy) * s.FX + x + wrapd s.FX x dx)
        = alive s ((x + dx) % s.FX) ((y + dy) % s.FY) :=
    fun dx dy h1 h2 => wrap_term s x y dx dy hx0 hx hy0 hy h1 h2
  rw [wrap_sum_unroll, e (-1) (-1) (by simp) (by simp), e (-1) 0 (by simp) (by simp),
    e (-1) 1 (by simp) (by simp), e 0 (-1) (by simp) (by simp), e 0 1 (by simp) (by simp),
    e 1 (-1) (by simp) (by simp), e 1 0 (by simp) (by simp), e 1 1 (by simp) (by simp)]
  simp only [torus_sum, offsets, List.map, List.sum_cons, List.sum_nil]
  ring

/-- The explicit eight-term sum of the interior loop is the brute-force toroidal
sum, for a cell all of whose neighbours are inside the grid. -/
theorem interior_sum_eq (s : Field) (x y : Int) (hx1 : 1 ≤ x) (hx : x < s.FX - 1)
    (hy1 : 1 ≤ y) (hy : y < s.FY - 1) :
    snapshot s (y * s.FX + x - 1) + snapshot s (y * s.FX + x + 1)
      + (snapshot s (y * s.FX + x - s.FX - 1) + snapshot s (y * s.FX + x - s.FX)
          + snapshot s (y * s.FX + x - s.FX + 1))
      + (snapshot s (y * s.FX + x + s.FX - 1) + snapshot s (y * s.FX + x + s.FX)
          + snapshot s (y * s.FX + x + s.FX + 1))
      = torus_sum s x y := by
  have e : ∀ dx dy, (dx = -1 ∨ dx = 0 ∨ dx = 1) → (dy = -1 ∨ dy = 0 ∨ dy = 1) →
      snapshot s ((y + dy) * s.FX + (x + dx))
        = alive s ((x + dx) % s.FX) ((y + dy) % s.FY) := by
    intro dx dy hdx hdy
    rw [Int.emod_eq_of_lt (by omega : 0 ≤ x + dx) (by omega),
      Int.emod_eq_of_lt (by omega : 0 ≤ y + dy) (by omega)]
    exact snapshot_cell s _ _ (by omega) (by omega) (by omega) (by omega)
  rw [show y * s.FX + x - 1 = (y + 0) * s.FX + (x + -1) by ring,
    show y * s.FX + x + 1 = (y + 0) * s.FX + (x + 1) by ring,
    show y * s.FX + x - s.FX - 1 = (y + -1) * s.FX + (x + -1) by ring,
    show y * s.FX + x - s.FX + 1 = (y + -1) * s.FX + (x + 1) by ring,
    show y * s.FX + x - s.FX = (y + -1) * s.FX + (x + 0) by ring,
    show y * s.FX + x + s.FX - 1 = (y + 1) * s.FX + (x + -1) by ring,
    show y * s.FX + x + s.FX + 1 = (y + 1) * s.FX + (x + 1) by ring,
    show y * s.FX + x + s.FX = (y + 1) * s.FX + (x + 0) by ring,
    e (-1) 0 (by simp) (by simp), e 1 0 (by simp) (by simp),
    e (-1) (-1) (by simp) (by simp), e 0 (-1) (by simp) (by simp),
    e 1 (-1) (by simp) (by simp), e (-1) 1 (by simp) (by simp),
    e 0 1 (by simp) (by simp), e 1 1 (by simp) (by simp)]
  simp only [torus_sum, offsets, List.map, List.sum_cons, List.sum_nil]
  ring

theorem torus_at_cell (s : Field) (x y : Int) (hx0 : 0 ≤ x) (hx : x < s.FX) :
    torus_at s (y * s.FX + x) = torus_sum s x y := by
  unfold torus_at
  rw [index_emod s.FX x y hx0 hx, index_ediv s.FX x y hx0 hx]

/-- An inner loop over `y` storing `val y` at `(x, y)`, every value being right. -/
theorem column_loop (s : Field) (x : Int) (val : Int → Int) (l : List Int)
    (h : ∀ y ∈ l, val y = torus_at s (y * s.FX + x)) (b : Int → Int) :
    Writes (SumOk s) b (l.foldl (fun acc y => Function.update acc (y * s.FX + x) (val y)) b)
    ∧ ∀ y ∈ l, l.foldl (fun acc y => Function.update acc (y * s.FX + x) (val y)) b
        (y * s.FX + x) = torus_at s (y * s.FX + x) := by
  have key := foldl_writes (SumOk s) (fun y i => i = y * s.FX + x)
    (fun acc y => Function.update acc (y * s.FX + x) (val y)) l
    (fun b y hy => ⟨writes_update b (h y hy), fun i hi => by
      subst hi; simp [SumOk, h y hy]⟩) b
  exact ⟨key.1, fun y hy => key.2 y hy _ rfl⟩

theorem sum_interior_spec (s : Field) (b : Int → Int) :
    Writes (SumOk s) b (sum_interior s.FX s.FY (snapshot s) b)
    ∧ ∀ x y, 1 ≤ x → x < s.FX - 1 → 1 ≤ y → y < s.FY - 1 →
        sum_interior s.FX s.FY (snapshot s) b (y * s.FX + x) = torus_sum s x y := by
  have key := foldl_writes (SumOk s)
    (fun x i => ∃ y, 1 ≤ y ∧ y < s.FY - 1 ∧ i = y * s.FX + x)
    (fun acc x =>
      (upto 1 (s.FY - 1)).foldl
        (fun acc y =>
          let idx := y * s.FX + x
          Function.update acc idx
            (snapshot s (idx - 1) + snapshot s (idx + 1)
              + (snapshot s (idx - s.FX - 1) + snapshot s (idx - s.FX)
                  + snapshot s (idx - s.FX + 1))
              + (snapshot s (idx + s.FX - 1) + snapshot s (idx + s.FX)
                  + snapshot s (idx + s.FX + 1))))
        acc)
    (upto 1 (s.FX - 1))
    (fun b x hx => by
      obtain ⟨hx1, hx2⟩ := (mem_upto _ _ _).1 hx
      have c := column_loop s x
        (fun y =>
          snapshot s (y * s.FX + x - 1) + snapshot s (y * s.FX + x + 1)
            + (snapshot s (y * s.FX + x - s.FX - 1) + snapshot s (y * s.FX + x - s.FX)
                + snapshot s (y * s.FX + x - s.FX + 1))
            + (snapshot s (y * s.FX + x + s.FX - 1) + snapshot s (y * s.FX + x + s.FX)
                + snapshot s (y * s.FX + x + s.FX + 1)))
        (upto 1 (s.FY - 1)) (fun y hy => by
        obtain ⟨hy1, hy2⟩ := (mem_upto _ _ _).1 hy
        rw [torus_at_cell s x y (by omega) (by omega)]
        exact interior_sum_eq s x y hx1 hx2 hy1 hy2) b
      refine ⟨c.1, ?_⟩
      rintro i ⟨y, hy1, hy2, rfl⟩
      exact c.2 y ((mem_upto _ _ _).2 ⟨hy1, hy2⟩)) b
  refine ⟨key.1, ?_⟩
  intro x y hx1 hx2 hy1 hy2
  have := key.2 x ((mem_upto _ _ _).2 ⟨hx1, hx2⟩) (y * s.FX + x) ⟨y, hy1, hy2, rfl⟩
  rw [← torus_at_cell s x y (by omega) (by omega)]
  exact this

theorem sum_rows_spec (s : Field) (fuel : Nat) (hFY : 2 ≤ s.FY) (hf : 3 ≤ fuel)
    (b : Int → Int) :
    ∃ r, sum_rows fuel s.FX s.FY (snapshot s) b = some r ∧ Writes (SumOk s) b r
      ∧ ∀ x y, 0 ≤ x → x < s.FX → (y = 0 ∨ y = s.FY - 1) →
          r (y * s.FX + x) = torus_sum s x y := by
  let body : (Int → Int) → Int → (Int → Int) := fun acc x =>
    Function.update
      (Function.update acc (0 * s.FX + x) (wrap_sum s.FX s.FY (snapshot s) x 0))
      ((s.FY - 1) * s.FX + x) (wrap_sum s.FX s.FY (snapshot s) x (s.FY - 1))
  have hrun : sum_rows fuel s.FX s.FY (snapshot s) b
      = some ((upto 0 s.FX).foldl body b) := by
    unfold sum_rows
    exact foldlM_some _ body _ (fun c x _ => strideLoop_two s.FY _ fuel hFY hf c) b
  have hval : ∀ x y, 0 ≤ x → x < s.FX → (y = 0 ∨ y = s.FY - 1) →
      wrap_sum s.FX s.FY (snapshot s) x y = torus_at s (y * s.FX + x) := by
    intro x y hx0 hx hy
    rw [torus_at_cell s x y hx0 hx]
    exact wrap_sum_eq s x y hx0 hx (by omega) (by omega)
  have key := foldl_writes (SumOk s)
    (fun x i => i = 0 * s.FX + x ∨ i = (s.FY - 1) * s.FX + x) body (upto 0 s.FX)
    (fun b x hx => by
      obtain ⟨hx0, hx1⟩ := (mem_upto _ _ _).1 hx
      have w1 : Writes (SumOk s) b
          (Function.update b (0 * s.FX + x) (wrap_sum s.FX s.FY (snapshot s) x 0)) :=
        writes_update b (hval x 0 hx0 hx1 (Or.inl rfl))
      have w2 : Writes (SumOk s)
          (Function.update b (0 * s.FX + x) (wrap_sum s.FX s.FY (snapshot s) x 0))
          (body b x) :=
        writes_update _ (hval x (s.FY - 1) hx0 hx1 (Or.inr rfl))
      refine ⟨writes_trans w1 w2, ?_⟩
      intro i hi
      rcases hi with rfl | rfl
      · refine writes_keep w2 ?_
        simp [SumOk, hval x 0 hx0 hx1 (Or.inl rfl)]
      · simp [SumOk, body, hval x (s.FY - 1) hx0 hx1 (Or.inr rfl)]) b
  refine ⟨_, hrun, key.1, ?_⟩
  intro x y hx0 hx hy
  rw [← torus_at_cell s x y hx0 hx]
  refine key.2 x ((mem_upto _ _ _).2 ⟨hx0, hx⟩) _ ?_
  rcases hy with rfl | rfl
  · exact Or.inl rfl
  · exact Or.inr rfl

theorem sum_cols_spec (s : Field) (fuel : Nat) (hFX : 2 ≤ s.FX) (hf : 3 ≤ fuel)
    (b : Int → Int) :
    ∃ r, sum_cols fuel s.FX s.FY (snapshot s) b = some r ∧ Writes (SumOk s) b r
      ∧ ∀ x y, (x = 0 ∨ x = s.FX - 1) → 0 ≤ y → y < s.FY →
          r (y * s.FX + x) = torus_sum s x y := by
  have hcol : ∀ x, (x = 0 ∨ x = s.FX - 1) → ∀ c : Int → Int,
      Writes (SumOk s) c
        ((upto 0 s.FY).foldl
          (fun acc y => Function.update acc (y * s.FX + x)
            (wrap_sum s.FX s.FY (snapshot s) x y)) c)
      ∧ ∀ y ∈ upto 0 s.FY,
        (upto 0 s.FY).foldl
          (fun acc y => Function.update acc (y * s.FX + x)
            (wrap_sum s.FX s.FY (snapshot s) x y)) c (y * s.FX + x)
          = torus_at s (y * s.FX + x) := by
    intro x hx c
    refine column_loop s x (fun y => wrap_sum s.FX s.FY (snapshot s) x y) (upto 0 s.FY) ?_ c
    intro y hy
    obtain ⟨hy0, hy1⟩ := (mem_upto _ _ _).1 hy
    rw [torus_at_cell s x y (by omega) (by omega)]
    exact wrap_sum_eq s x y (by omega) (by omega) hy0 hy1
  refine ⟨_, strideLoop_two s.FX _ fuel hFX hf b, ?_, ?_⟩
  · exact writes_trans (hcol 0 (Or.inl rfl) b).1 (hcol (s.FX - 1) (Or.inr rfl) _).1
  · intro x y hx hy0 hy1
    have hm : y ∈ upto 0 s.FY := (mem_upto _ _ _).2 ⟨hy0, hy1⟩
    rw [← torus_at_cell s x y (by omega) (by omega)]
    rcases hx with rfl | rfl
    · exact writes_keep (hcol (s.FX - 1) (Or.inr rfl) _).1 ((hcol 0 (Or.inl rfl) b).2 y hm)
    · exact (hcol (s.FX - 1) (Or.inr rfl) _).2 y hm

/-- On a grid at least 2 x 2 the summing loops end, and leave in every cell of
`state_sum` the brute-force toroidal sum. -/
theorem sum_loops_spec (s : Field) (fuel : Nat) (hFX : 2 ≤ s.FX) (hFY : 2 ≤ s.FY)
    (hf : 3 ≤ fuel) :
    ∃ r, sum_loops fuel s = some r
      ∧ ∀ x y, 0 ≤ x → x < s.FX → 0 ≤ y → y < s.FY →
          r (y * s.FX + x) = torus_sum s x y := by
  obtain ⟨i1, i2⟩ := sum_interior_spec s s.state_sum
  obtain ⟨r1, e1, w1, c1⟩ := sum_rows_spec s fuel hFY hf
    (sum_interior s.FX s.FY (snapshot s) s.state_sum)
  obtain ⟨r2, e2, w2, c2⟩ := sum_cols_spec s fuel hFX hf r1
  refine ⟨r2, by simp [sum_loops, e1, e2], ?_⟩
  intro x y hx0 hx hy0 hy
  by_cases hxe : x = 0 ∨ x = s.FX - 1
  · exact c2 x y hxe hy0 hy
  · have hc : SumOk s (y * s.FX + x) (r1 (y * s.FX + x)) := by
      by_cases hye : y = 0 ∨ y = s.FY - 1
      · show r1 (y * s.FX + x) = torus_at s (y * s.FX + x)
        rw [torus_at_cell s x y hx0 hx]
        exact c1 x y hx0 hx hye
      · refine writes_keep w1 ?_
        show _ = torus_at s (y * s.FX + x)
        rw [torus_at_cell s x y hx0 hx]
        exact i2 x y (by omega) (by omega) (by omega) (by omega)
    have := writes_keep w2 hc
    rw [← torus_at_cell s x y hx0 hx]
    exact this

/-! ## The rule loop -/

theorem stays_dead_used (a sum n : Int) (draws : Nat → Nat) (u : Nat) :
    u ≤ (stays_dead a sum n draws u).2 := by
  unfold stays_dead
  dsimp only
  split_ifs <;> simp

theorem stays_alive_used (a n : Int) (draws : Nat → Nat) (u : Nat) :
    u ≤ (stays_alive a n draws u).2 := by
  unfold stays_alive
  dsimp only
  split_ifs <;> simp

theorem cell_next_used (r a sum : Int) (draws : Nat → Nat) (u : Nat) :
    u ≤ (cell_next r a sum draws u).2 := by
  unfold cell_next
  split_ifs
  · exact le_trans (stays_dead_used a sum _ draws u) (stays_alive_used a _ draws _)
  · exact le_refl u

theorem drawn_mono {s : Field} {sum : Int → Int} {lo hi lo' hi' : Nat} {i v : Int}
    (h : Drawn s sum lo hi i v) (h1 : lo' ≤ lo) (h2 : hi ≤ hi') :
    Drawn s sum lo' hi' i v := by
  obtain ⟨u, a, b, c⟩ := h
  exact ⟨u, le_trans h1 a, le_trans b h2, c⟩

theorem commitRel_refl (s : Field) (sum : Int → Int) (c : Commit) : CommitRel s sum c c :=
  ⟨le_refl _, fun _ => Or.inl rfl⟩

theorem commitRel_trans {s : Field} {sum : Int → Int} {a b c : Commit}
    (h1 : CommitRel s sum a b) (h2 : CommitRel s sum b c) : CommitRel s sum a c := by
  refine ⟨le_trans h1.1 h2.1, fun i => ?_⟩
  rcases h2.2 i with h | h
  · rcases h1.2 i with h' | h'
    · exact Or.inl (h.trans h')
    · right; rw [h]; exact drawn_mono h' (le_refl _) h2.1
  · exact Or.inr (drawn_mono h h1.1 (le_refl _))

theorem commitRel_keep {s : Field} {sum : Int → Int} {a b c : Commit} {i : Int}
    (h0 : CommitRel s sum a b) (h : CommitRel s sum b c)
    (hi : Drawn s sum a.used b.used i (b.state_n i)) :
    Drawn s sum a.used c.used i (c.state_n i) := by
  rcases h.2 i with h' | h'
  · rw [h']; exact drawn_mono hi (le_refl _) h.1
  · exact drawn_mono h' h0.1 (le_refl _)

theorem commit_cell_spec (s : Field) (sum : Int → Int) (x y : Int) (c : Commit) :
    CommitRel s sum c (commit_cell s sum x y c)
      ∧ Drawn s sum c.used (commit_cell s sum x y c).used (y * s.FX + x)
          ((commit_cell s sum x y c).state_n (y * s.FX + x)) := by
  have hd : Drawn s sum c.used (commit_cell s sum x y c).used (y * s.FX + x)
      ((commit_cell s sum x y c).state_n (y * s.FX + x)) :=
    ⟨c.used, le_refl _, le_refl _, by simp [commit_cell]⟩
  refine ⟨⟨cell_next_used _ _ _ _ _, fun i => ?_⟩, hd⟩
  by_cases hi : i = y * s.FX + x
  · subst hi; exact Or.inr hd
  · left; simp [commit_cell, Function.update, hi]

/-- The rule loop stores in every cell of the grid a rule value of that cell,
computed from draws of this call, and touches `state_n` nowhere else. -/
theorem commit_spec (s : Field) (sum : Int → Int) (c0 : Commit) :
    CommitRel s sum c0 (commit s sum c0)
      ∧ ∀ x y, 0 ≤ x → x < s.FX → 0 ≤ y → y < s.FY →
          Drawn s sum c0.used (commit s sum c0).used (y * s.FX + x)
            ((commit s sum c0).state_n (y * s.FX + x)) := by
  have inner : ∀ x (c : Commit),
      CommitRel s sum c ((upto 0 s.FY).foldl (fun c y => commit_cell s sum x y c) c)
      ∧ ∀ y ∈ upto 0 s.FY,
          Drawn s sum c.used
            ((upto 0 s.FY).foldl (fun c y => commit_cell s sum x y c) c).used (y * s.FX + x)
            (((upto 0 s.FY).foldl (fun c y => commit_cell s sum x y c) c).state_n
              (y * s.FX + x)) := by
    intro x c
    exact foldl_inv (CommitRel s sum)
      (fun y d => Drawn s sum c.used d.used (y * s.FX + x) (d.state_n (y * s.FX + x)))
      (fun c y => commit_cell s sum x y c) (upto 0 s.FY) c
      (commitRel_refl s sum) (fun _ _ _ => commitRel_trans)
      (fun _ _ _ h0 hq hr => commitRel_keep h0 hr hq)
      (fun d hd y _ =>
        ⟨(commit_cell_spec s sum x y d).1,
          drawn_mono (commit_cell_spec s sum x y d).2 hd.1 (le_refl _)⟩)
  have outer := foldl_inv (CommitRel s sum)
    (fun x d => ∀ y ∈ upto 0 s.FY,
      Drawn s sum c0.used d.used (y * s.FX + x) (d.state_n (y * s.FX + x)))
    (fun c x => (upto 0 s.FY).foldl (fun c y => commit_cell s sum x y c) c)
    (upto 0 s.FX) c0
    (commitRel_refl s sum) (fun _ _ _ => commitRel_trans)
    (fun _ _ _ h0 hq hr y hy => commitRel_keep h0 hr (hq y hy))
    (fun d hd x _ => ⟨(inner x d).1, fun y hy => drawn_mono ((inner x d).2 y hy) hd.1 (le_refl _)⟩)
  refine ⟨outer.1, ?_⟩
  intro x y hx0 hx hy0 hy
  exact outer.2 x ((mem_upto _ _ _).2 ⟨hx0, hx⟩) y ((mem_upto _ _ _).2 ⟨hy0, hy⟩)

/-! ## The whole step -/

theorem field_step_eq (fuel : Nat) (s : Field) :
    field_step fuel s = (sum_loops fuel s).map (step_result s) := by
  unfold field_step sum_loops
  dsimp only
  cases h1 : sum_rows fuel s.FX s.FY (snapshot s)
      (sum_interior s.FX s.FY (snapshot s) s.state_sum) with
  | none => rfl
  | some r1 =>
    cases h2 : sum_cols fuel s.FX s.FY (snapshot s) r1 with
    | none => simp [h2]
    | some r2 => simp [h2, step_result]

theorem next_ne_state (s : Field) : s.next ≠ s.state := by
  unfold Field.next
  cases h : s.state <;> simp

theorem next_next (s : Field) (sum3 : Int → Int) : (step_result s sum3).next = s.state := by
  unfold Field.next step_result
  cases h : s.state <;> simp [Field.next, h]

theorem step_result_cur (s : Field) (sum3 : Int → Int) :
    (step_result s sum3).cur
      = (commit s sum3 { state_n := s.buf s.next, trace := s.trace, used := s.used }).state_n := by
  unfold Field.cur step_result
  cases h : s.next <;> simp [Field.buf, h]

theorem step_result_old (s : Field) (sum3 : Int → Int) :
    (step_result s sum3).buf s.state = s.cur := by
  have hne := next_ne_state s
  unfold Field.cur step_result
  cases h : s.state <;> cases h' : s.next <;> simp_all [Field.buf]

/-- Every result of `field_step` is a `step_result`. -/
theorem field_step_some (fuel : Nat) (s t : Field) (h : field_step fuel s = some t) :
    ∃ sum3, sum_loops fuel s = some sum3 ∧ t = step_result s sum3 := by
  rw [field_step_eq] at h
  cases hs : sum_loops fuel s with
  | none => rw [hs] at h; simp at h
  | some r => rw [hs] at h; exact ⟨r, rfl, by simpa using h.symm⟩

/-- Summary of one step on a grid at least 2 x 2: it ends, `state_sum` holds the
toroidal sums, and every cell of the new current buffer holds the rule value of
that cell for its old age and its toroidal sum. -/
theorem field_step_spec (s : Field) (fuel : Nat) (hFX : 2 ≤ s.FX) (hFY : 2 ≤ s.FY)
    (hf : 3 ≤ fuel) :
    ∃ t, field_step fuel s = some t
      ∧ t.FX = s.FX ∧ t.FY = s.FY ∧ t.rand_rules = s.rand_rules ∧ t.draws = s.draws
      ∧ t.state = s.next ∧ t.buf s.state = s.cur ∧ s.used ≤ t.used
      ∧ ∀ x y, 0 ≤ x → x < s.FX → 0 ≤ y → y < s.FY →
          t.state_sum (y * s.FX + x) = torus_sum s x y
          ∧ ∃ u, s.used ≤ u
            ∧ (cell_next s.rand_rules (s.cur (y * s.FX + x)) (torus_sum s x y)
                s.draws u).2 ≤ t.used
            ∧ t.cur (y * s.FX + x)
              = (cell_next s.rand_rules (s.cur (y * s.FX + x)) (torus_sum s x y)
                  s.draws u).1 := by
  obtain ⟨r, hr, hsum⟩ := sum_loops_spec s fuel hFX hFY hf
  obtain ⟨c1, c2⟩ := commit_spec s r
    { state_n := s.buf s.next, trace := s.trace, used := s.used }
  refine ⟨step_result s r, by rw [field_step_eq, hr]; rfl, rfl, rfl, rfl, rfl, rfl,
    step_result_old s r, c1.1, ?_⟩
  intro x y hx0 hx hy0 hy
  refine ⟨hsum x y hx0 hx hy0 hy, ?_⟩
  obtain ⟨u, h1, h2, h3⟩ := c2 x y hx0 hx hy0 hy
  rw [hsum x y hx0 hx hy0 hy] at h2 h3
  exact ⟨u, h1, h2, by rw [step_result_cur]; exact h3⟩

/-! ## The draw made for a cell -/

theorem index_inj (FX x y x' y' : Int) (hx0 : 0 ≤ x) (hx : x < FX) (hx0' : 0 ≤ x')
    (hx' : x' < FX) (h : y * FX + x = y' * FX + x') : x = x' ∧ y = y' := by
  have e1 := index_emod FX x y hx0 hx
  have e2 := index_emod FX x' y' hx0' hx'
  have e3 := index_ediv FX x y hx0 hx
  have e4 := index_ediv FX x' y' hx0' hx'
  rw [h] at e1 e3
  exact ⟨e1.symm.trans e2, e3.symm.trans e4⟩

theorem classical_cases (a sum : Int) :
    classical a sum = if sum < 2 ∨ sum > 3 then 0 else if sum = 3 then 1 else a := by
  unfold classical
  dsimp only
  split_ifs <;> first | rfl | omega

theorem wrap32_id (n : Int) (h0 : -2147483648 ≤ n) (h1 : n ≤ 2147483647) : wrap32 n = n := by
  unfold wrap32
  omega

theorem wrap32_range (n : Int) : -2147483648 ≤ wrap32 n ∧ wrap32 n ≤ 2147483647 := by
  unfold wrap32
  omega

/-- The rules make `cell_draws` calls of `rand()` for a cell, whatever is drawn. -/
theorem cell_next_snd (r a sum : Int) (draws : Nat → Nat) (u : Nat) :
    (cell_next r a sum draws u).2 = u + cell_draws r a sum := by
  have hc := classical_cases a sum
  by_cases hr : r = 0
  · subst hr
    simp [cell_next, cell_draws]
  by_cases ha : a ≤ 0
  · have h2 : ∀ (p : Int × Nat), stays_alive a p.1 draws p.2 = p := by
      intro p
      unfold stays_alive
      rw [if_neg (by unfold alive_guard; omega)]
    unfold cell_next
    dsimp only
    rw [if_pos hr, h2]
    unfold stays_dead cell_draws dead_guard
    rw [hc]
    dsimp only
    split_ifs <;> simp_all <;> omega
  · have h2 : stays_dead a sum (classical a sum) draws u = (classical a sum, u) := by
      unfold stays_dead
      rw [if_neg (by unfold dead_guard; omega)]
    unfold cell_next
    dsimp only
    rw [if_pos hr, h2]
    unfold stays_alive cell_draws alive_guard
    rw [hc]
    dsimp only
    split_ifs <;> simp_all <;> omega

theorem upto_append (lo m hi : Int) (h1 : lo ≤ m) (h2 : m ≤ hi) :
    upto lo hi = upto lo m ++ upto m hi := by
  unfold upto
  have e : (hi - lo).toNat = (m - lo).toNat + (hi - m).toNat := by omega
  rw [e, List.range_add, List.map_append, List.map_map]
  congr 1
  apply List.map_congr_left
  intro k _
  simp only [Function.comp]
  push_cast
  omega

theorem upto_cons (lo hi : Int) (h : lo < hi) : upto lo hi = lo :: upto (lo + 1) hi := by
  unfold upto
  have e : (hi - lo).toNat = 1 + (hi - (lo + 1)).toNat := by omega
  rw [e, List.range_add, List.map_append, List.map_map]
  have e1 : List.range 1 = [0] := rfl
  rw [e1]
  simp only [List.map_cons, List.map_nil, List.singleton_append]
  congr 1
  · simp
  · apply List.map_congr_left
    intro k _
    simp only [Function.comp]
    push_cast
    omega

/-- The cells of the grid in the order of the rule loop, split at `(x, y)`. -/
theorem cells_split (FX FY x y : Int) (hx0 : 0 ≤ x) (hx : x < FX) (hy0 : 0 ≤ y)
    (hy : y < FY) :
    (upto 0 FX).flatMap (fun x' => (upto 0 FY).map (fun y' => (x', y')))
      = cells_before FY x y ++ (x, y) ::
          ((upto (y + 1) FY).map (fun y' => (x, y'))
            ++ (upto (x + 1) FX).flatMap (fun x' => (upto 0 FY).map (fun y' => (x', y')))) := by
  unfold cells_before
  rw [upto_append 0 x FX hx0 (le_of_lt hx), upto_cons x FX hx, List.flatMap_append,
    List.flatMap_cons]
  rw [upto_append 0 y FY hy0 (le_of_lt hy), upto_cons y FY hy]
  simp only [List.map_append, List.map_cons, List.append_assoc, List.cons_append]

/-- The double loop of `commit` is one loop over the cells in column order. -/
theorem commit_flat (s : Field) (sum : Int → Int) (c0 : Commit) :
    commit s sum c0
      = ((upto 0 s.FX).flatMap (fun x' => (upto 0 s.FY).map (fun y' => (x', y')))).foldl
          (fun c (p : Int × Int) => commit_cell s sum p.1 p.2 c) c0 := by
  unfold commit
  generalize upto 0 s.FX = l
  induction l generalizing c0 with
  | nil => rfl
  | cons a l ih =>
    rw [List.foldl_cons, ih, List.flatMap_cons, List.foldl_append, List.foldl_map]

theorem run_used (s : Field) (sum : Int → Int) (L : List (Int × Int)) (c : Commit) :
    (L.foldl (fun c (p : Int × Int) => commit_cell s sum p.1 p.2 c) c).used
      = c.used + (L.map (fun (p : Int × Int) =>
          cell_draws s.rand_rules (s.cur (p.2 * s.FX + p.1)) (sum (p.2 * s.FX + p.1)))).sum := by
  induction L generalizing c with
  | nil => simp
  | cons p L ih =>
    rw [List.foldl_cons, ih, List.map_cons, List.sum_cons]
    have : (commit_cell s sum p.1 p.2 c).used
        = c.used + cell_draws s.rand_rules (s.cur (p.2 * s.FX + p.1))
            (sum (p.2 * s.FX + p.1)) := by
      simp only [commit_cell]
      exact cell_next_snd _ _ _ _ _
    rw [this]
    omega

theorem run_keep (s : Field) (sum : Int → Int) (L : List (Int × Int)) (c : Commit) (i : Int)
    (h : ∀ p ∈ L, p.2 * s.FX + p.1 ≠ i) :
    (L.foldl (fun c (p : Int × Int) => commit_cell s sum p.1 p.2 c) c).state_n i
      = c.state_n i := by
  induction L generalizing c with
  | nil => rfl
  | cons p L ih =>
    rw [List.foldl_cons, ih _ (fun q hq => h q (List.mem_cons_of_mem _ hq))]
    have := h p (List.mem_cons_self _ _)
    simp [commit_cell, Function.update, Ne.symm this]

theorem mem_cells_before (FY x y : Int) (p : Int × Int) (hx0 : 0 ≤ x)
    (h : p ∈ cells_before FY x y) :
    0 ≤ p.1 ∧ p.1 ≤ x ∧ 0 ≤ p.2 ∧ (p.1 < x ∧ p.2 < FY ∨ p.1 = x ∧ p.2 < y) := by
  unfold cells_before at h
  simp only [List.mem_append, List.mem_flatMap, List.mem_map, mem_upto] at h
  rcases h with ⟨x', ⟨h1, h2⟩, y', ⟨h3, h4⟩, rfl⟩ | ⟨y', ⟨h3, h4⟩, rfl⟩
  · exact ⟨h1, le_of_lt h2, h3, Or.inl ⟨h2, h4⟩⟩
  · exact ⟨hx0, le_refl _, h3, Or.inr ⟨rfl, h4⟩⟩

/-- The rule loop commits for the cell `(x, y)` the rule value computed with the
generator where the cells visited earlier have left it. -/
theorem commit_at (s : Field) (sum : Int → Int) (c0 : Commit) (x y : Int) (hx0 : 0 ≤ x)
    (hx : x < s.FX) (hy0 : 0 ≤ y) (hy : y < s.FY) :
    (commit s sum c0).state_n (y * s.FX + x)
        = (cell_next s.rand_rules (s.cur (y * s.FX + x)) (sum (y * s.FX + x)) s.draws
            (c0.used + ((cells_before s.FY x y).map (fun (p : Int × Int) =>
              cell_draws s.rand_rules (s.cur (p.2 * s.FX + p.1))
                (sum (p.2 * s.FX + p.1)))).sum)).1
    ∧ c0.used + ((cells_before s.FY x y).map (fun (p : Int × Int) =>
          cell_draws s.rand_rules (s.cur (p.2 * s.FX + p.1)) (sum (p.2 * s.FX + p.1)))).sum
        + cell_draws s.rand_rules (s.cur (y * s.FX + x)) (sum (y * s.FX + x))
        ≤ (commit s sum c0).used := by
  rw [commit_flat, cells_split s.FX s.FY x y hx0 hx hy0 hy, List.foldl_append,
    List.foldl_cons]
  constructor
  · rw [run_keep]
    · rw [← run_used]
      simp [commit_cell]
    · intro p hp
      simp only [List.mem_append, List.mem_flatMap, List.mem_map, mem_upto] at hp
      intro he
      rcases hp with ⟨y', ⟨h3, h4⟩, rfl⟩ | ⟨x', ⟨h1, h2⟩, y', ⟨h3, h4⟩, rfl⟩
      · have := (index_inj s.FX x y' x y hx0 hx hx0 hx he).2
        omega
      · have := (index_inj s.FX x' y' x y (by omega) h2 hx0 hx he).1
        omega
  · rw [run_used]
    dsimp only
    have : (commit_cell s sum x y
        (List.foldl (fun c (p : Int × Int) => commit_cell s sum p.1 p.2 c) c0
          (cells_before s.FY x y))).used
        = (List.foldl (fun c (p : Int × Int) => commit_cell s sum p.1 p.2 c) c0
            (cells_before s.FY x y)).used
          + cell_draws s.rand_rules (s.cur (y * s.FX + x)) (sum (y * s.FX + x)) := by
      simp only [commit_cell]
      exact cell_next_snd _ _ _ _ _
    rw [this, run_used]
    omega

/-- One step on a grid at least 2 x 2, with the draw of every cell pinned: the
step ends and every cell of the new current buffer holds the rule value of that
cell for its old age, its toroidal sum and the generator at `draw_index`. -/
theorem field_step_draw (s : Field) (fuel : Nat) (hFX : 2 ≤ s.FX) (hFY : 2 ≤ s.FY)
    (hf : 3 ≤ fuel) :
    ∃ t, field_step fuel s = some t
      ∧ ∀ x y, 0 ≤ x → x < s.FX → 0 ≤ y → y < s.FY →
          t.cur (y * s.FX + x)
            = (cell_next s.rand_rules (s.cur (y * s.FX + x)) (torus_sum s x y)
                s.draws (draw_index s x y)).1
          ∧ draw_index s x y
              + cell_draws s.rand_rules (s.cur (y * s.FX + x)) (torus_sum s x y) ≤ t.used := by
  obtain ⟨r, hr, hsum⟩ := sum_loops_spec s fuel hFX hFY hf
  refine ⟨step_result s r, by rw [field_step_eq, hr]; rfl, ?_⟩
  intro x y hx0 hx hy0 hy
  have hmap : (cells_before s.FY x y).map (fun (p : Int × Int) =>
        cell_draws s.rand_rules (s.cur (p.2 * s.FX + p.1)) (r (p.2 * s.FX + p.1)))
      = (cells_before s.FY x y).map (fun (p : Int × Int) =>
        cell_draws s.rand_rules (s.cur (p.2 * s.FX + p.1)) (torus_sum s p.1 p.2)) := by
    apply List.map_congr_left
    intro p hp
    obtain ⟨a1, a2, a3, a4⟩ := mem_cells_before s.FY x y p hx0 hp
    rw [hsum p.1 p.2 a1 (by omega) a3 (by omega)]
  obtain ⟨c1, c2⟩ := commit_at s r
    { state_n := s.buf s.next, trace := s.trace, used := s.used } x y hx0 hx hy0 hy
  rw [hmap, hsum x y hx0 hx hy0 hy] at c1 c2
  rw [step_result_cur]
  exact ⟨c1, c2⟩

/-! ## Age bound -/

theorem classical_bound (a sum : Int) (h : -101 ≤ a ∧ a ≤ 101) :
    -101 ≤ classical a sum ∧ classical a sum ≤ 101 := by
  rw [classical_cases]
  split_ifs <;> omega

theorem stays_dead_bound (a sum n : Int) (draws : Nat → Nat) (u : Nat)
    (ha : -101 ≤ a) (hn : -101 ≤ n ∧ n ≤ 101) :
    -101 ≤ (stays_dead a sum n draws u).1 ∧ (stays_dead a sum n draws u).1 ≤ 101 := by
  unfold stays_dead wrap32
  dsimp only
  split_ifs <;> dsimp only <;> omega

theorem stays_alive_bound (a n : Int) (draws : Nat → Nat) (u : Nat)
    (ha : a ≤ 101) (hn : -101 ≤ n ∧ n ≤ 101) :
    -101 ≤ (stays_alive a n draws u).1 ∧ (stays_alive a n draws u).1 ≤ 101 := by
  unfold stays_alive wrap32
  dsimp only
  split_ifs <;> dsimp only <;> omega

theorem cell_next_bound (r a sum : Int) (draws : Nat → Nat) (u : Nat)
    (h : |a| ≤ 101) : |(cell_next r a sum draws u).1| ≤ 101 := by
  rw [abs_le] at h ⊢
  unfold cell_next
  dsimp only
  split_ifs
  · exact stays_alive_bound _ _ _ _ h.2
      (stays_dead_bound _ _ _ _ _ h.1 (classical_bound a sum h))
  · exact classical_bound a sum h

theorem init_loop_fst (l : List Int) (p : (Int → Int) × (Int → ℚ)) :
    (l.foldl (fun (p : (Int → Int) × (Int → ℚ)) xx =>
        (Function.update p.1 xx 0, Function.update p.2 xx 0)) p).1
      = l.foldl (fun b xx => Function.update b xx 0) p.1 := by
  induction l generalizing p with
  | nil => rfl
  | cons a l ih => simp only [List.foldl]; rw [ih]

/-- After `field_init` every cell of `state1`, the current buffer, is 0. -/
theorem field_init_cur (g : Field) (x y i : Int) (h0 : 0 ≤ i) (h : i < x * y) :
    (field_init g x y).cur i = 0 := by
  have key := (foldl_writes (fun (_ : Int) (v : Int) => v = 0) (fun a i => i = a)
    (fun b xx => Function.update b xx 0) (upto 0 (x * y))
    (fun b a _ => ⟨writes_update b rfl, fun i hi => by subst hi; simp⟩) g.state1).2
  have := key i ((mem_upto _ _ _).2 ⟨h0, h⟩) i rfl
  simp only [field_init, Field.cur, Field.buf, init_loop_fst]
  exact this

theorem setCur_cur (s : Field) (b : Int → Int) : (s.setCur b).cur = b := by
  unfold Field.setCur Field.cur
  cases h : s.state <;> simp [Field.buf, h]

/-- The function `field_rand` stores only 0 or 1 in the current buffer. -/
theorem field_rand_writes (s : Field) :
    Writes (fun _ v => v = 0 ∨ v = 1) s.cur (field_rand s).cur := by
  have inner : ∀ x (acc : (Int → Int) × Nat),
      Writes (fun _ v => v = 0 ∨ v = 1) acc.1
        ((upto (s.FY.tdiv 2 - 20) (s.FY.tdiv 2 + 20)).foldl
          (fun (acc : (Int → Int) × Nat) y =>
            (Function.update acc.1 (y * s.FX + x)
              (if s.draws acc.2 % 3 = 1 then 1 else 0), acc.2 + 1)) acc).1 := by
    intro x acc
    exact (foldl_inv
      (fun (a b : (Int → Int) × Nat) => Writes (fun _ v => v = 0 ∨ v = 1) a.1 b.1)
      (fun (_ : Int) _ => True) _ _ acc
      (fun _ => writes_refl _ _) (fun _ _ _ => writes_trans) (fun _ _ _ _ _ _ => trivial)
      (fun c _ y _ => ⟨writes_update c.1 (by split_ifs <;> simp), trivial⟩)).1
  have outer := (foldl_inv
    (fun (a b : (Int → Int) × Nat) => Writes (fun _ v => v = 0 ∨ v = 1) a.1 b.1)
    (fun (_ : Int) _ => True)
    (fun (acc : (Int → Int) × Nat) x =>
      (upto (s.FY.tdiv 2 - 20) (s.FY.tdiv 2 + 20)).foldl
        (fun (acc : (Int → Int) × Nat) y =>
          (Function.update acc.1 (y * s.FX + x)
            (if s.draws acc.2 % 3 = 1 then 1 else 0), acc.2 + 1)) acc)
    (upto (s.FX.tdiv 2 - 20) (s.FX.tdiv 2 + 20)) (s.cur, s.used)
    (fun _ => writes_refl _ _) (fun _ _ _ => writes_trans) (fun _ _ _ _ _ _ => trivial)
    (fun c _ x _ => ⟨inner x c, trivial⟩)).1
  have e : (field_rand s).cur
      = ((upto (s.FX.tdiv 2 - 20) (s.FX.tdiv 2 + 20)).foldl
          (fun (acc : (Int → Int) × Nat) x =>
            (upto (s.FY.tdiv 2 - 20) (s.FY.tdiv 2 + 20)).foldl
              (fun (acc : (Int → Int) × Nat) y =>
                (Function.update acc.1 (y * s.FX + x)
                  (if s.draws acc.2 % 3 = 1 then 1 else 0), acc.2 + 1)) acc)
          (s.cur, s.used)).1 := by
    unfold field_rand
    dsimp only
    cases h : s.state <;> simp [Field.setCur, Field.cur, Field.buf, h]
  rw [e]
  exact outer

theorem field_rand_dims (s : Field) : (field_rand s).FX = s.FX ∧ (field_rand s).FY = s.FY := by
  unfold field_rand Field.setCur
  cases h : s.state <;> simp

theorem seed_ages (g : Field) (x y : Int) : SeedAges (field_rand (field_init g x y)) := by
  intro i hi
  obtain ⟨d1, d2⟩ := field_rand_dims (field_init g x y)
  rw [d1, d2] at hi
  obtain ⟨h0, h1⟩ := (mem_upto _ _ _).1 hi
  have hz : (field_init g x y).cur i = 0 := field_init_cur g x y i h0 h1
  rcases field_rand_writes (field_init g x y) i with h | h
  · left; rw [h, hz]
  · exact h

theorem seedAges_bounded {s : Field} (h : SeedAges s) : AgeBounded s := by
  intro i hi
  rcases h i hi with h | h <;> rw [h] <;> norm_num

/-- A step that returns keeps the age bound, on any grid of positive width. -/
theorem age_bound_step (fuel : Nat) (s t : Field) (h : field_step fuel s = some t)
    (hFX : 0 < s.FX) (hb : AgeBounded s) : AgeBounded t := by
  obtain ⟨r, _, rfl⟩ := field_step_some fuel s t h
  intro i hi
  have hi' : i ∈ upto 0 (s.FX * s.FY) := hi
  obtain ⟨h0, h1⟩ := (mem_upto _ _ _).1 hi'
  obtain ⟨a1, a2, a3, a4, a5⟩ := cell_of_index s.FX s.FY i h0 h1 hFX
  obtain ⟨u, _, _, hu⟩ := (commit_spec s r
    { state_n := s.buf s.next, trace := s.trace, used := s.used }).2 _ _ a1 a2 a3 a4
  rw [← a5] at hu
  rw [step_result_cur, hu]
  exact cell_next_bound _ _ _ _ _ (hb i hi')

theorem reachable_dims (s : Field) (h : Reachable s) : 2 ≤ s.FX ∧ 2 ≤ s.FY := by
  induction h with
  | seed g x y hx hy =>
    obtain ⟨d1, d2⟩ := field_rand_dims (field_init g x y)
    rw [d1, d2]; exact ⟨hx, hy⟩
  | step fuel s t _ hst ih =>
    obtain ⟨r, _, rfl⟩ := field_step_some fuel s t hst
    exact ih
  | rules s v _ ih => exact ih

theorem reachable_bounded (s : Field) (h : Reachable s) : AgeBounded s := by
  induction h with
  | seed g x y _ _ => exact seedAges_bounded (seed_ages g x y)
  | step fuel s t hs hst ih =>
    exact age_bound_step fuel s t hst (by have := (reachable_dims s hs).1; omega) ih
  | rules s v _ ih => exact ih

/-- Claim C1 (age bound invariant): on a grid with `FX >= 2` and `FY >= 2` all of
whose ages satisfy `|age| <= 101`, in either rule mode and for every stream of
draws, `field_step` returns a grid all of whose ages satisfy `|age| <= 101`; the
grid left by `field_init` followed by `field_rand` has ages 0 or 1 and satisfies
the bound; hence the bound holds in every reachable state. -/
theorem age_bound_invariant :
    (∀ (s : Field) (fuel : Nat), 2 ≤ s.FX → 2 ≤ s.FY → 3 ≤ fuel → AgeBounded s →
        ∃ t, field_step fuel s = some t ∧ AgeBounded t)
    ∧ (∀ (g : Field) (x y : Int),
        SeedAges (field_rand (field_init g x y))
          ∧ AgeBounded (field_rand (field_init g x y)))
    ∧ (∀ s, Reachable s → AgeBounded s) := by
  refine ⟨?_, fun g x y => ⟨seed_ages g x y, seedAges_bounded (seed_ages g x y)⟩, reachable_bounded⟩
  intro s fuel hFX hFY hf hb
  obtain ⟨t, ht, _⟩ := field_step_spec s fuel hFX hFY hf
  exact ⟨t, ht, age_bound_step fuel s t ht (by omega) hb⟩

/-! ## The rules, cell by cell -/

theorem cell_next_classical (a sum : Int) (draws : Nat → Nat) (u : Nat) :
    cell_next 0 a sum draws u = (classical a sum, u) := by
  simp [cell_next]

/-- Claim C2 (classical rule): with `rand_rules = 0`, on a grid with `FX >= 2` and
`FY >= 2`, `field_step` returns and commits for every cell of age `a` and toroidal
neighbour sum `s`: 0 if `s < 2` or `s > 3`, 1 if `s = 3`, `a` if `s = 2`; so the
cell is alive afterwards exactly when `s = 3`, or `s = 2` and it was alive. -/
theorem classical_rule (s : Field) (fuel : Nat) (hFX : 2 ≤ s.FX) (hFY : 2 ≤ s.FY)
    (hf : 3 ≤ fuel) (hr : s.rand_rules = 0) :
    ∃ t, field_step fuel s = some t ∧ t.FX = s.FX ∧ t.FY = s.FY
      ∧ ∀ x y, 0 ≤ x → x < s.FX → 0 ≤ y → y < s.FY →
          ((torus_sum s x y < 2 ∨ torus_sum s x y > 3) → t.cur (y * s.FX + x) = 0)
          ∧ (torus_sum s x y = 3 → t.cur (y * s.FX + x) = 1)
          ∧ (torus_sum s x y = 2 → t.cur (y * s.FX + x) = s.cur (y * s.FX + x))
          ∧ (0 < t.cur (y * s.FX + x) ↔
              torus_sum s x y = 3 ∨ (torus_sum s x y = 2 ∧ 0 < s.cur (y * s.FX + x)))
          ∧ alive t x y
              = if torus_sum s x y = 3 ∨ (torus_sum s x y = 2 ∧ alive s x y = 1) then 1
                else 0 := by
  obtain ⟨t, ht, d1, d2, _, _, _, _, _, hc⟩ := field_step_spec s fuel hFX hFY hf
  refine ⟨t, ht, d1, d2, ?_⟩
  intro x y hx0 hx hy0 hy
  obtain ⟨_, u, _, _, hu⟩ := hc x y hx0 hx hy0 hy
  rw [hr, cell_next_classical, classical_cases] at hu
  dsimp only at hu
  have hal : alive t x y = if 0 < t.cur (y * s.FX + x) then 1 else 0 := by
    unfold alive; rw [d1]
  have hal' : alive s x y = if 0 < s.cur (y * s.FX + x) then 1 else 0 := rfl
  rw [hal, hal', hu]
  refine ⟨?_, ?_, ?_, ?_, ?_⟩
  · intro h; exact if_pos h
  · intro h; rw [if_neg (by omega)]; exact if_pos h
  · intro h; rw [if_neg (by omega)]; exact if_neg (by omega)
  · split_ifs <;> omega
  · split_ifs <;> first | rfl | omega

/-- Claim C3 (wraparound symmetry): on a grid with `FX >= 2` and `FY >= 2`,
`field_step` returns with `state_sum` holding, for every cell `(x, y)`, the
brute-force toroidal sum of the binary snapshot, whatever `state_sum` held
before; the explicit fast path gives that sum for `1 <= x <= FX-2`,
`1 <= y <= FY-2`, the wrapping path gives it for every cell, and every cell is
an interior cell or lies in row 0, row `FY-1`, column 0 or column `FX-1`. -/
theorem wraparound_symmetry (s : Field) (fuel : Nat) (hFX : 2 ≤ s.FX) (hFY : 2 ≤ s.FY)
    (hf : 3 ≤ fuel) :
    (∃ t, field_step fuel s = some t
      ∧ ∀ x y, 0 ≤ x → x < s.FX → 0 ≤ y → y < s.FY →
          t.state_sum (y * s.FX + x) = torus_sum s x y)
    ∧ (∀ (b : Int → Int) x y, 1 ≤ x → x ≤ s.FX - 2 → 1 ≤ y → y ≤ s.FY - 2 →
        sum_interior s.FX s.FY (snapshot s) b (y * s.FX + x) = torus_sum s x y)
    ∧ (∀ (b : Int → Int), ∃ r, sum_rows fuel s.FX s.FY (snapshot s) b = some r
        ∧ ∀ x y, 0 ≤ x → x < s.FX → (y = 0 ∨ y = s.FY - 1) →
            r (y * s.FX + x) = wrap_sum s.FX s.FY (snapshot s) x y)
    ∧ (∀ (b : Int → Int), ∃ r, sum_cols fuel s.FX s.FY (snapshot s) b = some r
        ∧ ∀ x y, (x = 0 ∨ x = s.FX - 1) → 0 ≤ y → y < s.FY →
            r (y * s.FX + x) = wrap_sum s.FX s.FY (snapshot s) x y)
    ∧ (∀ x y, 0 ≤ x → x < s.FX → 0 ≤ y → y < s.FY →
        wrap_sum s.FX s.FY (snapshot s) x y = torus_sum s x y
        ∧ ((1 ≤ x ∧ x ≤ s.FX - 2 ∧ 1 ≤ y ∧ y ≤ s.FY - 2)
            ∨ y = 0 ∨ y = s.FY - 1 ∨ x = 0 ∨ x = s.FX - 1)) := by
  refine ⟨?_, ?_, ?_, ?_, ?_⟩
  · obtain ⟨t, ht, _, _, _, _, _, _, _, hc⟩ := field_step_spec s fuel hFX hFY hf
    exact ⟨t, ht, fun x y hx0 hx hy0 hy => (hc x y hx0 hx hy0 hy).1⟩
  · intro b x y hx1 hx hy1 hy
    exact (sum_interior_spec s b).2 x y hx1 (by omega) hy1 (by omega)
  · intro b
    obtain ⟨r, hr, _, hc⟩ := sum_rows_spec s fuel hFY hf b
    refine ⟨r, hr, fun x y hx0 hx hy => ?_⟩
    rw [hc x y hx0 hx hy, wrap_sum_eq s x y hx0 hx (by omega) (by omega)]
  · intro b
    obtain ⟨r, hr, _, hc⟩ := sum_cols_spec s fuel hFX hf b
    refine ⟨r, hr, fun x y hx hy0 hy => ?_⟩
    rw [hc x y hx hy0 hy, wrap_sum_eq s x y (by omega) (by omega) hy0 hy]
  · intro x y hx0 hx hy0 hy
    exact ⟨wrap_sum_eq s x y hx0 hx hy0 hy, by omega⟩

/-! ## The blinker -/

theorem emod_cases (F z : Int) (h1 : -F ≤ z) (h2 : z < 2 * F) :
    (z < 0 ∧ z % F = z + F) ∨ (0 ≤ z ∧ z < F ∧ z % F = z) ∨ (F ≤ z ∧ z % F = z - F) := by
  by_cases a : z < 0
  · exact Or.inl ⟨a, emod_of_shift z F _ 1 (by omega) (by omega) (by omega)⟩
  · by_cases b : z < F
    · exact Or.inr (Or.inl ⟨by omega, b, Int.emod_eq_of_lt (by omega) b⟩)
    · exact Or.inr (Or.inr ⟨by omega, emod_of_shift z F _ (-1) (by omega) (by omega) (by omega)⟩)

/-- Equality of two wrapped coordinates in terms of the ring distance. -/
theorem wrap_eq_iff (F a b e1 e2 : Int) (hF : 5 ≤ F) (ha0 : 0 ≤ a) (ha : a < F)
    (hb0 : 0 ≤ b) (hb : b < F) (h1 : -1 ≤ e1) (h1' : e1 ≤ 1) (h2 : -1 ≤ e2) (h2' : e2 ≤ 1) :
    (a + e1) % F = (b + e2) % F ↔
      ((a - b) % F = e2 - e1 ∨ (a - b) % F = e2 - e1 + F) := by
  rcases emod_cases F (a + e1) (by omega) (by omega) with ⟨p, q⟩ | ⟨p, p', q⟩ | ⟨p, q⟩ <;>
  rcases emod_cases F (b + e2) (by omega) (by omega) with ⟨p2, q2⟩ | ⟨p2, p2', q2⟩ | ⟨p2, q2⟩ <;>
  rcases emod_cases F (a - b) (by omega) (by omega) with ⟨p3, q3⟩ | ⟨p3, p3', q3⟩ | ⟨p3, q3⟩ <;>
  rw [q, q2, q3] <;> omega

theorem point_shift (F c x e : Int) (hF : 5 ≤ F) (hx0 : 0 ≤ x) (hx : x < F)
    (hc0 : 0 ≤ c) (hc : c < F) (he : -1 ≤ e) (he' : e ≤ 1) :
    (x + e) % F = c ↔ ((x - c) % F + e = 0 ∨ (x - c) % F + e = F) := by
  have h := wrap_eq_iff F x c e 0 hF hx0 hx hc0 hc he he' (by omega) (by omega)
  rw [add_zero, Int.emod_eq_of_lt hc0 hc] at h
  rw [h]
  omega

theorem line_shift (F c x e : Int) (hF : 5 ≤ F) (hx0 : 0 ≤ x) (hx : x < F)
    (hc0 : 0 ≤ c) (hc : c < F) (he : -1 ≤ e) (he' : e ≤ 1) :
    line F c ((x + e) % F) ↔
      ((x - c) % F + e = -1 ∨ (x - c) % F + e = 0 ∨ (x - c) % F + e = 1
        ∨ (x - c) % F + e = F - 1 ∨ (x - c) % F + e = F) := by
  have h1 := wrap_eq_iff F x c e (-1) hF hx0 hx hc0 hc he he' (by omega) (by omega)
  have h2 := point_shift F c x e hF hx0 hx hc0 hc he he'
  have h3 := wrap_eq_iff F x c e 1 hF hx0 hx hc0 hc he he' (by omega) (by omega)
  have hd := emod_range F (x - c) (by omega)
  unfold line
  rw [sub_eq_add_neg, h1, h2, h3]
  omega

/-- The rule applied around a three-cell line: `A` marks the line along its own
axis at ring distance `dx` from the centre, `B` the centre coordinate on the other
axis at ring distance `dy`; the result is the line turned by a quarter. -/
theorem cross_rule (F G dx dy Am A0 Ap Bm B0 Bp S : Int) (hF : 5 ≤ F) (hG : 5 ≤ G)
    (hx0 : 0 ≤ dx) (hx : dx < F) (hy0 : 0 ≤ dy) (hy : dy < G)
    (hA0 : A0 = if dx + 0 = -1 ∨ dx + 0 = 0 ∨ dx + 0 = 1 ∨ dx + 0 = F - 1 ∨ dx + 0 = F
      then 1 else 0)
    (hAm : Am = if dx + -1 = -1 ∨ dx + -1 = 0 ∨ dx + -1 = 1 ∨ dx + -1 = F - 1
      ∨ dx + -1 = F then 1 else 0)
    (hAp : Ap = if dx + 1 = -1 ∨ dx + 1 = 0 ∨ dx + 1 = 1 ∨ dx + 1 = F - 1 ∨ dx + 1 = F
      then 1 else 0)
    (hB0 : B0 = if dy + 0 = 0 ∨ dy + 0 = G then 1 else 0)
    (hBm : Bm = if dy + -1 = 0 ∨ dy + -1 = G then 1 else 0)
    (hBp : Bp = if dy + 1 = 0 ∨ dy + 1 = G then 1 else 0)
    (hS : S = (Am + A0 + Ap) * (Bm + B0 + Bp) - A0 * B0) :
    classical (A0 * B0) S
      = if (dx + 0 = 0 ∨ dx + 0 = F)
          ∧ (dy + 0 = -1 ∨ dy + 0 = 0 ∨ dy + 0 = 1 ∨ dy + 0 = G - 1 ∨ dy + 0 = G)
        then 1 else 0 := by
  rw [classical_cases]
  by_cases c0 : dy = 0
  · have b0 : B0 = 1 := by rw [hB0, if_pos (by omega)]
    have bm : Bm = 0 := by rw [hBm, if_neg (by omega)]
    have bp : Bp = 0 := by rw [hBp, if_neg (by omega)]
    have hS' : S = Am + Ap := by rw [hS, b0, bm, bp]; ring
    rw [b0]
    split_ifs at hA0 hAm hAp <;> split_ifs <;> omega
  · have b0 : B0 = 0 := by rw [hB0, if_neg (by omega)]
    by_cases c1 : dy = 1 ∨ dy = G - 1
    · have hb : Bm + Bp = 1 := by
        rw [hBm, hBp]; split_ifs <;> omega
      have hS' : S = Am + A0 + Ap := by
        rw [hS, b0, show Bm + 0 + Bp = 1 by omega]; ring
      rw [b0]
      split_ifs at hA0 hAm hAp <;> split_ifs <;> omega
    · have bm : Bm = 0 := by rw [hBm, if_neg (by omega)]
      have bp : Bp = 0 := by rw [hBp, if_neg (by omega)]
      have hS' : S = 0 := by rw [hS, b0, bm, bp]; ring
      rw [b0]
      split_ifs <;> omega

theorem alive_pattern (s : Field) (P : Int → Int → Prop) [∀ x y, Decidable (P x y)]
    (h : IsPattern s P) (u v : Int) (hu0 : 0 ≤ u) (hu : u < s.FX) (hv0 : 0 ≤ v)
    (hv : v < s.FY) : alive s u v = if P u v then 1 else 0 := by
  unfold alive
  rw [h u v hu0 hu hv0 hv]
  split_ifs <;> first | rfl | omega

theorem torus_sum_unroll (s : Field) (x y : Int) :
    torus_sum s x y
      = alive s ((x + -1) % s.FX) ((y + -1) % s.FY)
        + alive s ((x + -1) % s.FX) ((y + 0) % s.FY)
        + alive s ((x + -1) % s.FX) ((y + 1) % s.FY)
        + alive s ((x + 0) % s.FX) ((y + -1) % s.FY)
        + alive s ((x + 0) % s.FX) ((y + 1) % s.FY)
        + alive s ((x + 1) % s.FX) ((y + -1) % s.FY)
        + alive s ((x + 1) % s.FX) ((y + 0) % s.FY)
        + alive s ((x + 1) % s.FX) ((y + 1) % s.FY) := by
  simp only [torus_sum, offsets, List.map, List.sum_cons, List.sum_nil]
  ring

theorem ite_and_mul (p q : Prop) [Decidable p] [Decidable q] :
    (if p ∧ q then (1 : Int) else 0) = (if p then 1 else 0) * (if q then 1 else 0) := by
  split_ifs <;> simp_all

/-- One step in classical mode, cell by cell. -/
theorem classical_step (s : Field) (fuel : Nat) (hFX : 2 ≤ s.FX) (hFY : 2 ≤ s.FY)
    (hf : 3 ≤ fuel) (hr : s.rand_rules = 0) :
    ∃ t, field_step fuel s = some t ∧ t.FX = s.FX ∧ t.FY = s.FY ∧ t.rand_rules = 0
      ∧ ∀ x y, 0 ≤ x → x < s.FX → 0 ≤ y → y < s.FY →
          t.cur (y * s.FX + x) = classical (s.cur (y * s.FX + x)) (torus_sum s x y) := by
  obtain ⟨t, ht, d1, d2, d3, _, _, _, _, hc⟩ := field_step_spec s fuel hFX hFY hf
  refine ⟨t, ht, d1, d2, d3.trans hr, ?_⟩
  intro x y hx0 hx hy0 hy
  obtain ⟨_, u, _, _, hu⟩ := hc x y hx0 hx hy0 hy
  rw [hr, cell_next_classical] at hu
  exact hu

/-- In classical mode a horizontal blinker becomes the vertical one. -/
theorem blinker_turns_vertical (s : Field) (fuel : Nat) (cx cy : Int)
    (hFX : 5 ≤ s.FX) (hFY : 5 ≤ s.FY) (hf : 3 ≤ fuel) (hr : s.rand_rules = 0)
    (hcx0 : 0 ≤ cx) (hcx : cx < s.FX) (hcy0 : 0 ≤ cy) (hcy : cy < s.FY)
    (hp : IsPattern s (blinkerH s.FX cx cy)) :
    ∃ t, field_step fuel s = some t ∧ t.FX = s.FX ∧ t.FY = s.FY ∧ t.rand_rules = 0
      ∧ IsPattern t (blinkerV s.FY cx cy) := by
  obtain ⟨t, ht, d1, d2, d3, hc⟩ := classical_step s fuel (by omega) (by omega) hf hr
  refine ⟨t, ht, d1, d2, d3, ?_⟩
  intro x y hx0 hx hy0 hy
  rw [d1] at hx ⊢
  rw [d2] at hy
  rw [hc x y hx0 hx hy0 hy]
  have hdx := emod_range s.FX (x - cx) (by omega)
  have hdy := emod_range s.FY (y - cy) (by omega)
  have al : ∀ e1 e2, -1 ≤ e1 → e1 ≤ 1 → -1 ≤ e2 → e2 ≤ 1 →
      alive s ((x + e1) % s.FX) ((y + e2) % s.FY)
        = (if (y - cy) % s.FY + e2 = 0 ∨ (y - cy) % s.FY + e2 = s.FY then 1 else 0)
          * (if (x - cx) % s.FX + e1 = -1 ∨ (x - cx) % s.FX + e1 = 0
              ∨ (x - cx) % s.FX + e1 = 1 ∨ (x - cx) % s.FX + e1 = s.FX - 1
              ∨ (x - cx) % s.FX + e1 = s.FX then 1 else 0) := by
    intro e1 e2 a1 a2 b1 b2
    obtain ⟨u0, u1⟩ := emod_range s.FX (x + e1) (by omega)
    obtain ⟨v0, v1⟩ := emod_range s.FY (y + e2) (by omega)
    rw [alive_pattern s _ hp _ _ u0 u1 v0 v1, ite_and_mul,
      if_congr (point_shift s.FY cy y e2 hFY hy0 hy hcy0 hcy b1 b2) rfl rfl,
      if_congr (line_shift s.FX cx x e1 hFX hx0 hx hcx0 hcx a1 a2) rfl rfl]
  have a00 := al 0 0 (by omega) (by omega) (by omega) (by omega)
  rw [add_zero x, add_zero y, Int.emod_eq_of_lt hx0 hx, Int.emod_eq_of_lt hy0 hy] at a00
  have hcur : s.cur (y * s.FX + x)
      = (if (x - cx) % s.FX + 0 = -1 ∨ (x - cx) % s.FX + 0 = 0
              ∨ (x - cx) % s.FX + 0 = 1 ∨ (x - cx) % s.FX + 0 = s.FX - 1
              ∨ (x - cx) % s.FX + 0 = s.FX then 1 else 0)
        * (if (y - cy) % s.FY + 0 = 0 ∨ (y - cy) % s.FY + 0 = s.FY then 1 else 0) := by
    rw [hp x y hx0 hx hy0 hy, ← alive_pattern s _ hp x y hx0 hx hy0 hy, a00, mul_comm]
  rw [hcur]
  have key := cross_rule s.FX s.FY ((x - cx) % s.FX) ((y - cy) % s.FY) _ _ _ _ _ _
    (torus_sum s x y) hFX hFY hdx.1 hdx.2 hdy.1 hdy.2 rfl rfl rfl rfl rfl rfl (by
      rw [torus_sum_unroll,
        al (-1) (-1) (by omega) (by omega) (by omega) (by omega),
        al (-1) 0 (by omega) (by omega) (by omega) (by omega),
        al (-1) 1 (by omega) (by omega) (by omega) (by omega),
        al 0 (-1) (by omega) (by omega) (by omega) (by omega),
        al 0 1 (by omega) (by omega) (by omega) (by omega),
        al 1 (-1) (by omega) (by omega) (by omega) (by omega),
        al 1 0 (by omega) (by omega) (by omega) (by omega),
        al 1 1 (by omega) (by omega) (by omega) (by omega)]
      ring)
  rw [key]
  have hx' := point_shift s.FX cx x 0 hFX hx0 hx hcx0 hcx (by omega) (by omega)
  have hy' := line_shift s.FY cy y 0 hFY hy0 hy hcy0 hcy (by omega) (by omega)
  rw [add_zero x, Int.emod_eq_of_lt hx0 hx] at hx'
  rw [add_zero y, Int.emod_eq_of_lt hy0 hy] at hy'
  exact if_congr (and_congr hx'.symm hy'.symm) rfl rfl

/-- In classical mode a vertical blinker becomes the horizontal one. -/
theorem blinker_turns_horizontal (s : Field) (fuel : Nat) (cx cy : Int)
    (hFX : 5 ≤ s.FX) (hFY : 5 ≤ s.FY) (hf : 3 ≤ fuel) (hr : s.rand_rules = 0)
    (hcx0 : 0 ≤ cx) (hcx : cx < s.FX) (hcy0 : 0 ≤ cy) (hcy : cy < s.FY)
    (hp : IsPattern s (blinkerV s.FY cx cy)) :
    ∃ t, field_step fuel s = some t ∧ t.FX = s.FX ∧ t.FY = s.FY ∧ t.rand_rules = 0
      ∧ IsPattern t (blinkerH s.FX cx cy) := by
  obtain ⟨t, ht, d1, d2, d3, hc⟩ := classical_step s fuel (by omega) (by omega) hf hr
  refine ⟨t, ht, d1, d2, d3, ?_⟩
  intro x y hx0 hx hy0 hy
  rw [d1] at hx ⊢
  rw [d2] at hy
  rw [hc x y hx0 hx hy0 hy]
  have hdx := emod_range s.FX (x - cx) (by omega)
  have hdy := emod_range s.FY (y - cy) (by omega)
  have al : ∀ e1 e2, -1 ≤ e1 → e1 ≤ 1 → -1 ≤ e2 → e2 ≤ 1 →
      alive s ((x + e1) % s.FX) ((y + e2) % s.FY)
        = (if (x - cx) % s.FX + e1 = 0 ∨ (x - cx) % s.FX + e1 = s.FX then 1 else 0)
          * (if (y - cy) % s.FY + e2 = -1 ∨ (y - cy) % s.FY + e2 = 0
              ∨ (y - cy) % s.FY + e2 = 1 ∨ (y - cy) % s.FY + e2 = s.FY - 1
              ∨ (y - cy) % s.FY + e2 = s.FY then 1 else 0) := by
    intro e1 e2 a1 a2 b1 b2
    obtain ⟨u0, u1⟩ := emod_range s.FX (x + e1) (by omega)
    obtain ⟨v0, v1⟩ := emod_range s.FY (y + e2) (by omega)
    rw [alive_pattern s _ hp _ _ u0 u1 v0 v1, ite_and_mul,
      if_congr (point_shift s.FX cx x e1 hFX hx0 hx hcx0 hcx a1 a2) rfl rfl,
      if_congr (line_shift s.FY cy y e2 hFY hy0 hy hcy0 hcy b1 b2) rfl rfl]
  have a00 := al 0 0 (by omega) (by omega) (by omega) (by omega)
  rw [add_zero x, add_zero y, Int.emod_eq_of_lt hx0 hx, Int.emod_eq_of_lt hy0 hy] at a00
  have hcur : s.cur (y * s.FX + x)
      = (if (y - cy) % s.FY + 0 = -1 ∨ (y - cy) % s.FY + 0 = 0
              ∨ (y - cy) % s.FY + 0 = 1 ∨ (y - cy) % s.FY + 0 = s.FY - 1
              ∨ (y - cy) % s.FY + 0 = s.FY then 1 else 0)
        * (if (x - cx) % s.FX + 0 = 0 ∨ (x - cx) % s.FX + 0 = s.FX then 1 else 0) := by
    rw [hp x y hx0 hx hy0 hy, ← alive_pattern s _ hp x y hx0 hx hy0 hy, a00, mul_comm]
  rw [hcur]
  have key := cross_rule s.FY s.FX ((y - cy) % s.FY) ((x - cx) % s.FX) _ _ _ _ _ _
    (torus_sum s x y) hFY hFX hdy.1 hdy.2 hdx.1 hdx.2 rfl rfl rfl rfl rfl rfl (by
      rw [torus_sum_unroll,
        al (-1) (-1) (by omega) (by omega) (by omega) (by omega),
        al (-1) 0 (by omega) (by omega) (by omega) (by omega),
        al (-1) 1 (by omega) (by omega) (by omega) (by omega),
        al 0 (-1) (by omega) (by omega) (by omega) (by omega),
        al 0 1 (by omega) (by omega) (by omega) (by omega),
        al 1 (-1) (by omega) (by omega) (by omega) (by omega),
        al 1 0 (by omega) (by omega) (by omega) (by omega),
        al 1 1 (by omega) (by omega) (by omega) (by omega)]
      ring)
  rw [key]
  have hx' := line_shift s.FX cx x 0 hFX hx0 hx hcx0 hcx (by omega) (by omega)
  have hy' := point_shift s.FY cy y 0 hFY hy0 hy hcy0 hcy (by omega) (by omega)
  rw [add_zero x, Int.emod_eq_of_lt hx0 hx] at hx'
  rw [add_zero y, Int.emod_eq_of_lt hy0 hy] at hy'
  exact if_congr (and_congr hy'.symm hx'.symm) rfl rfl

/-- Claim C4 (blinker period 2): with `rand_rules = 0`, on a grid with `FX >= 5`
and `FY >= 5` whose ages are 1 on three horizontally adjacent cells around
`(cx, cy)` (adjacency on the torus) and 0 elsewhere, one `field_step` returns the
vertical three-cell line through `(cx, cy)` with ages 1, and a second one returns
exactly the initial ages on every cell of the grid. -/
theorem blinker_period_two (s : Field) (fuel : Nat) (cx cy : Int)
    (hFX : 5 ≤ s.FX) (hFY : 5 ≤ s.FY) (hf : 3 ≤ fuel) (hr : s.rand_rules = 0)
    (hcx0 : 0 ≤ cx) (hcx : cx < s.FX) (hcy0 : 0 ≤ cy) (hcy : cy < s.FY)
    (hp : IsPattern s (blinkerH s.FX cx cy)) :
    ∃ t w, field_step fuel s = some t ∧ field_step fuel t = some w
      ∧ (∀ x y, 0 ≤ x → x < s.FX → 0 ≤ y → y < s.FY →
          t.cur (y * s.FX + x) = if blinkerV s.FY cx cy x y then 1 else 0)
      ∧ (∀ x y, 0 ≤ x → x < s.FX → 0 ≤ y → y < s.FY →
          w.cur (y * s.FX + x) = s.cur (y * s.FX + x))
      ∧ t.FX = s.FX ∧ t.FY = s.FY ∧ w.FX = s.FX ∧ w.FY = s.FY
      ∧ ∀ i ∈ upto 0 (s.FX * s.FY), w.cur i = s.cur i := by
  obtain ⟨t, ht, d1, d2, d3, pt⟩ :=
    blinker_turns_vertical s fuel cx cy hFX hFY hf hr hcx0 hcx hcy0 hcy hp
  obtain ⟨w, hw, e1, e2, _, pw⟩ :=
    blinker_turns_horizontal t fuel cx cy (by omega) (by omega) hf d3 hcx0 (by omega)
      hcy0 (by omega) (by rw [d2]; exact pt)
  rw [d1] at e1 pw
  rw [d2] at e2
  have hw' : ∀ x y, 0 ≤ x → x < s.FX → 0 ≤ y → y < s.FY →
      w.cur (y * s.FX + x) = s.cur (y * s.FX + x) := by
    intro x y hx0 hx hy0 hy
    have := pw x y hx0 (by rw [e1]; exact hx) hy0 (by rw [e2]; exact hy)
    rw [e1] at this
    rw [this, hp x y hx0 hx hy0 hy]
  refine ⟨t, w, ht, hw, ?_, hw', d1, d2, e1, e2, ?_⟩
  · intro x y hx0 hx hy0 hy
    have := pt x y hx0 (by rw [d1]; exact hx) hy0 (by rw [d2]; exact hy)
    rw [d1] at this
    exact this
  · intro i hi
    obtain ⟨h0, h1⟩ := (mem_upto _ _ _).1 hi
    obtain ⟨a1, a2, a3, a4, a5⟩ := cell_of_index s.FX s.FY i h0 h1 (by omega)
    rw [a5]
    exact hw' _ _ a1 a2 a3 a4

theorem cell_next_alive (r a sum : Int) (draws : Nat → Nat) (u : Nat) (hr : r ≠ 0)
    (ha : 0 < a) (hs : sum = 2 ∨ sum = 3) :
    cell_next r a sum draws u
      = if wrap32 (a + 1) > 100 then
          (if draws u % 100 = 99 then (0, u + 1) else (1, u + 1))
        else (wrap32 (a + 1), u) := by
  have h1 : 0 < classical a sum := by
    rw [classical_cases]; split_ifs <;> omega
  have h2 : stays_dead a sum (classical a sum) draws u = (classical a sum, u) := by
    unfold stays_dead
    rw [if_neg (by unfold dead_guard; omega)]
  unfold cell_next
  dsimp only
  rw [if_pos hr, h2]
  unfold stays_alive
  dsimp only
  rw [if_pos (show alive_guard (classical a sum) a from ⟨h1, ha⟩)]

theorem cell_next_dead (r a sum : Int) (draws : Nat → Nat) (u : Nat) (hr : r ≠ 0)
    (ha : a ≤ 0) (h0 : sum ≠ 0) (h3 : sum ≠ 3) :
    cell_next r a sum draws u
      = if wrap32 (a - 1) < -100 then
          (if sum = 2 then (if draws u % 100 = 99 then (1, u + 1) else (0, u + 1))
            else (0, u))
        else (wrap32 (a - 1), u) := by
  have h1 : classical a sum ≤ 0 := by
    rw [classical_cases]; split_ifs <;> omega
  have h2 : ∀ (p : Int × Nat), stays_alive a p.1 draws p.2 = p := by
    intro p
    unfold stays_alive
    rw [if_neg (by unfold alive_guard; omega)]
  unfold cell_next
  dsimp only
  rw [if_pos hr, h2]
  unfold stays_dead
  dsimp only
  rw [if_pos (show dead_guard (classical a sum) a from ⟨h1, ha⟩), if_neg h0]

theorem cell_next_reset (r a : Int) (draws : Nat → Nat) (u : Nat) (ha : a < 0) :
    cell_next r a 0 draws u = (0, u) := by
  have h1 : classical a 0 = 0 := by
    rw [classical_cases]; simp
  unfold cell_next
  dsimp only
  rw [h1]
  split_ifs
  · have h2 : stays_dead a 0 0 draws u = (0, u) := by
      unfold stays_dead
      dsimp only
      rw [if_pos (show dead_guard 0 a from ⟨le_refl 0, by omega⟩)]
      simp
    rw [h2]
    unfold stays_alive
    rw [if_neg (by unfold alive_guard; omega)]
  · rfl

theorem cell_next_pass (r a sum : Int) (draws : Nat → Nat) (u : Nat)
    (h : (a ≤ 0 ∧ sum = 3) ∨ (0 < a ∧ (sum < 2 ∨ sum > 3))) :
    ¬ dead_guard (classical a sum) a
      ∧ ¬ alive_guard (stays_dead a sum (classical a sum) draws u).1 a
      ∧ cell_next r a sum draws u = (classical a sum, u) := by
  have h1 : ¬ dead_guard (classical a sum) a := by
    unfold dead_guard; rw [classical_cases]; split_ifs <;> omega
  have h2 : stays_dead a sum (classical a sum) draws u = (classical a sum, u) := by
    unfold stays_dead; rw [if_neg h1]
  have h3 : ¬ alive_guard (classical a sum) a := by
    unfold alive_guard; rw [classical_cases]; split_ifs <;> omega
  refine ⟨h1, by rw [h2]; exact h3, ?_⟩
  unfold cell_next
  dsimp only
  split_ifs
  · rw [h2]; unfold stays_alive; rw [if_neg h3]
  · rfl

theorem cell_draws_alive (r a sum : Int) (hr : r ≠ 0) (ha : 0 < a)
    (hs : sum = 2 ∨ sum = 3) :
    cell_draws r a sum = if wrap32 (a + 1) > 100 then 1 else 0 := by
  unfold cell_draws
  rw [if_neg (by omega)]
  split_ifs <;> first | rfl | (exfalso; tauto)

theorem cell_draws_dead (r a sum : Int) (hr : r ≠ 0) (ha : a ≤ 0) :
    cell_draws r a sum = if sum = 2 ∧ wrap32 (a - 1) < -100 then 1 else 0 := by
  unfold cell_draws
  split_ifs <;> first | rfl | (exfalso; tauto) | (exfalso; omega)

/-- One step on `huge6`: the increment of `INT_MAX` wraps to `INT_MIN`, which is
not above 100 and is committed; the decrement of `INT_MIN` wraps to `INT_MAX`,
which is not below -100 and is committed. -/
theorem huge6_step :
    ∃ t, field_step 3 huge6 = some t ∧ t.cur 14 = -2147483648 ∧ t.cur 16 = 2147483647 := by
  obtain ⟨t, ht, hc⟩ := field_step_draw huge6 3 (by decide) (by decide) (by decide)
  refine ⟨t, ht, ?_, ?_⟩
  · have h := (hc 2 2 (by decide) (by decide) (by decide) (by decide)).1
    have ha : huge6.cur (2 * huge6.FX + 2) = 2147483647 := by decide
    have hs : torus_sum huge6 2 2 = 2 := by decide
    rw [ha, hs, cell_next_alive _ _ _ _ _ (by decide) (by decide) (Or.inl rfl),
      if_neg (by decide)] at h
    exact h
  · have h := (hc 4 2 (by decide) (by decide) (by decide) (by decide)).1
    have ha : huge6.cur (2 * huge6.FX + 4) = -2147483648 := by decide
    have hs : torus_sum huge6 4 2 = 1 := by decide
    rw [ha, hs, cell_next_dead _ _ _ _ _ (by decide) (by decide) (by decide) (by decide),
      if_neg (by decide)] at h
    exact h

/-- Claim C5 as stated fails at the age `INT_MAX`: the cell `(2, 2)` of `huge6` is
alive with neighbour sum 2 and `a + 1 > 100`, and the step commits `INT_MIN` for
it, neither 0 nor 1. -/
theorem age_wraps_at_int_max :
    0 < huge6.cur 14 ∧ torus_sum huge6 2 2 = 2 ∧ huge6.cur 14 + 1 > 100
    ∧ huge6.rand_rules ≠ 0
    ∧ ∃ t, field_step 3 huge6 = some t ∧ t.cur 14 = -2147483648
        ∧ t.cur 14 ≠ 0 ∧ t.cur 14 ≠ 1 := by
  refine ⟨by decide, by decide, by decide, by decide, ?_⟩
  obtain ⟨t, ht, h, _⟩ := huge6_step
  exact ⟨t, ht, h, by rw [h]; decide, by rw [h]; decide⟩

/-- Claim C6 as stated fails at the age `INT_MIN`: the cell `(4, 2)` of `huge6` is
dead with neighbour sum 1 and `a - 1 < -100`, and the step commits `INT_MAX` for
it, not 0, although the sum is not 2. -/
theorem dead_age_wraps_at_int_min :
    huge6.cur 16 ≤ 0 ∧ torus_sum huge6 4 2 = 1 ∧ huge6.cur 16 - 1 < -100
    ∧ huge6.rand_rules ≠ 0
    ∧ ∃ t, field_step 3 huge6 = some t ∧ t.cur 16 = 2147483647 ∧ t.cur 16 ≠ 0 := by
  refine ⟨by decide, by decide, by decide, by decide, ?_⟩
  obtain ⟨t, ht, _, h⟩ := huge6_step
  exact ⟨t, ht, h, by rw [h]; decide⟩

/-- Claim C5, amended (age monotonicity under modified rules): with `rand_rules` on,
on a grid with `FX >= 2` and `FY >= 2`, `field_step` returns and for every cell of
age `0 < a < INT_MAX` and neighbour sum 2 or 3 commits `a + 1` when `a + 1 <= 100`,
without a draw, and when `a + 1 > 100` makes one draw for the cell, number
`draw_index` of the stream and one of this call, and commits 0 if that draw is 99
modulo 100 and 1 otherwise; the committed age is at most 100. -/
theorem age_monotone (s : Field) (fuel : Nat) (hFX : 2 ≤ s.FX) (hFY : 2 ≤ s.FY)
    (hf : 3 ≤ fuel) (hr : s.rand_rules ≠ 0) :
    ∃ t, field_step fuel s = some t
      ∧ ∀ x y, 0 ≤ x → x < s.FX → 0 ≤ y → y < s.FY →
          0 < s.cur (y * s.FX + x) → s.cur (y * s.FX + x) < 2147483647 →
          (torus_sum s x y = 2 ∨ torus_sum s x y = 3) →
          (s.cur (y * s.FX + x) + 1 ≤ 100 →
              t.cur (y * s.FX + x) = s.cur (y * s.FX + x) + 1
              ∧ cell_draws s.rand_rules (s.cur (y * s.FX + x)) (torus_sum s x y) = 0)
          ∧ (s.cur (y * s.FX + x) + 1 > 100 →
              cell_draws s.rand_rules (s.cur (y * s.FX + x)) (torus_sum s x y) = 1
              ∧ s.used ≤ draw_index s x y ∧ draw_index s x y < t.used
              ∧ t.cur (y * s.FX + x)
                  = if s.draws (draw_index s x y) % 100 = 99 then 0 else 1)
          ∧ t.cur (y * s.FX + x) ≤ 100 := by
  obtain ⟨t, ht, hc⟩ := field_step_draw s fuel hFX hFY hf
  refine ⟨t, ht, ?_⟩
  intro x y hx0 hx hy0 hy ha hmax hs
  obtain ⟨hu3, hu2⟩ := hc x y hx0 hx hy0 hy
  have hw : wrap32 (s.cur (y * s.FX + x) + 1) = s.cur (y * s.FX + x) + 1 :=
    wrap32_id _ (by omega) (by omega)
  rw [cell_next_alive _ _ _ _ _ hr ha hs, hw] at hu3
  rw [cell_draws_alive _ _ _ hr ha hs, hw] at hu2 ⊢
  by_cases hold : s.cur (y * s.FX + x) + 1 > 100
  · rw [if_pos hold] at hu2 hu3 ⊢
    have hv : t.cur (y * s.FX + x)
        = if s.draws (draw_index s x y) % 100 = 99 then 0 else 1 := by
      rw [hu3]; split_ifs <;> rfl
    refine ⟨fun h => absurd hold (by omega),
      fun _ => ⟨rfl, Nat.le_add_right _ _, by omega, hv⟩, ?_⟩
    rw [hv]; split_ifs <;> norm_num
  · rw [if_neg hold] at hu3 ⊢
    exact ⟨fun _ => ⟨hu3, rfl⟩, fun h => absurd h hold, by rw [hu3]; exact not_lt.1 hold⟩

/-- Claim C6, amended (dead-cell counter bound): with `rand_rules` on, on a grid
with `FX >= 2` and `FY >= 2`, `field_step` returns and for every cell of age
`INT_MIN < a <= 0` whose neighbour sum is neither 0 nor 3 commits `a - 1` when
`a - 1 >= -100`, without a draw; when `a - 1 < -100` it commits 0 if the sum is not
2, and if the sum is 2 it makes one draw for the cell, number `draw_index` of the
stream and one of this call, and commits 1 when that draw is 99 modulo 100 and 0
otherwise; the committed age is never below -101. -/
theorem dead_counter_bound (s : Field) (fuel : Nat) (hFX : 2 ≤ s.FX) (hFY : 2 ≤ s.FY)
    (hf : 3 ≤ fuel) (hr : s.rand_rules ≠ 0) :
    ∃ t, field_step fuel s = some t
      ∧ ∀ x y, 0 ≤ x → x < s.FX → 0 ≤ y → y < s.FY →
          s.cur (y * s.FX + x) ≤ 0 → -2147483648 < s.cur (y * s.FX + x) →
          torus_sum s x y ≠ 0 → torus_sum s x y ≠ 3 →
          (s.cur (y * s.FX + x) - 1 ≥ -100 →
              t.cur (y * s.FX + x) = s.cur (y * s.FX + x) - 1
              ∧ cell_draws s.rand_rules (s.cur (y * s.FX + x)) (torus_sum s x y) = 0)
          ∧ (s.cur (y * s.FX + x) - 1 < -100 →
              (torus_sum s x y ≠ 2 → t.cur (y * s.FX + x) = 0
                ∧ cell_draws s.rand_rules (s.cur (y * s.FX + x)) (torus_sum s x y) = 0)
              ∧ (torus_sum s x y = 2 →
                  cell_draws s.rand_rules (s.cur (y * s.FX + x)) (torus_sum s x y) = 1
                  ∧ s.used ≤ draw_index s x y ∧ draw_index s x y < t.used
                  ∧ t.cur (y * s.FX + x)
                      = if s.draws (draw_index s x y) % 100 = 99 then 1 else 0))
          ∧ -101 ≤ t.cur (y * s.FX + x) := by
  obtain ⟨t, ht, hc⟩ := field_step_draw s fuel hFX hFY hf
  refine ⟨t, ht, ?_⟩
  intro x y hx0 hx hy0 hy ha hmin h0 h3
  obtain ⟨hu3, hu2⟩ := hc x y hx0 hx hy0 hy
  have hw : wrap32 (s.cur (y * s.FX + x) - 1) = s.cur (y * s.FX + x) - 1 :=
    wrap32_id _ (by omega) (by omega)
  rw [cell_next_dead _ _ _ _ _ hr ha h0 h3, hw] at hu3
  rw [cell_draws_dead _ _ _ hr ha, hw] at hu2 ⊢
  by_cases hold : s.cur (y * s.FX + x) - 1 < -100
  · rw [if_pos hold] at hu3
    by_cases h2 : torus_sum s x y = 2
    · rw [if_pos h2] at hu3
      rw [if_pos ⟨h2, hold⟩] at hu2 ⊢
      have hv : t.cur (y * s.FX + x)
          = if s.draws (draw_index s x y) % 100 = 99 then 1 else 0 := by
        rw [hu3]; split_ifs <;> rfl
      refine ⟨fun h => absurd hold (by omega),
        fun _ => ⟨fun h => absurd h2 h,
          fun _ => ⟨rfl, Nat.le_add_right _ _, by omega, hv⟩⟩, ?_⟩
      rw [hv]; split_ifs <;> norm_num
    · rw [if_neg h2] at hu3
      rw [if_neg (fun h => h2 h.1)]
      refine ⟨fun h => absurd hold (by omega),
        fun _ => ⟨fun _ => ⟨hu3, rfl⟩, fun h => absurd h h2⟩, ?_⟩
      rw [hu3]; norm_num
  · rw [if_neg hold] at hu3
    rw [if_neg (fun h => hold h.2)]
    refine ⟨fun _ => ⟨hu3, rfl⟩, fun h => absurd h hold, ?_⟩
    rw [hu3]; omega

/-- Claim C7 (zero-neighbour reset): in either rule mode, on a grid with `FX >= 2`
and `FY >= 2`, `field_step` returns and commits exactly 0 for every cell of
negative age, whatever its magnitude, whose neighbour sum is 0; the rules make no
call of `rand()` for such a cell and give 0 whatever the stream of draws. -/
theorem zero_neighbour_reset (s : Field) (fuel : Nat) (hFX : 2 ≤ s.FX) (hFY : 2 ≤ s.FY)
    (hf : 3 ≤ fuel) :
    (∃ t, field_step fuel s = some t
      ∧ ∀ x y, 0 ≤ x → x < s.FX → 0 ≤ y → y < s.FY →
          s.cur (y * s.FX + x) < 0 → torus_sum s x y = 0 → t.cur (y * s.FX + x) = 0)
    ∧ ∀ (r a : Int) (draws : Nat → Nat) (u : Nat), a < 0 →
        cell_next r a 0 draws u = (0, u) := by
  refine ⟨?_, fun r a draws u ha => cell_next_reset r a draws u ha⟩
  obtain ⟨t, ht, _, _, _, _, _, _, _, hc⟩ := field_step_spec s fuel hFX hFY hf
  refine ⟨t, ht, ?_⟩
  intro x y hx0 hx hy0 hy ha h0
  obtain ⟨_, u, _, _, hu3⟩ := hc x y hx0 hx hy0 hy
  rw [h0, cell_next_reset _ _ _ _ ha] at hu3
  exact hu3

/-- Claim C8 (pass-through of births and deaths): with `rand_rules` on (and in
fact for any value of the flag), on a grid with `FX >= 2` and `FY >= 2`,
`field_step` returns and commits 1 for a dead cell (age `<= 0`) with neighbour
sum 3 and 0 for a live cell (age `> 0`) with sum `< 2` or `> 3`, the classical
result; for such a cell neither the stays-dead nor the stays-alive test holds and
no call of `rand()` is made; the two tests never hold together. -/
theorem birth_death_pass_through (s : Field) (fuel : Nat) (hFX : 2 ≤ s.FX)
    (hFY : 2 ≤ s.FY) (hf : 3 ≤ fuel) :
    (∃ t, field_step fuel s = some t
      ∧ ∀ x y, 0 ≤ x → x < s.FX → 0 ≤ y → y < s.FY →
          (s.cur (y * s.FX + x) ≤ 0 → torus_sum s x y = 3 →
              t.cur (y * s.FX + x) = 1
              ∧ t.cur (y * s.FX + x) = classical (s.cur (y * s.FX + x)) (torus_sum s x y))
          ∧ (0 < s.cur (y * s.FX + x) → (torus_sum s x y < 2 ∨ torus_sum s x y > 3) →
              t.cur (y * s.FX + x) = 0
              ∧ t.cur (y * s.FX + x) = classical (s.cur (y * s.FX + x)) (torus_sum s x y)))
    ∧ (∀ (a sum : Int) (draws : Nat → Nat) (u : Nat),
        (a ≤ 0 ∧ sum = 3) ∨ (0 < a ∧ (sum < 2 ∨ sum > 3)) →
        ¬ dead_guard (classical a sum) a
          ∧ ¬ alive_guard (stays_dead a sum (classical a sum) draws u).1 a
          ∧ (cell_next s.rand_rules a sum draws u).2 = u)
    ∧ (∀ (a n m : Int), ¬ (dead_guard n a ∧ alive_guard m a)) := by
  refine ⟨?_, ?_, ?_⟩
  · obtain ⟨t, ht, _, _, _, _, _, _, _, hc⟩ := field_step_spec s fuel hFX hFY hf
    refine ⟨t, ht, ?_⟩
    intro x y hx0 hx hy0 hy
    obtain ⟨_, u, _, _, hu3⟩ := hc x y hx0 hx hy0 hy
    constructor
    · intro ha h3
      rw [(cell_next_pass _ _ _ s.draws u (Or.inl ⟨ha, h3⟩)).2.2] at hu3
      refine ⟨?_, hu3⟩
      rw [hu3, classical_cases, if_neg (by omega), if_pos h3]
    · intro ha h3
      rw [(cell_next_pass _ _ _ s.draws u (Or.inr ⟨ha, h3⟩)).2.2] at hu3
      refine ⟨?_, hu3⟩
      rw [hu3, classical_cases, if_pos h3]
  · intro a sum draws u h
    obtain ⟨h1, h2, h3⟩ := cell_next_pass s.rand_rules a sum draws u h
    exact ⟨h1, h2, by rw [h3]⟩
  · intro a n m h
    unfold dead_guard alive_guard at h
    omega

/-! ## Termination and buffering -/

theorem upto_ne_nil (hi : Int) (h : 0 < hi) : upto 0 hi ≠ [] := by
  intro hc
  have : (0 : Int) ∈ upto 0 hi := (mem_upto _ _ _).2 ⟨le_refl 0, h⟩
  rw [hc] at this
  simp at this

/-- With a height of 1 and a positive width the third loop never ends; with a
width of 1 the fourth loop never ends. -/
theorem field_step_hangs (s : Field) (h : (s.FY = 1 ∧ 1 ≤ s.FX) ∨ s.FX = 1)
    (fuel : Nat) : field_step fuel s = none := by
  rw [field_step_eq]
  unfold sum_loops
  rcases h with ⟨hy, hx⟩ | hx
  · have : sum_rows fuel s.FX s.FY (snapshot s)
        (sum_interior s.FX s.FY (snapshot s) s.state_sum) = none := by
      unfold sum_rows
      refine foldlM_none _ _ (upto_ne_nil _ (by omega)) ?_ _
      intro c a
      rw [hy]
      exact strideLoop_zero 1 _ 0 (by norm_num) fuel c
    rw [this]; rfl
  · cases h1 : sum_rows fuel s.FX s.FY (snapshot s)
        (sum_interior s.FX s.FY (snapshot s) s.state_sum) with
    | none => rfl
    | some r =>
      have : sum_cols fuel s.FX s.FY (snapshot s) r = none := by
        unfold sum_cols
        rw [hx]
        exact strideLoop_zero 1 _ 0 (by norm_num) fuel r
      simp [this]

/-- Claim C9 (step totality) fails on grids one cell wide or high: after
`field_init(1, 1)`, `field_init(5, 1)` or `field_init(1, 5)` no amount of fuel
lets `field_step` return, the stride `FY-1` or `FX-1` of an edge loop being 0. -/
theorem step_hangs_on_unit_dimension :
    (∀ fuel, field_step fuel (field_init start 1 1) = none)
    ∧ (∀ fuel, field_step fuel (field_init start 5 1) = none)
    ∧ (∀ fuel, field_step fuel (field_init start 1 5) = none) :=
  ⟨field_step_hangs _ (Or.inr rfl), field_step_hangs _ (Or.inl ⟨rfl, by decide⟩),
    field_step_hangs _ (Or.inr rfl)⟩

/-- On a grid at least 2 x 2 a step returns, having given every cell a neighbour
sum and a committed age. -/
theorem field_step_total (s : Field) (fuel : Nat) (hFX : 2 ≤ s.FX) (hFY : 2 ≤ s.FY)
    (hf : 3 ≤ fuel) : ∃ t, field_step fuel s = some t :=
  (field_step_spec s fuel hFX hFY hf).imp fun _ h => h.1

/-- Claim C10 (ping-pong buffering): a call of `field_step` that returns has
stored the next generation through `state_n`, the buffer other than the current
one, has left the buffer of the current generation unchanged in every cell, and
has made `state` point to the buffer it wrote; a second call brings `state` back
to the original buffer.  On a grid at least 2 x 2 both calls return. -/
theorem ping_pong :
    (∀ (s t : Field) (fuel : Nat), field_step fuel s = some t →
        t.state = s.next ∧ t.state ≠ s.state
        ∧ t.buf s.state = s.buf s.state
        ∧ t.cur = t.buf s.next
        ∧ t.buf s.next
            = (commit s t.state_sum
                { state_n := s.buf s.next, trace := s.trace, used := s.used }).state_n
        ∧ t.next = s.state
        ∧ ∀ (w : Field) (fuel' : Nat), field_step fuel' t = some w →
            w.state = s.state ∧ w.buf t.state = t.cur)
    ∧ (∀ (s : Field) (fuel : Nat), 2 ≤ s.FX → 2 ≤ s.FY → 3 ≤ fuel →
        ∃ t w, field_step fuel s = some t ∧ field_step fuel t = some w
          ∧ t.state ≠ s.state ∧ t.buf s.state = s.cur ∧ w.state = s.state) := by
  have one : ∀ (s t : Field) (fuel : Nat), field_step fuel s = some t →
      t.state = s.next ∧ t.state ≠ s.state ∧ t.buf s.state = s.buf s.state
        ∧ t.cur = t.buf s.next
        ∧ t.buf s.next
            = (commit s t.state_sum
                { state_n := s.buf s.next, trace := s.trace, used := s.used }).state_n
        ∧ t.next = s.state := by
    intro s t fuel h
    obtain ⟨r, _, rfl⟩ := field_step_some fuel s t h
    have hc := step_result_cur s r
    exact ⟨rfl, next_ne_state s, step_result_old s r, rfl, hc, next_next s r⟩
  constructor
  · intro s t fuel h
    obtain ⟨a1, a2, a3, a4, a4', a5⟩ := one s t fuel h
    refine ⟨a1, a2, a3, a4, a4', a5, ?_⟩
    intro w fuel' hw
    obtain ⟨b1, _, b3, _, _, _⟩ := one t w fuel' hw
    exact ⟨b1.trans a5, b3⟩
  · intro s fuel hFX hFY hf
    obtain ⟨t, ht, d1, d2, _⟩ := field_step_spec s fuel hFX hFY hf
    obtain ⟨w, hw⟩ := field_step_total t fuel (by omega) (by omega) hf
    obtain ⟨_, a2, a3, _, _, a5⟩ := one s t fuel ht
    obtain ⟨b1, _⟩ := one t w fuel hw
    exact ⟨t, w, ht, hw, a2, a3, b1.trans a5⟩

/-! ## Determinism -/

/-- Two loops run side by side over the same list: a scalar agreement `E` kept by
every pair of iterations, and an agreement `A` at an index that holds afterwards
wherever it held before or the iteration stores (`K`). -/
theorem foldl_agree {α γ : Type} (E : γ → γ → Prop) (A : γ → γ → Int → Prop)
    (K : α → Int → Prop) (f f' : γ → α → γ) (l : List α)
    (hstep : ∀ c c', ∀ a ∈ l, E c c' →
      E (f c a) (f' c' a) ∧ ∀ i, (A c c' i ∨ K a i) → A (f c a) (f' c' a) i) :
    ∀ c c', E c c' →
      E (l.foldl f c) (l.foldl f' c')
        ∧ ∀ i, (A c c' i ∨ ∃ a ∈ l, K a i) → A (l.foldl f c) (l.foldl f' c') i := by
  induction l with
  | nil =>
    intro c c' h
    refine ⟨h, fun i hi => ?_⟩
    rcases hi with hi | ⟨a, ha, _⟩
    · exact hi
    · simp at ha
  | cons a l ih =>
    intro c c' h
    obtain ⟨h1, h2⟩ := hstep c c' a (List.mem_cons_self a l) h
    obtain ⟨h3, h4⟩ := ih (fun c c' b hb => hstep c c' b (List.mem_cons_of_mem a hb))
      (f c a) (f' c' a) h1
    refine ⟨h3, fun i hi => h4 i ?_⟩
    rcases hi with hi | ⟨b, hb, hk⟩
    · exact Or.inl (h2 i (Or.inl hi))
    · rcases List.mem_cons.1 hb with rfl | hb
      · exact Or.inl (h2 i (Or.inr hk))
      · exact Or.inr ⟨b, hb, hk⟩

/-- The rule loop run on two states that agree on the ages and sums of the cells
makes the same calls of `rand()` and stores the same ages in the cells. -/
theorem commit_agree (s s' : Field) (sum sum' : Int → Int) (c0 c0' : Commit)
    (hFX : s.FX = s'.FX) (hFY : s.FY = s'.FY) (hr : s.rand_rules = s'.rand_rules)
    (hd : s.draws = s'.draws) (hu : c0.used = c0'.used)
    (hcur : ∀ x y, 0 ≤ x → x < s.FX → 0 ≤ y → y < s.FY →
      s.cur (y * s.FX + x) = s'.cur (y * s.FX + x))
    (hsum : ∀ x y, 0 ≤ x → x < s.FX → 0 ≤ y → y < s.FY →
      sum (y * s.FX + x) = sum' (y * s.FX + x)) :
    (commit s sum c0).used = (commit s' sum' c0').used
      ∧ ∀ x y, 0 ≤ x → x < s.FX → 0 ≤ y → y < s.FY →
          (commit s sum c0).state_n (y * s.FX + x)
            = (commit s' sum' c0').state_n (y * s.FX + x) := by
  have inner : ∀ x ∈ upto 0 s.FX, ∀ c c' : Commit, c.used = c'.used →
      ((upto 0 s.FY).foldl (fun c y => commit_cell s sum x y c) c).used
        = ((upto 0 s.FY).foldl (fun c y => commit_cell s' sum' x y c) c').used
      ∧ ∀ i, (c.state_n i = c'.state_n i ∨ ∃ y ∈ upto 0 s.FY, i = y * s.FX + x) →
          ((upto 0 s.FY).foldl (fun c y => commit_cell s sum x y c) c).state_n i
            = ((upto 0 s.FY).foldl (fun c y => commit_cell s' sum' x y c) c').state_n i := by
    intro x hx
    obtain ⟨hx0, hx1⟩ := (mem_upto _ _ _).1 hx
    refine foldl_agree (fun c c' : Commit => c.used = c'.used)
      (fun c c' i => c.state_n i = c'.state_n i) (fun y i => i = y * s.FX + x)
      (fun c y => commit_cell s sum x y c) (fun c y => commit_cell s' sum' x y c)
      (upto 0 s.FY) ?_
    intro c c' y hy he
    obtain ⟨hy0, hy1⟩ := (mem_upto _ _ _).1 hy
    have hcell : cell_next s.rand_rules (s.cur (y * s.FX + x)) (sum (y * s.FX + x))
          s.draws c.used
        = cell_next s'.rand_rules (s'.cur (y * s'.FX + x)) (sum' (y * s'.FX + x))
          s'.draws c'.used := by
      rw [← hFX, ← hr, ← hd, ← he, hcur x y hx0 hx1 hy0 hy1, hsum x y hx0 hx1 hy0 hy1]
    refine ⟨?_, ?_⟩
    · simp only [commit_cell]
      rw [hcell]
    · intro i hi
      simp only [commit_cell]
      rw [hcell, ← hFX]
      by_cases hik : i = y * s.FX + x
      · subst hik; simp
      · rcases hi with hi | hi
        · simp [Function.update, hik, hi]
        · exact absurd hi hik
  have outer := foldl_agree (fun c c' : Commit => c.used = c'.used)
    (fun c c' i => c.state_n i = c'.state_n i)
    (fun x i => ∃ y ∈ upto 0 s.FY, i = y * s.FX + x)
    (fun c x => (upto 0 s.FY).foldl (fun c y => commit_cell s sum x y c) c)
    (fun c x => (upto 0 s.FY).foldl (fun c y => commit_cell s' sum' x y c) c)
    (upto 0 s.FX)
    (fun c c' x hx he => inner x hx c c' he) c0 c0' hu
  have e : commit s' sum' c0'
      = (upto 0 s.FX).foldl
          (fun c x => (upto 0 s.FY).foldl (fun c y => commit_cell s' sum' x y c) c) c0' := by
    unfold commit; rw [← hFX, ← hFY]
  rw [e]
  refine ⟨outer.1, ?_⟩
  intro x y hx0 hx hy0 hy
  exact outer.2 _ (Or.inr ⟨x, (mem_upto _ _ _).2 ⟨hx0, hx⟩, y,
    (mem_upto _ _ _).2 ⟨hy0, hy⟩, rfl⟩)

theorem strideLoop_fuel {σ : Type} (bound : Int) (body : Int → σ → σ) (fuel : Nat)
    (hb : 2 ≤ bound) (c d : σ)
    (h : strideLoop bound (bound - 1) body fuel 0 c = some d) : 3 ≤ fuel := by
  have h1 : (0 : Int) < bound := by omega
  have h2 : (0 : Int) + (bound - 1) < bound := by omega
  match fuel, h with
  | 0, h => simp [strideLoop] at h
  | 1, h => simp [strideLoop, h1] at h
  | 2, h => simp [strideLoop, h1, h2] at h
  | n + 3, _ => omega

/-- A step that returns on a grid of positive dimensions ran on a grid at least
2 x 2 with fuel at least 3. -/
theorem field_step_returns (fuel : Nat) (s t : Field) (h : field_step fuel s = some t)
    (hFX : 1 ≤ s.FX) (hFY : 1 ≤ s.FY) : 2 ≤ s.FX ∧ 2 ≤ s.FY ∧ 3 ≤ fuel := by
  have hx : s.FX ≠ 1 := by
    intro e
    rw [field_step_hangs s (Or.inr e) fuel] at h
    exact Option.noConfusion h
  have hy : s.FY ≠ 1 := by
    intro e
    rw [field_step_hangs s (Or.inl ⟨e, hFX⟩) fuel] at h
    exact Option.noConfusion h
  refine ⟨by omega, by omega, ?_⟩
  obtain ⟨r, hr, _⟩ := field_step_some fuel s t h
  unfold sum_loops at hr
  cases h1 : sum_rows fuel s.FX s.FY (snapshot s)
      (sum_interior s.FX s.FY (snapshot s) s.state_sum) with
  | none => rw [h1] at hr; simp at hr
  | some r1 =>
    rw [h1] at hr
    exact strideLoop_fuel s.FX _ fuel (by omega) r1 r hr

theorem torus_sum_agree (s s' : Field) (x y : Int) (hFX : s.FX = s'.FX) (hFY : s.FY = s'.FY)
    (h0 : 0 < s.FX) (h1 : 0 < s.FY)
    (hcur : ∀ u v, 0 ≤ u → u < s.FX → 0 ≤ v → v < s.FY →
      s.cur (v * s.FX + u) = s'.cur (v * s.FX + u)) :
    torus_sum s x y = torus_sum s' x y := by
  have e : ∀ dx dy, alive s ((x + dx) % s.FX) ((y + dy) % s.FY)
      = alive s' ((x + dx) % s'.FX) ((y + dy) % s'.FY) := by
    intro dx dy
    obtain ⟨a1, a2⟩ := emod_range s.FX (x + dx) h0
    obtain ⟨b1, b2⟩ := emod_range s.FY (y + dy) h1
    unfold alive
    rw [← hFX, ← hFY, hcur _ _ a1 a2 b1 b2]
  rw [torus_sum_unroll, torus_sum_unroll]
  simp only [e]

theorem sameRun_cells (s s' : Field) (h : SameRun s s') :
    ∀ u v, 0 ≤ u → u < s.FX → 0 ≤ v → v < s.FY →
      s.cur (v * s.FX + u) = s'.cur (v * s.FX + u) := by
  intro u v hu0 hu hv0 hv
  obtain ⟨a, b⟩ := index_lt s.FX s.FY u v hu0 hu hv0 hv
  exact h.2.2.2.2.2 _ ((mem_upto _ _ _).2 ⟨a, b⟩)

/-- One step keeps two runs together. -/
theorem field_step_sameRun (fuel : Nat) (s s' t : Field) (h : SameRun s s')
    (hFX : 1 ≤ s.FX) (hFY : 1 ≤ s.FY) (ht : field_step fuel s = some t) :
    ∃ t', field_step fuel s' = some t' ∧ SameRun t t' := by
  obtain ⟨gx, gy, gf⟩ := field_step_returns fuel s t ht hFX hFY
  have hcur := sameRun_cells s s' h
  obtain ⟨e1, e2, e3, e4, e5, _⟩ := h
  obtain ⟨r, hr, hsum⟩ := sum_loops_spec s fuel gx gy gf
  obtain ⟨r', hr', hsum'⟩ := sum_loops_spec s' fuel (by omega) (by omega) gf
  have ht2 : t = step_result s r := by
    rw [field_step_eq, hr] at ht
    exact (Option.some.inj ht).symm
  refine ⟨step_result s' r', by rw [field_step_eq, hr']; rfl, ?_⟩
  obtain ⟨c1, c2⟩ := commit_agree s s' r r'
    { state_n := s.buf s.next, trace := s.trace, used := s.used }
    { state_n := s'.buf s'.next, trace := s'.trace, used := s'.used }
    e1 e2 e3 e4 e5 hcur
    (fun x y hx0 hx hy0 hy => by
      rw [hsum x y hx0 hx hy0 hy, e1, hsum' x y hx0 (by omega) hy0 (by omega)]
      exact torus_sum_agree s s' x y e1 e2 (by omega) (by omega) hcur)
  subst ht2
  refine ⟨e1, e2, e3, e4, c1, ?_⟩
  intro i hi
  have hi' : i ∈ upto 0 (s.FX * s.FY) := hi
  obtain ⟨h0, h1⟩ := (mem_upto _ _ _).1 hi'
  obtain ⟨a1, a2, a3, a4, a5⟩ := cell_of_index s.FX s.FY i h0 h1 (by omega)
  rw [step_result_cur, step_result_cur, a5]
  exact c2 _ _ a1 a2 a3 a4

theorem steps_sameRun (fuel : Nat) (n : Nat) :
    ∀ (s s' t : Field), SameRun s s' → 1 ≤ s.FX → 1 ≤ s.FY → steps fuel n s = some t →
      ∃ t', steps fuel n s' = some t' ∧ SameRun t t' := by
  induction n with
  | zero =>
    intro s s' t h _ _ ht
    simp only [steps] at ht
    exact ⟨s', rfl, by rw [← Option.some.inj ht]; exact h⟩
  | succ n ih =>
    intro s s' t h hFX hFY ht
    simp only [steps] at ht ⊢
    cases h1 : field_step fuel s with
    | none => rw [h1] at ht; simp at ht
    | some m =>
      rw [h1] at ht
      obtain ⟨m', hm', hs⟩ := field_step_sameRun fuel s s' m h hFX hFY h1
      obtain ⟨r, _, e⟩ := field_step_some fuel s m h1
      have d1 : m.FX = s.FX := by rw [e]; rfl
      have d2 : m.FY = s.FY := by rw [e]; rfl
      obtain ⟨t', ht', hst⟩ := ih m m' t hs (by omega) (by omega) ht
      exact ⟨t', by rw [hm']; exact ht', hst⟩

theorem steps_total (fuel : Nat) (hf : 3 ≤ fuel) (n : Nat) :
    ∀ s : Field, 2 ≤ s.FX → 2 ≤ s.FY →
      ∃ t, steps fuel n s = some t ∧ t.FX = s.FX ∧ t.FY = s.FY := by
  induction n with
  | zero => intro s _ _; exact ⟨s, rfl, rfl, rfl⟩
  | succ n ih =>
    intro s hFX hFY
    obtain ⟨m, hm, d1, d2, _⟩ := field_step_spec s fuel hFX hFY hf
    obtain ⟨t, ht, e1, e2⟩ := ih m (by omega) (by omega)
    exact ⟨t, by simp only [steps]; rw [hm]; exact ht, e1.trans d1, e2.trans d2⟩

/-- Claim C11 (determinism with fixed randomness): two runs of `n` successive calls
of `field_step` that start from the same ages on the cells of the current
generation, the same rule mode and the same random generator end together and in
the same ages on every cell, whatever the prior contents of the other age buffer,
of `state_sum`, `state_tmp` and `trace`; on a grid at least 2 x 2 both runs return. -/
theorem determinism (s s' : Field) (fuel n : Nat) (hFX : 1 ≤ s.FX) (hFY : 1 ≤ s.FY)
    (h : SameRun s s') :
    (∀ t, steps fuel n s = some t →
        ∃ t', steps fuel n s' = some t' ∧ SameRun t t'
          ∧ ∀ i ∈ upto 0 (s.FX * s.FY), t.cur i = t'.cur i)
    ∧ (steps fuel n s = none ↔ steps fuel n s' = none)
    ∧ (2 ≤ s.FX → 2 ≤ s.FY → 3 ≤ fuel →
        ∃ t t', steps fuel n s = some t ∧ steps fuel n s' = some t'
          ∧ ∀ i ∈ upto 0 (s.FX * s.FY), t.cur i = t'.cur i) := by
  have hsym : SameRun s' s := by
    obtain ⟨e1, e2, e3, e4, e5, e6⟩ := h
    refine ⟨e1.symm, e2.symm, e3.symm, e4.symm, e5.symm, ?_⟩
    intro i hi
    rw [← e1, ← e2] at hi
    exact (e6 i hi).symm
  have dims : ∀ t, steps fuel n s = some t → t.FX = s.FX ∧ t.FY = s.FY := by
    intro t ht
    clear h hsym
    induction n generalizing s with
    | zero =>
      simp only [steps] at ht
      rw [← Option.some.inj ht]; exact ⟨rfl, rfl⟩
    | succ n ih =>
      simp only [steps] at ht
      cases h1 : field_step fuel s with
      | none => rw [h1] at ht; simp at ht
      | some m =>
        rw [h1] at ht
        obtain ⟨r, _, e⟩ := field_step_some fuel s m h1
        have d1 : m.FX = s.FX := by rw [e]; rfl
        have d2 : m.FY = s.FY := by rw [e]; rfl
        obtain ⟨a, b⟩ := ih m (by omega) (by omega) ht
        exact ⟨a.trans d1, b.trans d2⟩
  have one : ∀ t, steps fuel n s = some t →
      ∃ t', steps fuel n s' = some t' ∧ SameRun t t'
        ∧ ∀ i ∈ upto 0 (s.FX * s.FY), t.cur i = t'.cur i := by
    intro t ht
    obtain ⟨t', ht', hs⟩ := steps_sameRun fuel n s s' t h hFX hFY ht
    obtain ⟨d1, d2⟩ := dims t ht
    refine ⟨t', ht', hs, ?_⟩
    intro i hi
    rw [← d1, ← d2] at hi
    exact hs.2.2.2.2.2 i hi
  refine ⟨one, ⟨?_, ?_⟩, ?_⟩
  · intro hn
    cases h2 : steps fuel n s' with
    | none => rfl
    | some t' =>
      obtain ⟨t, ht, _⟩ := steps_sameRun fuel n s' s t' hsym (by rw [← h.1]; exact hFX)
        (by rw [← h.2.1]; exact hFY) h2
      rw [hn] at ht
      exact Option.noConfusion ht
  · intro hn
    cases h2 : steps fuel n s with
    | none => rfl
    | some t =>
      obtain ⟨t', ht', _⟩ := one t h2
      rw [hn] at ht'
      exact Option.noConfusion ht'
  · intro gx gy gf
    obtain ⟨t, ht, _⟩ := steps_total fuel gf n s gx gy
    obtain ⟨t', ht', _, hc⟩ := one t ht
    exact ⟨t, t', ht, ht', hc⟩

/-! ## The activity trace -/

/-- A loop whose iterations store at pairwise disjoint sets of indices `K a`:
`U c d i` says index `i` is untouched between `c` and `d`, `G c d i` that it
received its one update. -/
theorem foldl_once {α γ : Type} (U G : γ → γ → Int → Prop) (K : α → Int → Prop)
    (f : γ → α → γ) (l : List α)
    (hdis : l.Pairwise (fun a b => ∀ i, K a i → ¬ K b i))
    (hrefl : ∀ c i, U c c i)
    (htrans : ∀ c d e i, U c d i → U d e i → U c e i)
    (hUG : ∀ c d e i, U c d i → G d e i → G c e i)
    (hGU : ∀ c d e i, G c d i → U d e i → G c e i)
    (hstep : ∀ c, ∀ a ∈ l, (∀ i, ¬ K a i → U c (f c a) i) ∧ (∀ i, K a i → G c (f c a) i)) :
    ∀ c, (∀ i, (∀ a ∈ l, ¬ K a i) → U c (l.foldl f c) i)
      ∧ (∀ i, (∃ a ∈ l, K a i) → G c (l.foldl f c) i) := by
  induction l with
  | nil =>
    intro c
    refine ⟨fun i _ => hrefl c i, fun i hi => ?_⟩
    obtain ⟨a, ha, _⟩ := hi
    simp at ha
  | cons a l ih =>
    intro c
    obtain ⟨hd1, hd2⟩ := List.pairwise_cons.1 hdis
    obtain ⟨s1, s2⟩ := hstep c a (List.mem_cons_self a l)
    obtain ⟨i1, i2⟩ := ih hd2 (fun c b hb => hstep c b (List.mem_cons_of_mem a hb)) (f c a)
    constructor
    · intro i hi
      exact htrans _ _ _ _ (s1 i (hi a (List.mem_cons_self a l)))
        (i1 i (fun b hb => hi b (List.mem_cons_of_mem a hb)))
    · intro i hi
      obtain ⟨b, hb, hk⟩ := hi
      rcases List.mem_cons.1 hb with rfl | hb
      · exact hGU _ _ _ _ (s2 i hk) (i1 i (fun b' hb' => hd1 b' hb' i hk))
      · exact hUG _ _ _ _ (s1 i (fun ha => hd1 b hb i ha hk)) (i2 i ⟨b, hb, hk⟩)

theorem upto_pairwise (lo hi : Int) : (upto lo hi).Pairwise (fun a b => a ≠ b) := by
  unfold upto
  have h : (List.range (hi - lo).toNat).Nodup := List.nodup_range _
  exact (List.Nodup.map (fun a b hab => by simpa using hab) h)

/-- The rule loop updates the trace of every cell exactly once, with the age it
commits for that cell, and touches no other index. -/
theorem commit_trace (s : Field) (sum : Int → Int) (c0 : Commit) :
    (∀ i, (∀ x ∈ upto 0 s.FX, ∀ y ∈ upto 0 s.FY, i ≠ y * s.FX + x) →
        Untouched c0 (commit s sum c0) i)
    ∧ ∀ x y, 0 ≤ x → x < s.FX → 0 ≤ y → y < s.FY →
        Decayed c0 (commit s sum c0) (y * s.FX + x) := by
  have hrefl : ∀ (c : Commit) i, Untouched c c i := fun _ _ => ⟨rfl, rfl⟩
  have htrans : ∀ (c d e : Commit) i, Untouched c d i → Untouched d e i → Untouched c e i :=
    fun _ _ _ _ h1 h2 => ⟨h2.1.trans h1.1, h2.2.trans h1.2⟩
  have hUG : ∀ (c d e : Commit) i, Untouched c d i → Decayed d e i → Decayed c e i := by
    intro c d e i h1 h2
    unfold Decayed at h2 ⊢
    rw [h2, h1.1]
  have hGU : ∀ (c d e : Commit) i, Decayed c d i → Untouched d e i → Decayed c e i := by
    intro c d e i h1 h2
    unfold Decayed at h1 ⊢
    rw [h2.1, h2.2, h1]
  have inner : ∀ x ∈ upto 0 s.FX, ∀ c : Commit,
      (∀ i, (∀ y ∈ upto 0 s.FY, ¬ i = y * s.FX + x) →
          Untouched c ((upto 0 s.FY).foldl (fun c y => commit_cell s sum x y c) c) i)
      ∧ (∀ i, (∃ y ∈ upto 0 s.FY, i = y * s.FX + x) →
          Decayed c ((upto 0 s.FY).foldl (fun c y => commit_cell s sum x y c) c) i) := by
    intro x hx
    obtain ⟨hx0, hx1⟩ := (mem_upto _ _ _).1 hx
    refine foldl_once Untouched Decayed (fun y i => i = y * s.FX + x)
      (fun c y => commit_cell s sum x y c) (upto 0 s.FY) ?_ hrefl htrans hUG hGU ?_
    · refine (upto_pairwise 0 s.FY).imp ?_
      intro a b hab i h1 h2
      rw [h1] at h2
      exact hab (index_inj s.FX x a x b hx0 hx1 hx0 hx1 h2).2
    · intro c y _
      constructor
      · intro i hi
        simp [Untouched, commit_cell, Function.update, hi]
      · intro i hi
        subst hi
        simp [Decayed, commit_cell]
  have outer := foldl_once Untouched Decayed
    (fun x i => ∃ y ∈ upto 0 s.FY, i = y * s.FX + x)
    (fun c x => (upto 0 s.FY).foldl (fun c y => commit_cell s sum x y c) c)
    (upto 0 s.FX)
    ((upto_pairwise 0 s.FX).imp_of_mem (by
      intro a b ha hb hab i h1 h2
      obtain ⟨y, _, e1⟩ := h1
      obtain ⟨y', _, e2⟩ := h2
      obtain ⟨a0, a1⟩ := (mem_upto _ _ _).1 ha
      obtain ⟨b0, b1⟩ := (mem_upto _ _ _).1 hb
      rw [e1] at e2
      exact hab (index_inj s.FX a y b y' a0 a1 b0 b1 e2).1))
    hrefl htrans hUG hGU
    (fun c x hx => ⟨fun i hi => (inner x hx c).1 i (fun y hy h => hi ⟨y, hy, h⟩),
      (inner x hx c).2⟩) c0
  constructor
  · intro i hi
    refine outer.1 i ?_
    rintro x hx ⟨y, hy, h⟩
    exact hi x hx y hy h
  · intro x y hx0 hx hy0 hy
    exact outer.2 _ ⟨x, (mem_upto _ _ _).2 ⟨hx0, hx⟩, y, (mem_upto _ _ _).2 ⟨hy0, hy⟩, rfl⟩

/-- The trace after a step that returns, cell by cell. -/
theorem field_step_trace (fuel : Nat) (s t : Field) (h : field_step fuel s = some t) :
    t.FX = s.FX ∧ t.FY = s.FY ∧ ∀ x y, 0 ≤ x → x < s.FX → 0 ≤ y → y < s.FY →
      t.trace (y * s.FX + x)
        = s.trace (y * s.FX + x) * (99 / 100)
          + (1 / 100) * (if t.cur (y * s.FX + x) > 0 then 1 else 0) := by
  obtain ⟨r, _, rfl⟩ := field_step_some fuel s t h
  refine ⟨rfl, rfl, ?_⟩
  intro x y hx0 hx hy0 hy
  have := (commit_trace s r
    { state_n := s.buf s.next, trace := s.trace, used := s.used }).2 x y hx0 hx hy0 hy
  unfold Decayed at this
  rw [step_result_cur]
  exact this

theorem steps_succ (fuel n : Nat) (s : Field) :
    steps fuel (n + 1) s = (field_step fuel s).bind (steps fuel n) := rfl

/-- The trace of a cell over `N` steps during which it stays alive, or stays dead. -/
theorem trace_run (fuel : Nat) (N : Nat) :
    ∀ (s t : Field) (x y : Int), steps fuel N s = some t →
      0 ≤ x → x < s.FX → 0 ≤ y → y < s.FY →
      ((∀ k u, 1 ≤ k → k ≤ N → steps fuel k s = some u → 0 < u.cur (y * s.FX + x)) →
          t.trace (y * s.FX + x) = 1 - (1 - s.trace (y * s.FX + x)) * (99 / 100) ^ N)
      ∧ ((∀ k u, 1 ≤ k → k ≤ N → steps fuel k s = some u → u.cur (y * s.FX + x) ≤ 0) →
          t.trace (y * s.FX + x) = s.trace (y * s.FX + x) * (99 / 100) ^ N) := by
  induction N with
  | zero =>
    intro s t x y ht _ _ _ _
    simp only [steps] at ht
    rw [← Option.some.inj ht]
    constructor <;> intro _ <;> ring
  | succ N ih =>
    intro s t x y ht hx0 hx hy0 hy
    rw [steps_succ] at ht
    cases h1 : field_step fuel s with
    | none => rw [h1] at ht; simp at ht
    | some m =>
      rw [h1] at ht
      have ht' : steps fuel N m = some t := ht
      obtain ⟨d1, d2, htr⟩ := field_step_trace fuel s m h1
      have hm1 : steps fuel 1 s = some m := by rw [steps_succ, h1]; rfl
      have lift : ∀ k u, steps fuel k m = some u → steps fuel (k + 1) s = some u := by
        intro k u hk
        rw [steps_succ, h1]; exact hk
      obtain ⟨ia, id⟩ := ih m t x y ht' hx0 (by omega) hy0 (by omega)
      rw [d1] at ia id
      constructor
      · intro hal
        have hm : 0 < m.cur (y * s.FX + x) := hal 1 m (le_refl 1) (by omega) hm1
        rw [ia (fun k u k1 k2 hk => hal (k + 1) u (by omega) (by omega) (lift k u hk)),
          htr x y hx0 hx hy0 hy, if_pos hm]
        ring
      · intro hde
        have hm : ¬ m.cur (y * s.FX + x) > 0 := by
          have := hde 1 m (le_refl 1) (by omega) hm1
          omega
        rw [id (fun k u k1 k2 hk => hde (k + 1) u (by omega) (by omega) (lift k u hk)),
          htr x y hx0 hx hy0 hy, if_neg hm]
        ring

/-- Claim C12 (trace update and decay, exact arithmetic): on a grid at least
2 x 2 every `field_step` returns with
`trace' = 0.99*trace + 0.01*(1 if the committed age > 0 else 0)` in every cell;
so over `N` successive steps a cell alive after each of them ends with trace
`1 - (1 - t0)*0.99^N` (that is `1 - 0.99^N` when `t0 = 0`), and a cell dead after
each of them ends with trace `t0*0.99^N`. -/
theorem trace_update_and_decay (s : Field) (fuel : Nat) (x y : Int) (hFX : 2 ≤ s.FX)
    (hFY : 2 ≤ s.FY) (hf : 3 ≤ fuel) (hx0 : 0 ≤ x) (hx : x < s.FX) (hy0 : 0 ≤ y)
    (hy : y < s.FY) :
    (∃ t, field_step fuel s = some t
      ∧ ∀ u v, 0 ≤ u → u < s.FX → 0 ≤ v → v < s.FY →
          t.trace (v * s.FX + u)
            = 99 / 100 * s.trace (v * s.FX + u)
              + 1 / 100 * (if t.cur (v * s.FX + u) > 0 then 1 else 0))
    ∧ ∀ N : Nat, ∃ t, steps fuel N s = some t
        ∧ ((∀ k u, 1 ≤ k → k ≤ N → steps fuel k s = some u → 0 < u.cur (y * s.FX + x)) →
            t.trace (y * s.FX + x) = 1 - (1 - s.trace (y * s.FX + x)) * (99 / 100) ^ N
            ∧ (s.trace (y * s.FX + x) = 0 →
                t.trace (y * s.FX + x) = 1 - (99 / 100) ^ N))
        ∧ ((∀ k u, 1 ≤ k → k ≤ N → steps fuel k s = some u → u.cur (y * s.FX + x) ≤ 0) →
            t.trace (y * s.FX + x) = s.trace (y * s.FX + x) * (99 / 100) ^ N) := by
  constructor
  · obtain ⟨t, ht⟩ := field_step_total s fuel hFX hFY hf
    obtain ⟨_, _, htr⟩ := field_step_trace fuel s t ht
    refine ⟨t, ht, fun u v hu0 hu hv0 hv => ?_⟩
    rw [htr u v hu0 hu hv0 hv]
    ring
  · intro N
    obtain ⟨t, ht, _⟩ := steps_total fuel hf N s hFX hFY
    obtain ⟨ia, id⟩ := trace_run fuel N s t x y ht hx0 hx hy0 hy
    refine ⟨t, ht, fun hal => ⟨ia hal, fun h0 => ?_⟩, id⟩
    rw [ia hal, h0]
    ring

/-! ## Trace range -/

theorem init_loop_snd (l : List Int) (p : (Int → Int) × (Int → ℚ)) :
    (l.foldl (fun (p : (Int → Int) × (Int → ℚ)) xx =>
        (Function.update p.1 xx 0, Function.update p.2 xx 0)) p).2
      = l.foldl (fun b xx => Function.update b xx 0) p.2 := by
  induction l generalizing p with
  | nil => rfl
  | cons a l ih => simp only [List.foldl]; rw [ih]

/-- After `field_init` the trace of every cell is 0. -/
theorem field_init_trace (g : Field) (x y i : Int) (h0 : 0 ≤ i) (h : i < x * y) :
    (field_init g x y).trace i = 0 := by
  have key := (foldl_writes (fun (_ : Int) (v : ℚ) => v = 0) (fun a i => i = a)
    (fun b xx => Function.update b xx 0) (upto 0 (x * y))
    (fun b a _ => ⟨writes_update b rfl, fun i hi => by subst hi; simp⟩) g.trace).2
  have := key i ((mem_upto _ _ _).2 ⟨h0, h⟩) i rfl
  simp only [field_init, init_loop_snd]
  exact this

theorem field_rand_trace (s : Field) : (field_rand s).trace = s.trace := by
  unfold field_rand Field.setCur
  cases h : s.state <;> simp

/-- A step that returns keeps every trace in `[0, 1)`, on a grid of positive
width. -/
theorem trace_step_range (fuel : Nat) (s t : Field) (h : field_step fuel s = some t)
    (hFX : 0 < s.FX) (hb : TraceInRange s) : TraceInRange t := by
  obtain ⟨d1, d2, htr⟩ := field_step_trace fuel s t h
  intro i hi
  rw [d1, d2] at hi
  obtain ⟨h0, h1⟩ := (mem_upto _ _ _).1 hi
  obtain ⟨a1, a2, a3, a4, a5⟩ := cell_of_index s.FX s.FY i h0 h1 hFX
  have e := htr _ _ a1 a2 a3 a4
  rw [← a5] at e
  obtain ⟨b0, b1⟩ := hb i hi
  rw [e]
  split_ifs
  · constructor <;> linarith
  · constructor <;> linarith

theorem reachable_trace (s : Field) (h : Reachable s) : TraceInRange s := by
  induction h with
  | seed g x y _ _ =>
    intro i hi
    obtain ⟨d1, d2⟩ := field_rand_dims (field_init g x y)
    rw [d1, d2] at hi
    obtain ⟨h0, h1⟩ := (mem_upto _ _ _).1 hi
    rw [field_rand_trace, field_init_trace g x y i h0 h1]
    norm_num
  | step fuel s t hs hst ih =>
    exact trace_step_range fuel s t hst (by have := (reachable_dims s hs).1; omega) ih
  | rules s v _ ih => exact ih

/-- Claim C16 (trace range, exact arithmetic): after `field_init` the trace of
every cell is 0; on a grid at least 2 x 2, in either rule mode, `field_step`
returns and keeps every cell's trace in `[0, 1)` if it was so before; hence every
cell's trace is in `[0, 1)` in every reachable state. -/
theorem trace_range :
    (∀ (g : Field) (x y : Int), ∀ i ∈ upto 0 (x * y), (field_init g x y).trace i = 0)
    ∧ (∀ (s : Field) (fuel : Nat), 2 ≤ s.FX → 2 ≤ s.FY → 3 ≤ fuel → TraceInRange s →
        ∃ t, field_step fuel s = some t ∧ TraceInRange t)
    ∧ (∀ s, Reachable s → TraceInRange s) := by
  refine ⟨?_, ?_, reachable_trace⟩
  · intro g x y i hi
    obtain ⟨h0, h1⟩ := (mem_upto _ _ _).1 hi
    exact field_init_trace g x y i h0 h1
  · intro s fuel hFX hFY hf hb
    obtain ⟨t, ht⟩ := field_step_total s fuel hFX hFY hf
    exact ⟨t, ht, trace_step_range fuel s t ht (by omega) hb⟩

/-! ## The seed region -/

/-- A loop over `e st, e (st+1), ...` whose iteration number `j` makes `m` calls
of `rand()`, stores at the indices `Touch j` values described by `Val j` from the
call count at its start, and stores nowhere else; the sets `Touch j` are pairwise
disjoint. -/
theorem foldl_count {α : Type} (m N : Nat) (Touch : Nat → Int → Prop)
    (Val : Nat → Nat → Int → Int → Prop) (e : Nat → α)
    (f : (Int → Int) × Nat → α → (Int → Int) × Nat)
    (hdis : ∀ j j', j ≠ j' → ∀ i, Touch j i → ¬ Touch j' i)
    (hstep : ∀ c j, j < N →
      (f c (e j)).2 = c.2 + m ∧ (∀ i, ¬ Touch j i → (f c (e j)).1 i = c.1 i)
        ∧ ∀ i, Touch j i → Val j c.2 i ((f c (e j)).1 i)) :
    ∀ n st c, st + n ≤ N →
      (((List.range' st n).map e).foldl f c).2 = c.2 + m * n
      ∧ (∀ i, (∀ j, st ≤ j → j < st + n → ¬ Touch j i) →
          (((List.range' st n).map e).foldl f c).1 i = c.1 i)
      ∧ ∀ j, st ≤ j → j < st + n → ∀ i, Touch j i →
          Val j (c.2 + m * (j - st)) i ((((List.range' st n).map e).foldl f c).1 i) := by
  intro n
  induction n with
  | zero =>
    intro st c _
    refine ⟨by simp, fun i _ => by simp, fun j h1 h2 => by omega⟩
  | succ n ih =>
    intro st c hN
    obtain ⟨s1, s2, s3⟩ := hstep c st (by omega)
    obtain ⟨i1, i2, i3⟩ := ih (st + 1) (f c (e st)) (by omega)
    rw [List.range'_succ, List.map_cons, List.foldl_cons]
    refine ⟨?_, ?_, ?_⟩
    · rw [i1, s1]; ring
    · intro i hi
      rw [i2 i (fun j h1 h2 => hi j (by omega) (by omega)), s2 i (hi st (le_refl _) (by omega))]
    · intro j h1 h2 i ht
      by_cases hj : j = st
      · subst hj
        rw [i2 i (fun j' h1' _ => hdis j j' (by omega) i ht)]
        have := s3 i ht
        simpa using this
      · have := i3 j (by omega) (by omega) i ht
        rw [s1] at this
        have e1 : c.2 + m + m * (j - (st + 1)) = c.2 + m * (j - st) := by
          obtain ⟨k, rfl⟩ : ∃ k, j = st + 1 + k := ⟨j - (st + 1), by omega⟩
          rw [show st + 1 + k - (st + 1) = k by omega, show st + 1 + k - st = k + 1 by omega]
          ring
        rw [e1] at this
        exact this

theorem upto_eq_range' (lo : Int) (n : Nat) :
    upto lo (lo + n) = (List.range' 0 n).map (fun (k : Nat) => lo + (k : Int)) := by
  unfold upto
  rw [show (lo + (n : Int) - lo).toNat = n by omega, List.range_eq_range']

/-- The double loop of `field_rand` over the square `xlo <= x < xlo + nx`,
`ylo <= y < ylo + ny`, inside a row of width `FX`: the cell `(xlo+j, ylo+k)`
receives the draw number `u + ny*j + k`, `nx*ny` draws are made, and no other
index is stored to. -/
theorem seed_loop (FX xlo ylo : Int) (nx ny : Nat) (draws : Nat → Nat)
    (hx0 : 0 ≤ xlo) (hx1 : xlo + nx ≤ FX) (c : (Int → Int) × Nat) :
    (((upto xlo (xlo + nx)).foldl
        (fun (acc : (Int → Int) × Nat) x =>
          (upto ylo (ylo + ny)).foldl
            (fun (acc : (Int → Int) × Nat) y =>
              (Function.update acc.1 (y * FX + x) (if draws acc.2 % 3 = 1 then 1 else 0),
                acc.2 + 1))
            acc) c).2 = c.2 + ny * nx)
    ∧ (∀ i, (∀ j k : Nat, j < nx → k < ny → i ≠ (ylo + k) * FX + (xlo + j)) →
        ((upto xlo (xlo + nx)).foldl
          (fun (acc : (Int → Int) × Nat) x =>
            (upto ylo (ylo + ny)).foldl
              (fun (acc : (Int → Int) × Nat) y =>
                (Function.update acc.1 (y * FX + x) (if draws acc.2 % 3 = 1 then 1 else 0),
                  acc.2 + 1))
              acc) c).1 i = c.1 i)
    ∧ ∀ j k : Nat, j < nx → k < ny →
        ((upto xlo (xlo + nx)).foldl
          (fun (acc : (Int → Int) × Nat) x =>
            (upto ylo (ylo + ny)).foldl
              (fun (acc : (Int → Int) × Nat) y =>
                (Function.update acc.1 (y * FX + x) (if draws acc.2 % 3 = 1 then 1 else 0),
                  acc.2 + 1))
              acc) c).1 ((ylo + k) * FX + (xlo + j))
          = if draws (c.2 + ny * j + k) % 3 = 1 then 1 else 0 := by
  have inner : ∀ (j : Nat), j < nx → ∀ c : (Int → Int) × Nat,
      let d := (upto ylo (ylo + ny)).foldl
        (fun (acc : (Int → Int) × Nat) y =>
          (Function.update acc.1 (y * FX + (xlo + j))
            (if draws acc.2 % 3 = 1 then 1 else 0), acc.2 + 1)) c
      d.2 = c.2 + ny
      ∧ (∀ i, (∀ k : Nat, k < ny → i ≠ (ylo + k) * FX + (xlo + j)) → d.1 i = c.1 i)
      ∧ ∀ k : Nat, k < ny →
          d.1 ((ylo + k) * FX + (xlo + j)) = if draws (c.2 + k) % 3 = 1 then 1 else 0 := by
    intro j hj c
    have key := foldl_count 1 ny (fun k i => i = (ylo + k) * FX + (xlo + j))
      (fun _ u _ v => v = if draws u % 3 = 1 then 1 else 0)
      (fun (k : Nat) => ylo + (k : Int))
      (fun (acc : (Int → Int) × Nat) y =>
        (Function.update acc.1 (y * FX + (xlo + j))
          (if draws acc.2 % 3 = 1 then 1 else 0), acc.2 + 1))
      (by
        intro k k' hk i h1 h2
        rw [h1] at h2
        have := (index_inj FX (xlo + j) (ylo + k) (xlo + j) (ylo + k') (by omega) (by omega)
          (by omega) (by omega) h2).2
        omega)
      (by
        intro c k _
        refine ⟨rfl, fun i hi => by simp [Function.update, hi], fun i hi => ?_⟩
        subst hi; simp)
      ny 0 c (by omega)
    rw [← upto_eq_range'] at key
    obtain ⟨k1, k2, k3⟩ := key
    refine ⟨by rw [k1]; ring, fun i hi => k2 i (fun k _ hk => hi k (by omega)), ?_⟩
    intro k hk
    have := k3 k (Nat.zero_le _) (by omega) _ rfl
    simpa using this
  have key := foldl_count ny nx
    (fun j i => j < nx ∧ ∃ k : Nat, k < ny ∧ i = (ylo + k) * FX + (xlo + j))
    (fun j u i v => ∀ k : Nat, k < ny → i = (ylo + k) * FX + (xlo + j) →
      v = if draws (u + k) % 3 = 1 then 1 else 0)
    (fun (j : Nat) => xlo + (j : Int))
    (fun (acc : (Int → Int) × Nat) x =>
      (upto ylo (ylo + ny)).foldl
        (fun (acc : (Int → Int) × Nat) y =>
          (Function.update acc.1 (y * FX + x) (if draws acc.2 % 3 = 1 then 1 else 0),
            acc.2 + 1))
        acc)
    (by
      rintro j j' hj i ⟨a1, k, _, e1⟩ ⟨a2, k', _, e2⟩
      rw [e1] at e2
      have := (index_inj FX (xlo + j) (ylo + k) (xlo + j') (ylo + k') (by omega) (by omega)
        (by omega) (by omega) e2).1
      omega)
    (by
      intro c j hj
      obtain ⟨a1, a2, a3⟩ := inner j hj c
      refine ⟨a1, fun i hi => a2 i (fun k hk h => hi ⟨hj, k, hk, h⟩), ?_⟩
      rintro i ⟨_, k0, hk0, rfl⟩ k hk hik
      rw [hik]
      exact a3 k hk)
    nx 0 c (by omega)
  rw [← upto_eq_range'] at key
  obtain ⟨k1, k2, k3⟩ := key
  refine ⟨k1, ?_, ?_⟩
  · intro i hi
    refine k2 i ?_
    rintro j _ hj ⟨_, k, hk, h⟩
    exact hi j k (by omega) hk h
  · intro j k hj hk
    have := k3 j (Nat.zero_le _) (by omega) _ ⟨hj, k, hk, rfl⟩ k hk rfl
    simpa using this

theorem field_rand_fold (s : Field) :
    (field_rand s).cur
        = ((upto (s.FX.tdiv 2 - 20) (s.FX.tdiv 2 + 20)).foldl
            (fun (acc : (Int → Int) × Nat) x =>
              (upto (s.FY.tdiv 2 - 20) (s.FY.tdiv 2 + 20)).foldl
                (fun (acc : (Int → Int) × Nat) y =>
                  (Function.update acc.1 (y * s.FX + x)
                    (if s.draws acc.2 % 3 = 1 then 1 else 0), acc.2 + 1)) acc)
            (s.cur, s.used)).1
    ∧ (field_rand s).used
        = ((upto (s.FX.tdiv 2 - 20) (s.FX.tdiv 2 + 20)).foldl
            (fun (acc : (Int → Int) × Nat) x =>
              (upto (s.FY.tdiv 2 - 20) (s.FY.tdiv 2 + 20)).foldl
                (fun (acc : (Int → Int) × Nat) y =>
                  (Function.update acc.1 (y * s.FX + x)
                    (if s.draws acc.2 % 3 = 1 then 1 else 0), acc.2 + 1)) acc)
            (s.cur, s.used)).2 := by
  unfold field_rand
  dsimp only
  cases h : s.state <;> simp [Field.setCur, Field.cur, Field.buf, h]

theorem field_rand_frame (s : Field) :
    (field_rand s).buf s.next = s.buf s.next ∧ (field_rand s).state = s.state
      ∧ (field_rand s).state_sum = s.state_sum ∧ (field_rand s).state_tmp = s.state_tmp
      ∧ (field_rand s).rand_rules = s.rand_rules ∧ (field_rand s).draws = s.draws := by
  unfold field_rand Field.setCur Field.next
  cases h : s.state <;> simp [Field.buf]

/-- Claim C14 (seed region): on a grid with `FX >= 40` and `FY >= 40`, for every
stream of draws, `field_rand` gives each cell `(x, y)` of the square
`FX/2-20 <= x < FX/2+20`, `FY/2-20 <= y < FY/2+20` the value 1 if the draw made for
that cell (draw number `40*(x - (FX/2-20)) + (y - (FY/2-20))` of the call) is 1
modulo 3 and 0 otherwise; the cells of the square are cells of the grid, no index
outside `0 .. FX*FY-1` is stored to, and every cell outside the square, like every
other buffer, is left unchanged; 1600 draws are made. -/
theorem seed_region (s : Field) (hFX : 40 ≤ s.FX) (hFY : 40 ≤ s.FY) :
    (∀ x y, s.FX / 2 - 20 ≤ x → x < s.FX / 2 + 20 → s.FY / 2 - 20 ≤ y →
        y < s.FY / 2 + 20 →
        (0 ≤ x ∧ x < s.FX ∧ 0 ≤ y ∧ y < s.FY)
        ∧ (0 ≤ y * s.FX + x ∧ y * s.FX + x < s.FX * s.FY)
        ∧ (field_rand s).cur (y * s.FX + x)
            = if s.draws (s.used
                  + (40 * (x - (s.FX / 2 - 20)) + (y - (s.FY / 2 - 20))).toNat) % 3 = 1
              then 1 else 0)
    ∧ (∀ x y, 0 ≤ x → x < s.FX → 0 ≤ y → y < s.FY →
        ¬ (s.FX / 2 - 20 ≤ x ∧ x < s.FX / 2 + 20 ∧ s.FY / 2 - 20 ≤ y ∧ y < s.FY / 2 + 20) →
        (field_rand s).cur (y * s.FX + x) = s.cur (y * s.FX + x))
    ∧ (∀ i, (i < 0 ∨ s.FX * s.FY ≤ i) → (field_rand s).cur i = s.cur i)
    ∧ (field_rand s).used = s.used + 1600
    ∧ (field_rand s).FX = s.FX ∧ (field_rand s).FY = s.FY
    ∧ (field_rand s).buf s.next = s.buf s.next ∧ (field_rand s).trace = s.trace
    ∧ (field_rand s).state_sum = s.state_sum ∧ (field_rand s).state_tmp = s.state_tmp := by
  have tx : s.FX.tdiv 2 = s.FX / 2 := Int.tdiv_eq_ediv (by omega) (by omega)
  have ty : s.FY.tdiv 2 = s.FY / 2 := Int.tdiv_eq_ediv (by omega) (by omega)
  obtain ⟨ecur, eused⟩ := field_rand_fold s
  rw [tx, ty] at ecur eused
  have hxhi : s.FX / 2 + 20 = (s.FX / 2 - 20) + ((40 : Nat) : Int) := by push_cast; ring
  have hyhi : s.FY / 2 + 20 = (s.FY / 2 - 20) + ((40 : Nat) : Int) := by push_cast; ring
  rw [hxhi, hyhi] at ecur eused
  obtain ⟨k1, k2, k3⟩ := seed_loop s.FX (s.FX / 2 - 20) (s.FY / 2 - 20) 40 40 s.draws
    (by omega) (by push_cast; omega) (s.cur, s.used)
  rw [← ecur] at k2 k3
  rw [← eused] at k1
  have insq : ∀ x y, s.FX / 2 - 20 ≤ x → x < s.FX / 2 + 20 → s.FY / 2 - 20 ≤ y →
      y < s.FY / 2 + 20 → 0 ≤ x ∧ x < s.FX ∧ 0 ≤ y ∧ y < s.FY := by
    intro x y a1 a2 b1 b2
    omega
  have outside : ∀ i, (∀ x y, s.FX / 2 - 20 ≤ x → x < s.FX / 2 + 20 → s.FY / 2 - 20 ≤ y →
      y < s.FY / 2 + 20 → i ≠ y * s.FX + x) → (field_rand s).cur i = s.cur i := by
    intro i hi
    refine k2 i ?_
    intro j k hj hk
    exact hi _ _ (by omega) (by omega) (by omega) (by omega)
  obtain ⟨d1, d2⟩ := field_rand_dims s
  obtain ⟨f1, _, f3, f4, _, _⟩ := field_rand_frame s
  refine ⟨?_, ?_, ?_, by rw [k1], d1, d2, f1, field_rand_trace s, f3, f4⟩
  · intro x y a1 a2 b1 b2
    obtain ⟨c1, c2, c3, c4⟩ := insq x y a1 a2 b1 b2
    refine ⟨⟨c1, c2, c3, c4⟩, index_lt s.FX s.FY x y c1 c2 c3 c4, ?_⟩
    have := k3 (x - (s.FX / 2 - 20)).toNat (y - (s.FY / 2 - 20)).toNat (by omega) (by omega)
    rw [show s.FY / 2 - 20 + ((y - (s.FY / 2 - 20)).toNat : Int) = y by omega,
      show s.FX / 2 - 20 + ((x - (s.FX / 2 - 20)).toNat : Int) = x by omega] at this
    rw [this]
    have e : s.used + 40 * (x - (s.FX / 2 - 20)).toNat + (y - (s.FY / 2 - 20)).toNat
        = s.used + (40 * (x - (s.FX / 2 - 20)) + (y - (s.FY / 2 - 20))).toNat := by
      omega
    show (if s.draws ((s.cur, s.used).2 + 40 * (x - (s.FX / 2 - 20)).toNat
        + (y - (s.FY / 2 - 20)).toNat) % 3 = 1 then (1 : Int) else 0) = _
    rw [show (s.cur, s.used).2 = s.used from rfl, e]
  · intro x y hx0 hx hy0 hy hns
    refine outside _ ?_
    intro x' y' a1 a2 b1 b2 he
    obtain ⟨c1, c2, _, _⟩ := insq x' y' a1 a2 b1 b2
    obtain ⟨e1, e2⟩ := index_inj s.FX x y x' y' hx0 hx c1 c2 he
    apply hns
    rw [e1, e2]
    exact ⟨a1, a2, b1, b2⟩
  · intro i hi
    refine outside _ ?_
    intro x y a1 a2 b1 b2 he
    obtain ⟨c1, c2, c3, c4⟩ := insq x y a1 a2 b1 b2
    obtain ⟨g1, g2⟩ := index_lt s.FX s.FY x y c1 c2 c3 c4
    rw [he] at hi
    omega

/-! ## `field_init` makes no check of its arguments -/

/-- When the size `x*y` is a non-negative `int`, the call returns and leaves the
state `field_init g x y`. -/
theorem field_init_call_returns (g : Field) (x y : Int) (h0 : 0 ≤ x * y)
    (h1 : x * y ≤ 2147483647) :
    field_init_call g x y = Outcome.returned (field_init g x y) := by
  unfold field_init_call field_init
  dsimp only
  rw [wrap32_id _ (by omega) h1, if_neg (by omega)]

/-- When the size `x*y` is a negative `int`, the allocation throws: `FX` and `FY`
have been stored and nothing else has changed. -/
theorem field_init_call_throws (g : Field) (x y : Int) (h0 : x * y < 0)
    (h1 : -2147483648 ≤ x * y) :
    field_init_call g x y = Outcome.thrown { g with FX := x, FY := y } := by
  unfold field_init_call
  dsimp only
  rw [wrap32_id _ h1 (by omega), if_pos h0]

/-- Claim C15 as stated fails: `field_init(0, 5)` and `field_init(-2, -3)` are not
rejected; they return with `FX` and `FY` set to the arguments, and the second call
has cleared the six cells `0 .. 5` of `state1` (cell 0 held 1 before).  Even
`field_init(-1, 5)`, which ends in the exception of the allocation, has stored
`FX = -1` and `FY = 5` first. -/
theorem field_init_accepts_nonpositive :
    field_init_call start 0 5 = Outcome.returned (field_init start 0 5)
    ∧ (field_init start 0 5).FX = 0 ∧ (field_init start 0 5).FY = 5
    ∧ field_init_call corner4 (-2) (-3) = Outcome.returned (field_init corner4 (-2) (-3))
    ∧ (field_init corner4 (-2) (-3)).FX = -2 ∧ (field_init corner4 (-2) (-3)).FY = -3
    ∧ corner4.cur 0 = 1 ∧ (field_init corner4 (-2) (-3)).cur 0 = 0
    ∧ field_init_call start (-1) 5 = Outcome.thrown { start with FX := -1, FY := 5 } := by
  refine ⟨field_init_call_returns _ _ _ (by decide) (by decide), rfl, rfl,
    field_init_call_returns _ _ _ (by decide) (by decide), rfl, rfl, rfl, ?_,
    field_init_call_throws _ _ _ (by decide) (by decide)⟩
  exact field_init_cur corner4 (-2) (-3) 0 (by decide) (by decide)

/-- Claim C15, amended: `field_init` makes no check of its arguments and has no
invalid-argument path.  Called with a non-positive width or a non-positive height
(the size `x*y` fitting an `int`), either one of them is 0 or both are negative,
and the call returns with `FX = x`, `FY = y`, `state1` the current buffer, `state1`
and `trace` cleared at the indices `0 .. x*y-1` and no other buffer touched; or
one is negative and the other positive, and the call ends in the exception of the
allocation of negative size, with `FX = x` and `FY = y` stored and nothing else
changed. -/
theorem field_init_unchecked (g : Field) (x y : Int) (hbad : x ≤ 0 ∨ y ≤ 0)
    (hsize : -2147483648 ≤ x * y ∧ x * y ≤ 2147483647) :
    ((x = 0 ∨ y = 0 ∨ (x < 0 ∧ y < 0))
        ∧ field_init_call g x y = Outcome.returned (field_init g x y)
      ∨ ((x < 0 ∧ 0 < y) ∨ (0 < x ∧ y < 0))
        ∧ field_init_call g x y = Outcome.thrown { g with FX := x, FY := y })
    ∧ (field_init g x y).FX = x ∧ (field_init g x y).FY = y
    ∧ (field_init g x y).state = Buf.b1
    ∧ (∀ i, 0 ≤ i → i < x * y →
        (field_init g x y).cur i = 0 ∧ (field_init g x y).trace i = 0)
    ∧ (field_init g x y).state2 = g.state2
    ∧ (field_init g x y).state_sum = g.state_sum
    ∧ (field_init g x y).state_tmp = g.state_tmp
    ∧ (field_init g x y).rand_rules = g.rand_rules
    ∧ (field_init g x y).used = g.used := by
  refine ⟨?_, rfl, rfl, rfl,
    fun i h0 h => ⟨field_init_cur g x y i h0 h, field_init_trace g x y i h0 h⟩,
    rfl, rfl, rfl, rfl, rfl⟩
  by_cases hx : x = 0
  · left
    exact ⟨Or.inl hx, field_init_call_returns g x y (by rw [hx]; simp) hsize.2⟩
  by_cases hy : y = 0
  · left
    exact ⟨Or.inr (Or.inl hy), field_init_call_returns g x y (by rw [hy]; simp) hsize.2⟩
  by_cases hneg : x < 0 ∧ y < 0
  · left
    exact ⟨Or.inr (Or.inr hneg),
      field_init_call_returns g x y (le_of_lt (mul_pos_of_neg_of_neg hneg.1 hneg.2)) hsize.2⟩
  · right
    have hmix : (x < 0 ∧ 0 < y) ∨ (0 < x ∧ y < 0) := by omega
    refine ⟨hmix, field_init_call_throws g x y ?_ hsize.1⟩
    rcases hmix with h | h
    · exact mul_neg_of_neg_of_pos h.1 h.2
    · exact mul_neg_of_pos_of_neg h.1 h.2

/-! ## Floating point: the accesses of `draw_field` -/

/-- Pixels of `draw_field`: every access belongs to a pixel `(x, y)` inside the
clipped rectangle. -/
theorem mem_draw_field (fl dl : Rounding) (s : Field) (draw_trace w h : Int)
    (zm sx sy : ℚ) (a : Access) :
    a ∈ draw_field fl dl s draw_trace w h zm sx sy ↔
      ∃ x y, (0 ≤ x ∧ x < ctrunc (fl.rnd (fl.rnd (s.FX : ℚ) * zm)) ∧ x < w)
        ∧ (0 ≤ y ∧ y < ctrunc (fl.rnd (fl.rnd (s.FY : ℚ) * zm)) ∧ y < h)
        ∧ a ∈ draw_pixel fl s.FX s.FY w draw_trace (fl.rnd (dl.rnd (1 / zm)))
            (ctrunc (fl.rnd (sx * zm))) (ctrunc (fl.rnd (sy * zm))) x y := by
  unfold draw_field
  simp only [List.mem_flatMap, mem_upto]
  constructor
  · rintro ⟨x, ⟨hx0, hx⟩, y, ⟨hy0, hy⟩, ha⟩
    refine ⟨x, y, ⟨hx0, ?_, ?_⟩, ⟨hy0, ?_, ?_⟩, ha⟩
    · split_ifs at hx <;> omega
    · split_ifs at hx <;> omega
    · split_ifs at hy <;> omega
    · split_ifs at hy <;> omega
  · rintro ⟨x, y, ⟨hx0, hx1, hx2⟩, ⟨hy0, hy1, hy2⟩, ha⟩
    refine ⟨x, ⟨hx0, ?_⟩, y, ⟨hy0, ?_⟩, ha⟩
    · split_ifs <;> omega
    · split_ifs <;> omega

theorem ctrunc_int (n : Int) (h0 : -2147483648 ≤ n) (h1 : n ≤ 2147483647) :
    ctrunc (n : ℚ) = n := by
  unfold ctrunc
  dsimp only
  have e : (if (0 : ℚ) ≤ (n : ℚ) then ⌊(n : ℚ)⌋ else -⌊-(n : ℚ)⌋) = n := by
    split_ifs with h
    · exact Int.floor_intCast n
    · rw [← Int.cast_neg, Int.floor_intCast]; ring
  rw [e, if_pos ⟨h0, h1⟩]

/-- The conversion of a non-negative value below `2^31`: its integer part. -/
theorem ctrunc_eq (q : ℚ) (n : Int) (h0 : 0 ≤ n) (h1 : n ≤ 2147483647) (hn : (n : ℚ) ≤ q)
    (hq : q < (n : ℚ) + 1) : ctrunc q = n := by
  have hq0 : (0 : ℚ) ≤ q := le_trans (by exact_mod_cast h0) hn
  have hf : ⌊q⌋ = n := Int.floor_eq_iff.2 ⟨hn, hq⟩
  unfold ctrunc
  dsimp only
  rw [if_pos hq0, hf, if_pos ⟨by omega, h1⟩]

/-- In a buffer of at most `INT_MAX` bytes the `int` arithmetic on the index of a
pixel inside the buffer does not wrap: the stores of the pixel `(x, y)` go to
`(y*w + x)*4 + k`, `k = 0 .. 3`. -/
theorem draw_pixel_writes (fl : Rounding) (FX FY w h draw_trace : Int) (zm1 : ℚ)
    (DX DY x y i : Int) (hx0 : 0 ≤ x) (hx : x < w) (hy0 : 0 ≤ y) (hy : y < h)
    (hsize : w * h * 4 ≤ 2147483647)
    (hi : Access.writePix i ∈ draw_pixel fl FX FY w draw_trace zm1 DX DY x y) :
    ∃ k, 0 ≤ k ∧ k ≤ 3 ∧ i = (y * w + x) * 4 + k := by
  obtain ⟨b0, b1⟩ := index_lt w h x y hx0 hx hy0 hy
  have hyw : 0 ≤ y * w := mul_nonneg hy0 (by omega)
  have e0 : wrap32 (y * w) = y * w := wrap32_id _ (by omega) (by omega)
  have e1 : wrap32 (y * w + x) = y * w + x := wrap32_id _ (by omega) (by omega)
  have e2 : wrap32 ((y * w + x) * 4) = (y * w + x) * 4 := wrap32_id _ (by omega) (by omega)
  have e3 : ∀ k : Int, 0 ≤ k → k ≤ 3 →
      wrap32 ((y * w + x) * 4 + k) = (y * w + x) * 4 + k :=
    fun k h0 h3 => wrap32_id _ (by omega) (by omega)
  unfold draw_pixel at hi
  dsimp only at hi
  rw [e0, e1, e2, e3 2 (by norm_num) (by norm_num), e3 1 (by norm_num) (by norm_num),
    e3 0 (by norm_num) (by norm_num), e3 3 (by norm_num) (by norm_num)] at hi
  split_ifs at hi
  all_goals simp at hi
  all_goals rcases hi with hi | hi | hi | hi
  all_goals first
    | exact ⟨2, by omega, by omega, by omega⟩
    | exact ⟨1, by omega, by omega, by omega⟩
    | exact ⟨0, by omega, by omega, by omega⟩
    | exact ⟨3, by omega, by omega, by omega⟩

/-- Claim C13 as stated fails for a buffer of more than `INT_MAX` bytes: with
`w = h = 23171`, zoom 67 and no pan on the 600 x 350 grid, in exact arithmetic, the
pixel `(23170, 23170)` is drawn, its index `(y*w + x)*4 = 2147580960` does not fit
an `int`, and `draw_field` stores at the wrapped index `-2147386336`, which is
negative. -/
theorem pixel_index_overflows :
    Access.writePix (-2147386336)
        ∈ draw_field exactRounding exactRounding (field_init start 600 350) 1 23171 23171
            67 0 0
    ∧ ((23170 : Int) * 23171 + 23170) * 4 = 2147580960
    ∧ ¬ ((0 : Int) ≤ -2147386336 ∧ (-2147386336 : Int) < 23171 * 23171 * 4) := by
  refine ⟨?_, by decide, by decide⟩
  have hRX : ctrunc (exactRounding.rnd
      (exactRounding.rnd (((field_init start 600 350).FX : Int) : ℚ) * 67)) = 40200 := by
    show ctrunc (((600 : Int) : ℚ) * 67) = 40200
    rw [show ((600 : Int) : ℚ) * 67 = ((40200 : Int) : ℚ) by norm_num,
      ctrunc_int 40200 (by norm_num) (by norm_num)]
  have hRY : ctrunc (exactRounding.rnd
      (exactRounding.rnd (((field_init start 600 350).FY : Int) : ℚ) * 67)) = 23450 := by
    show ctrunc (((350 : Int) : ℚ) * 67) = 23450
    rw [show ((350 : Int) : ℚ) * 67 = ((23450 : Int) : ℚ) by norm_num,
      ctrunc_int 23450 (by norm_num) (by norm_num)]
  have hD : ctrunc (exactRounding.rnd ((0 : ℚ) * 67)) = 0 := by
    show ctrunc ((0 : ℚ) * 67) = 0
    rw [show (0 : ℚ) * 67 = ((0 : Int) : ℚ) by norm_num,
      ctrunc_int 0 (by norm_num) (by norm_num)]
  have hx0 : ctrunc ((((23170 + 0 : Int) : Int) : ℚ) * (1 / 67)) = 345 :=
    ctrunc_eq _ 345 (by norm_num) (by norm_num) (by norm_num) (by norm_num)
  have hpix : Access.writePix (-2147386336)
      ∈ draw_pixel exactRounding 600 350 23171 1 (1 / 67) 0 0 23170 23170 := by
    unfold draw_pixel
    dsimp only
    have e : ∀ q : ℚ, exactRounding.rnd q = q := fun _ => rfl
    rw [e, e, hx0]
    decide
  rw [mem_draw_field, hRX, hRY, hD]
  exact ⟨23170, 23170, by decide, by decide, hpix⟩

/-- Claim C13, amended (rasterizer clipping): for every grid, buffer width `w` and
height `h` with `w*h*4 <= INT_MAX`, zoom and pan, every byte index that
`draw_field` stores to is `(y*w + x)*4 + k` with `0 <= k <= 3` for a pixel
`0 <= x < min(int(FX*zoom), w)`, `0 <= y < min(int(FY*zoom), h)`, and lies in
`[0, w*h*4)`. -/
theorem rasterizer_clipping (fl dl : Rounding) (s : Field) (draw_trace w h : Int)
    (zm sx sy : ℚ) (i : Int) (hsize : w * h * 4 ≤ 2147483647)
    (hi : Access.writePix i ∈ draw_field fl dl s draw_trace w h zm sx sy) :
    (0 ≤ i ∧ i < w * h * 4)
    ∧ ∃ x y k, (0 ≤ x ∧ x < ctrunc (fl.rnd (fl.rnd (s.FX : ℚ) * zm)) ∧ x < w)
        ∧ (0 ≤ y ∧ y < ctrunc (fl.rnd (fl.rnd (s.FY : ℚ) * zm)) ∧ y < h)
        ∧ (0 ≤ k ∧ k ≤ 3) ∧ i = (y * w + x) * 4 + k := by
  obtain ⟨x, y, hx, hy, ha⟩ := (mem_draw_field fl dl s draw_trace w h zm sx sy _).1 hi
  obtain ⟨k, hk0, hk, e⟩ :=
    draw_pixel_writes fl _ _ w h _ _ _ _ x y i hx.1 hx.2.2 hy.1 hy.2.2 hsize ha
  obtain ⟨b0, b1⟩ := index_lt w h x y hx.1 hx.2.2 hy.1 hy.2.2
  refine ⟨?_, x, y, k, hx, hy, ⟨hk0, hk⟩, e⟩
  rw [e]
  constructor
  · omega
  · nlinarith

/-! ## Reads of `draw_field` -/

theorem rnd_int (fl : Rounding) (n : Int) (h : |n| ≤ 16777216) : fl.rnd (n : ℚ) = (n : ℚ) :=
  fl.exact_int n h

/-- The accesses of `draw_field` on the 600 x 350 grid of `main`, window
1200 x 700, zoom 2, pan `(0, 2)`: those of the pixels `0 <= x < 1200`,
`0 <= y < 700`, with `DX = 0`, `DY = 4` and `zm1 = 1/2`, for every rounding. -/
theorem mem_draw_main (fl dl : Rounding) (a : Access) :
    a ∈ draw_field fl dl (field_init start 600 350) 1 1200 700 2 0 2 ↔
      ∃ x y, (0 ≤ x ∧ x < 1200 ∧ x < 1200) ∧ (0 ≤ y ∧ y < 700 ∧ y < 700)
        ∧ a ∈ draw_pixel fl 600 350 1200 1 (1 / 2) 0 4 x y := by
  have hFX : (field_init start 600 350).FX = 600 := rfl
  have hFY : (field_init start 600 350).FY = 350 := rfl
  have e1 : fl.rnd ((600 : Int) : ℚ) = ((600 : Int) : ℚ) := rnd_int fl 600 (by norm_num)
  have e2 : fl.rnd ((350 : Int) : ℚ) = ((350 : Int) : ℚ) := rnd_int fl 350 (by norm_num)
  have e3 : fl.rnd ((1200 : Int) : ℚ) = ((1200 : Int) : ℚ) := rnd_int fl 1200 (by norm_num)
  have e4 : fl.rnd ((700 : Int) : ℚ) = ((700 : Int) : ℚ) := rnd_int fl 700 (by norm_num)
  have e5 : fl.rnd ((0 : Int) : ℚ) = ((0 : Int) : ℚ) := rnd_int fl 0 (by norm_num)
  have e6 : fl.rnd ((4 : Int) : ℚ) = ((4 : Int) : ℚ) := rnd_int fl 4 (by norm_num)
  have hz : fl.rnd (dl.rnd (1 / 2)) = 1 / 2 := by rw [dl.exact_half, fl.exact_half]
  have hRX : ctrunc (fl.rnd (fl.rnd ((600 : Int) : ℚ) * 2)) = 1200 := by
    rw [e1, show ((600 : Int) : ℚ) * 2 = ((1200 : Int) : ℚ) by norm_num, e3, 
      ctrunc_int 1200 (by norm_num) (by norm_num)]
  have hRY : ctrunc (fl.rnd (fl.rnd ((350 : Int) : ℚ) * 2)) = 700 := by
    rw [e2, show ((350 : Int) : ℚ) * 2 = ((700 : Int) : ℚ) by norm_num, e4, 
      ctrunc_int 700 (by norm_num) (by norm_num)]
  have hDX : ctrunc (fl.rnd (0 * 2)) = 0 := by
    rw [show (0 : ℚ) * 2 = ((0 : Int) : ℚ) by norm_num, e5, 
      ctrunc_int 0 (by norm_num) (by norm_num)]
  have hDY : ctrunc (fl.rnd (2 * 2)) = 4 := by
    rw [show (2 : ℚ) * 2 = ((4 : Int) : ℚ) by norm_num, e6, 
      ctrunc_int 4 (by norm_num) (by norm_num)]
  rw [mem_draw_field, hFX, hFY, hRX, hRY, hDX, hDY, hz]

/-- The accesses of the pixel `(0, 696)` in that call: its grid coordinates are
`x0 = 0` and `y0 = 350`. -/
theorem draw_pixel_main (fl : Rounding) :
    draw_pixel fl 600 350 1200 1 (1 / 2) 0 4 0 696
      = [Access.readTrace 210000, Access.readTrace 210001, Access.readTrace 0,
          Access.readTrace 1, Access.readState 210000, Access.readState 210001,
          Access.readState 0, Access.readState 1, Access.writePix 3340802,
          Access.writePix 3340801, Access.writePix 3340800, Access.writePix 3340803] := by
  have e2 : fl.rnd ((350 : Int) : ℚ) = ((350 : Int) : ℚ) := rnd_int fl 350 (by norm_num)
  have e4 : fl.rnd ((700 : Int) : ℚ) = ((700 : Int) : ℚ) := rnd_int fl 700 (by norm_num)
  have e5 : fl.rnd ((0 : Int) : ℚ) = ((0 : Int) : ℚ) := rnd_int fl 0 (by norm_num)
  have hx0 : ctrunc (fl.rnd (fl.rnd (((0 + 0 : Int) : Int) : ℚ) * (1 / 2))) = 0 := by
    rw [show ((0 + 0 : Int) : ℚ) = ((0 : Int) : ℚ) by norm_num, e5,
      show ((0 : Int) : ℚ) * (1 / 2) = ((0 : Int) : ℚ) by norm_num, e5, 
      ctrunc_int 0 (by norm_num) (by norm_num)]
  have hy0 : ctrunc (fl.rnd (fl.rnd (((696 + 4 : Int) : Int) : ℚ) * (1 / 2))) = 350 := by
    rw [show ((696 + 4 : Int) : ℚ) = ((700 : Int) : ℚ) by norm_num, e4,
      show ((700 : Int) : ℚ) * (1 / 2) = ((350 : Int) : ℚ) by norm_num, e2, 
      ctrunc_int 350 (by norm_num) (by norm_num)]
  unfold draw_pixel
  dsimp only
  rw [hx0, hy0]
  decide

/-- Claim C20 (rasterizer reads stay inside the grid) fails: on the 600 x 350 grid
of `main`, window 1200 x 700, zoom 2, pan `(0, 2)` (one press of the down key),
the pixel `(0, 696)` has `y0 = 350 = FY`, is not skipped by the test `y0 > FY`, and
`draw_field` reads `trace[210000]` and `state[210000]`, where
`210000 = FX*FY` is one past the last cell; this for every rounding. -/
theorem draw_field_reads_outside (fl dl : Rounding) :
    Access.readTrace 210000
        ∈ draw_field fl dl (field_init start 600 350) 1 1200 700 2 0 2
    ∧ Access.readState 210000
        ∈ draw_field fl dl (field_init start 600 350) 1 1200 700 2 0 2
    ∧ ¬ ((210000 : Int) < (field_init start 600 350).FX * (field_init start 600 350).FY) := by
  have hFX : (field_init start 600 350).FX = 600 := rfl
  have hFY : (field_init start 600 350).FY = 350 := rfl
  refine ⟨?_, ?_, by rw [hFX, hFY]; decide⟩
  · rw [mem_draw_main]
    refine ⟨0, 696, by decide, by decide, ?_⟩
    rw [draw_pixel_main]
    decide
  · rw [mem_draw_main]
    refine ⟨0, 696, by decide, by decide, ?_⟩
    rw [draw_pixel_main]
    decide

/-- Away from the two boundary values the reads of a pixel are inside the grid:
if the pixel is not skipped and `x0 < FX`, `y0 < FY`, its four indices lie in
`[0, FX*FY)`. -/
theorem draw_pixel_reads (fl : Rounding) (FX FY w draw_trace : Int) (zm1 : ℚ)
    (DX DY x y i : Int) (hFX : 1 ≤ FX)
    (hx : ctrunc (fl.rnd (fl.rnd ((x + DX : Int) : ℚ) * zm1)) < FX)
    (hy : ctrunc (fl.rnd (fl.rnd ((y + DY : Int) : ℚ) * zm1)) < FY)
    (h : Access.readTrace i ∈ draw_pixel fl FX FY w draw_trace zm1 DX DY x y
      ∨ Access.readState i ∈ draw_pixel fl FX FY w draw_trace zm1 DX DY x y) :
    0 ≤ i ∧ i < FX * FY := by
  unfold draw_pixel at h
  dsimp only at h
  generalize ctrunc (fl.rnd (fl.rnd ((x + DX : Int) : ℚ) * zm1)) = x0 at h hx
  generalize ctrunc (fl.rnd (fl.rnd ((y + DY : Int) : ℚ) * zm1)) = y0 at h hy
  by_cases c1 : x0 < 0 ∨ x0 > FX
  · simp [c1] at h
  by_cases c2 : y0 < 0 ∨ y0 > FY
  · simp [c1, c2] at h
  rw [if_neg c1, if_neg c2] at h
  have hx1 : 0 ≤ (if x0 + 1 ≥ FX then 0 else x0 + 1)
      ∧ (if x0 + 1 ≥ FX then 0 else x0 + 1) < FX := by
    split_ifs <;> omega
  have hy1 : 0 ≤ (if y0 + 1 ≥ FY then 0 else y0 + 1)
      ∧ (if y0 + 1 ≥ FY then 0 else y0 + 1) < FY := by
    split_ifs <;> omega
  generalize (if x0 + 1 ≥ FX then 0 else x0 + 1) = x1 at h hx1
  generalize (if y0 + 1 ≥ FY then 0 else y0 + 1) = y1 at h hy1
  have a := index_lt FX FY x0 y0 (by omega) hx (by omega) hy
  have b := index_lt FX FY x1 y0 hx1.1 hx1.2 (by omega) hy
  have c := index_lt FX FY x0 y1 (by omega) hx hy1.1 hy1.2
  have d := index_lt FX FY x1 y1 hx1.1 hx1.2 hy1.1 hy1.2
  by_cases hdt : draw_trace = 0
  · simp [hdt] at h
    rcases h with (h | h | h | h) | (h | h | h | h | h) <;>
      first | assumption | (rw [h]; assumption)
  · simp [hdt] at h
    rcases h with (h | h | h | h) | (h | h | h | h) <;>
      first | assumption | (rw [h]; assumption)

/-! ## `age2col` -/

theorem pack_eq (r g b : Int) (hr0 : 0 ≤ r) (hr : r ≤ 255) (hg0 : 0 ≤ g) (hg : g ≤ 255)
    (hb0 : 0 ≤ b) (hb : b ≤ 255) : pack r g b = r + 256 * g + 65536 * b := by
  lift r to ℕ using hr0
  lift g to ℕ using hg0
  lift b to ℕ using hb0
  have hr' : r < 2 ^ 8 := by norm_num; omega
  have hg' : g ≤ 255 := by omega
  have hb' : b ≤ 255 := by omega
  have e1 : (g : Int) <<< (8 : Int) = ((g <<< 8 : ℕ) : Int) := Int.shiftLeft_coe_nat g 8
  have e2 : (b : Int) <<< (16 : Int) = ((b <<< 16 : ℕ) : Int) := Int.shiftLeft_coe_nat b 16
  have e3 : ∀ m n : ℕ, Int.lor (m : Int) (n : Int) = ((m ||| n : ℕ) : Int) := fun _ _ => rfl
  have n1 : r ||| g <<< 8 = 2 ^ 8 * g + r := by
    rw [Nat.lor_comm, Nat.shiftLeft_eq, Nat.mul_comm, Nat.mul_add_lt_is_or hr']
  have n2 : (2 ^ 8 * g + r) ||| b <<< 16 = 2 ^ 16 * b + (2 ^ 8 * g + r) := by
    rw [Nat.lor_comm, Nat.shiftLeft_eq, Nat.mul_comm,
      Nat.mul_add_lt_is_or (show 2 ^ 8 * g + r < 2 ^ 16 by norm_num; omega)]
  unfold pack
  rw [e1, e2, e3, e3, n1, n2]
  push_cast
  ring

theorem ctrunc_range (q : ℚ) (h0 : 0 ≤ q) (h1 : q ≤ 255) :
    0 ≤ ctrunc q ∧ ctrunc q ≤ 255 := by
  have f0 : 0 ≤ ⌊q⌋ := Int.floor_nonneg.2 h0
  have f1 : ⌊q⌋ ≤ 255 := by
    have : ((⌊q⌋ : Int) : ℚ) ≤ 255 := le_trans (Int.floor_le q) h1
    exact_mod_cast this
  unfold ctrunc
  dsimp only
  rw [if_pos h0, if_pos ⟨by omega, by omega⟩]
  exact ⟨f0, f1⟩

theorem ctrunc_pos (q : ℚ) (h1 : 1 ≤ q) (h2 : q ≤ 255) : 1 ≤ ctrunc q := by
  have f0 : 1 ≤ ⌊q⌋ := Int.le_floor.2 (by exact_mod_cast h1)
  have f1 : ⌊q⌋ ≤ 255 := by
    have : ((⌊q⌋ : Int) : ℚ) ≤ 255 := le_trans (Int.floor_le q) h2
    exact_mod_cast this
  unfold ctrunc
  dsimp only
  have hq0 : (0 : ℚ) ≤ q := by linarith
  rw [if_pos hq0, if_pos ⟨by omega, by omega⟩]
  exact f0

theorem rnd_zero (fl : Rounding) : fl.rnd 0 = 0 := by
  simpa using fl.exact_int 0 (by norm_num)

theorem rnd_one (fl : Rounding) : fl.rnd 1 = 1 := by
  simpa using fl.exact_int 1 (by norm_num)

theorem rnd_255 (fl : Rounding) : fl.rnd 255 = 255 := by
  simpa using fl.exact_int 255 (by norm_num)

theorem rnd_between (fl : Rounding) (q lo hi : ℚ) (hlo : fl.rnd lo = lo) (hhi : fl.rnd hi = hi)
    (h0 : lo ≤ q) (h1 : q ≤ hi) : lo ≤ fl.rnd q ∧ fl.rnd q ≤ hi := by
  constructor
  · rw [← hlo]; exact fl.mono _ _ h0
  · rw [← hhi]; exact fl.mono _ _ h1

/-- The two channels interpolated by `age2col` from a weight `vv` in `[0, 1]` lie
in `0..255` and are not both 0. -/
theorem blend_channels (fl dl : Rounding) (v : ℚ) (h0 : 0 ≤ v) (h1 : v ≤ 1) :
    (0 ≤ ctrunc (dl.rnd (255 * dl.rnd (1 - v)))
        ∧ ctrunc (dl.rnd (255 * dl.rnd (1 - v))) ≤ 255)
    ∧ (0 ≤ ctrunc (fl.rnd (255 * v)) ∧ ctrunc (fl.rnd (255 * v)) ≤ 255)
    ∧ (ctrunc (fl.rnd (255 * v)) = 0 → 1 ≤ ctrunc (dl.rnd (255 * dl.rnd (1 - v)))) := by
  obtain ⟨a0, a1⟩ := rnd_between dl (1 - v) 0 1 (rnd_zero dl) (rnd_one dl)
    (by linarith) (by linarith)
  obtain ⟨b0, b1⟩ := rnd_between dl (255 * dl.rnd (1 - v)) 0 255 (rnd_zero dl) (rnd_255 dl)
    (by linarith) (by linarith)
  obtain ⟨c0, c1⟩ := rnd_between fl (255 * v) 0 255 (rnd_zero fl) (rnd_255 fl)
    (by linarith) (by linarith)
  refine ⟨ctrunc_range _ b0 b1, ctrunc_range _ c0 c1, ?_⟩
  intro hz
  have hv : 255 * v < 1 := by
    by_contra hc
    have h1' : 1 ≤ fl.rnd (255 * v) := by
      rw [← rnd_one fl]; exact fl.mono _ _ (by linarith)
    have := ctrunc_pos _ h1' c1
    omega
  have hhalf : 1 / 2 ≤ dl.rnd (1 - v) := by
    rw [← dl.exact_half]; exact dl.mono _ _ (by linarith)
  have : 1 ≤ dl.rnd (255 * dl.rnd (1 - v)) := by
    have hm := dl.mono 1 (255 * dl.rnd (1 - v)) (by linarith)
    rw [rnd_one dl] at hm
    exact hm
  exact ctrunc_pos _ this b1

/-- The weight `vv = (st - T) / D` of a bucket of width `D` lies in `[0, 1]`. -/
theorem weight_range (fl : Rounding) (k D : Int) (hk0 : 0 ≤ k) (hk : k < D) (hD : D ≤ 100) :
    0 ≤ fl.rnd (fl.rnd (k : ℚ) / fl.rnd (D : ℚ))
      ∧ fl.rnd (fl.rnd (k : ℚ) / fl.rnd (D : ℚ)) ≤ 1 := by
  rw [fl.exact_int k (by rw [abs_le]; omega), fl.exact_int D (by rw [abs_le]; omega)]
  have hDq : (0 : ℚ) < (D : ℚ) := by exact_mod_cast (by omega : 0 < D)
  have hkq : (0 : ℚ) ≤ (k : ℚ) := by exact_mod_cast hk0
  have hkD : (k : ℚ) ≤ (D : ℚ) := by exact_mod_cast (by omega : k ≤ D)
  exact rnd_between fl _ 0 1 (rnd_zero fl) (rnd_one fl) (div_nonneg hkq (le_of_lt hDq))
    ((div_le_one hDq).2 hkD)

/-- The channels of `age2col` for an exactly converted age: ranges, buckets, and
not all zero. -/
theorem age2col_rgb_spec (fl dl : Rounding) (age : Int) (h0 : 0 < age) :
    (0 ≤ (age2col_rgb fl dl (age : ℚ)).1 ∧ (age2col_rgb fl dl (age : ℚ)).1 ≤ 255)
    ∧ (0 ≤ (age2col_rgb fl dl (age : ℚ)).2.1 ∧ (age2col_rgb fl dl (age : ℚ)).2.1 ≤ 255)
    ∧ (0 ≤ (age2col_rgb fl dl (age : ℚ)).2.2 ∧ (age2col_rgb fl dl (age : ℚ)).2.2 ≤ 255)
    ∧ ((age2col_rgb fl dl (age : ℚ)).1 ≠ 0 ∨ (age2col_rgb fl dl (age : ℚ)).2.1 ≠ 0
        ∨ (age2col_rgb fl dl (age : ℚ)).2.2 ≠ 0)
    ∧ (age < 3 → age2col_rgb fl dl (age : ℚ) = (0, 255, 0))
    ∧ (15 ≤ age → age < 50 → age2col_rgb fl dl (age : ℚ) = (0, 0, 255))
    ∧ (100 ≤ age → age2col_rgb fl dl (age : ℚ) = (255, 0, 0))
    ∧ (3 ≤ age → age < 15 → (age2col_rgb fl dl (age : ℚ)).1 = 0)
    ∧ (50 ≤ age → age < 100 → (age2col_rgb fl dl (age : ℚ)).2.1 = 0) := by
  have c3 : ((age : ℚ) < 3) ↔ age < 3 := by exact_mod_cast Iff.rfl
  have c15 : ((age : ℚ) < 15) ↔ age < 15 := by exact_mod_cast Iff.rfl
  have c50 : ((age : ℚ) < 50) ↔ age < 50 := by exact_mod_cast Iff.rfl
  have c100 : ((age : ℚ) < 100) ↔ age < 100 := by exact_mod_cast Iff.rfl
  unfold age2col_rgb
  dsimp only
  simp only [c3, c15, c50, c100]
  by_cases h3 : age < 3
  · rw [if_pos h3]
    refine ⟨by norm_num, by norm_num, by norm_num, by norm_num, fun _ => rfl,
      fun h => by omega, fun h => by omega, fun h => by omega, fun h => by omega⟩
  rw [if_neg h3]
  by_cases h15 : age < 15
  · rw [if_pos h15]
    have e1 : (age : ℚ) - 3 = ((age - 3 : Int) : ℚ) := by push_cast; ring
    have e2 : (15 : ℚ) - 3 = ((12 : Int) : ℚ) := by norm_num
    rw [e1, e2]
    obtain ⟨w0, w1⟩ := weight_range fl (age - 3) 12 (by omega) (by omega) (by omega)
    obtain ⟨g, b, nz⟩ := blend_channels fl dl _ w0 w1
    refine ⟨by norm_num, g, b, ?_, fun h => by omega, fun h => by omega, fun h => by omega,
      fun _ _ => rfl, fun h => by omega⟩
    by_cases hb : ctrunc (fl.rnd (255 * fl.rnd (fl.rnd ((age - 3 : Int) : ℚ)
        / fl.rnd ((12 : Int) : ℚ)))) = 0
    · right; left
      have := nz hb
      dsimp only
      omega
    · right; right; exact hb
  rw [if_neg h15]
  by_cases h50 : age < 50
  · rw [if_pos h50]
    refine ⟨by norm_num, by norm_num, by norm_num, by norm_num, fun h => by omega,
      fun _ _ => rfl, fun h => by omega, fun h => by omega, fun h => by omega⟩
  rw [if_neg h50]
  by_cases h100 : age < 100
  · rw [if_pos h100]
    have e1 : (age : ℚ) - 50 = ((age - 50 : Int) : ℚ) := by push_cast; ring
    have e2 : (100 : ℚ) - 50 = ((50 : Int) : ℚ) := by norm_num
    rw [e1, e2]
    obtain ⟨w0, w1⟩ := weight_range fl (age - 50) 50 (by omega) (by omega) (by omega)
    obtain ⟨b, r, nz⟩ := blend_channels fl dl _ w0 w1
    refine ⟨r, by norm_num, b, ?_, fun h => by omega, fun h => by omega, fun h => by omega,
      fun h => by omega, fun _ _ => rfl⟩
    by_cases hr : ctrunc (fl.rnd (255 * fl.rnd (fl.rnd ((age - 50 : Int) : ℚ)
        / fl.rnd ((50 : Int) : ℚ)))) = 0
    · right; right
      have := nz hr
      dsimp only
      omega
    · left; exact hr
  · rw [if_neg h100]
    refine ⟨by norm_num, by norm_num, by norm_num, by norm_num, fun h => by omega,
      fun h => by omega, fun _ => rfl, fun h => by omega, fun h => by omega⟩

theorem age2col_rgb_old (fl dl : Rounding) (st : ℚ) (h : 100 ≤ st) :
    age2col_rgb fl dl st = (255, 0, 0) := by
  unfold age2col_rgb
  dsimp only
  rw [if_neg (by linarith), if_neg (by linarith), if_neg (by linarith), if_neg (by linarith)]

/-- The conversion of an `int` age to `float`: exact below 100, at least 100 from
100 on, and of the sign of the age. -/
theorem rnd_age (fl : Rounding) (age : Int) :
    (age ≤ 0 → fl.rnd (age : ℚ) ≤ 0)
    ∧ (0 < age → 0 < fl.rnd (age : ℚ))
    ∧ (0 < age → age < 100 → fl.rnd (age : ℚ) = (age : ℚ))
    ∧ (100 ≤ age → 100 ≤ fl.rnd (age : ℚ)) := by
  refine ⟨fun h => ?_, fun h => ?_, fun h0 h1 => ?_, fun h => ?_⟩
  · have hm := fl.mono (age : ℚ) 0 (by exact_mod_cast h)
    rw [rnd_zero fl] at hm
    exact hm
  · have hm := fl.mono 1 (age : ℚ) (by exact_mod_cast (by omega : 1 ≤ age))
    rw [rnd_one fl] at hm
    linarith
  · exact fl.exact_int age (by rw [abs_le]; omega)
  · have hm := fl.mono ((100 : Int) : ℚ) (age : ℚ) (by exact_mod_cast h)
    rw [fl.exact_int 100 (by norm_num)] at hm
    exact_mod_cast hm

/-- Claim C17: for every integer age and every rounding of the `float` and `double`
operations, `age2col` returns 0 if `age <= 0` and a non-zero value if `age > 0`; the
value is `r | g<<8 | b<<16`, which is `r + 256*g + 65536*b`, with each channel in
`0..255`; it is pure green for `0 < age < 3`, pure blue for `15 <= age < 50`, pure
red for `age >= 100`, has `r = 0` for `3 <= age < 15` and `g = 0` for
`50 <= age < 100`. -/
theorem age_colour_buckets (fl dl : Rounding) (age : Int) :
    (age ≤ 0 → age2col fl dl age = 0)
    ∧ (0 < age → age2col fl dl age ≠ 0)
    ∧ ∃ r g b : Int,
        age2col fl dl age = pack r g b
        ∧ pack r g b = r + 256 * g + 65536 * b
        ∧ (0 ≤ r ∧ r ≤ 255) ∧ (0 ≤ g ∧ g ≤ 255) ∧ (0 ≤ b ∧ b ≤ 255)
        ∧ (0 < age → age < 3 → r = 0 ∧ g = 255 ∧ b = 0)
        ∧ (15 ≤ age → age < 50 → r = 0 ∧ g = 0 ∧ b = 255)
        ∧ (100 ≤ age → r = 255 ∧ g = 0 ∧ b = 0)
        ∧ (3 ≤ age → age < 15 → r = 0)
        ∧ (50 ≤ age → age < 100 → g = 0) := by
  obtain ⟨hneg, hpos, hex, hold⟩ := rnd_age fl age
  have hzero : age ≤ 0 → age2col fl dl age = 0 := by
    intro h
    unfold age2col
    dsimp only
    rw [if_pos (hneg h)]
  have hval : 0 < age → age2col fl dl age
      = pack (age2col_rgb fl dl (fl.rnd (age : ℚ))).1 (age2col_rgb fl dl (fl.rnd (age : ℚ))).2.1
          (age2col_rgb fl dl (fl.rnd (age : ℚ))).2.2 := by
    intro h
    unfold age2col
    dsimp only
    rw [if_neg (not_le.2 (hpos h))]
  have hchan : 0 < age →
      (0 ≤ (age2col_rgb fl dl (fl.rnd (age : ℚ))).1
        ∧ (age2col_rgb fl dl (fl.rnd (age : ℚ))).1 ≤ 255)
      ∧ (0 ≤ (age2col_rgb fl dl (fl.rnd (age : ℚ))).2.1
        ∧ (age2col_rgb fl dl (fl.rnd (age : ℚ))).2.1 ≤ 255)
      ∧ (0 ≤ (age2col_rgb fl dl (fl.rnd (age : ℚ))).2.2
        ∧ (age2col_rgb fl dl (fl.rnd (age : ℚ))).2.2 ≤ 255)
      ∧ ((age2col_rgb fl dl (fl.rnd (age : ℚ))).1 ≠ 0
        ∨ (age2col_rgb fl dl (fl.rnd (age : ℚ))).2.1 ≠ 0
        ∨ (age2col_rgb fl dl (fl.rnd (age : ℚ))).2.2 ≠ 0)
      ∧ (age < 3 → age2col_rgb fl dl (fl.rnd (age : ℚ)) = (0, 255, 0))
      ∧ (15 ≤ age → age < 50 → age2col_rgb fl dl (fl.rnd (age : ℚ)) = (0, 0, 255))
      ∧ (100 ≤ age → age2col_rgb fl dl (fl.rnd (age : ℚ)) = (255, 0, 0))
      ∧ (3 ≤ age → age < 15 → (age2col_rgb fl dl (fl.rnd (age : ℚ))).1 = 0)
      ∧ (50 ≤ age → age < 100 → (age2col_rgb fl dl (fl.rnd (age : ℚ))).2.1 = 0) := by
    intro h
    by_cases h100 : age < 100
    · rw [hex h h100]
      exact age2col_rgb_spec fl dl age h
    · rw [age2col_rgb_old fl dl _ (hold (by omega))]
      refine ⟨by norm_num, by norm_num, by norm_num, by norm_num, fun h => by omega,
        fun h => by omega, fun _ => rfl, fun h => by omega, fun h => by omega⟩
  refine ⟨hzero, ?_, ?_⟩
  · intro h
    obtain ⟨hr, hg, hb, hnz, -⟩ := hchan h
    rw [hval h, pack_eq _ _ _ hr.1 hr.2 hg.1 hg.2 hb.1 hb.2]
    omega
  · by_cases h : 0 < age
    · obtain ⟨hr, hg, hb, -, b1, b2, b3, b4, b5⟩ := hchan h
      refine ⟨_, _, _, hval h, pack_eq _ _ _ hr.1 hr.2 hg.1 hg.2 hb.1 hb.2, hr, hg, hb,
        ?_, ?_, ?_, b4, b5⟩
      · intro _ h3
        rw [b1 h3]
        exact ⟨rfl, rfl, rfl⟩
      · intro h15 h50
        rw [b2 h15 h50]
        exact ⟨rfl, rfl, rfl⟩
      · intro h100
        rw [b3 h100]
        exact ⟨rfl, rfl, rfl⟩
    · refine ⟨0, 0, 0, ?_, by decide, by norm_num, by norm_num, by norm_num,
        fun h0 => by omega, fun h0 => by omega, fun h0 => by omega, fun h0 => by omega,
        fun h0 => by omega⟩
      rw [hzero (by omega)]
      decide

/-! ## Modified rules: range and fixed points -/

theorem cell_next_range (r a sum : Int) (draws : Nat → Nat) (u : Nat) (hr : r ≠ 0)
    (hmin : -2147483648 < a) (hmax : a < 2147483647) :
    -100 ≤ (cell_next r a sum draws u).1 ∧ (cell_next r a sum draws u).1 ≤ 100 := by
  have hd : ∀ n : Int, (n = 0 ∨ n = 1 ∨ n = a) →
      ((stays_dead a sum n draws u).1 = n ∧ ¬ dead_guard n a)
        ∨ (-100 ≤ (stays_dead a sum n draws u).1 ∧ (stays_dead a sum n draws u).1 ≤ 1
            ∧ a ≤ 0) := by
    intro n _
    unfold stays_dead wrap32
    dsimp only
    by_cases g : dead_guard n a
    · right
      rw [if_pos g]
      unfold dead_guard at g
      split_ifs <;> dsimp only <;> omega
    · left
      rw [if_neg g]
      exact ⟨rfl, g⟩
  have ha : ∀ m : Int, (-100 ≤ m ∧ m ≤ 1) ∨ (m = a ∧ 0 < a) →
      -100 ≤ (stays_alive a m draws (stays_dead a sum (classical a sum) draws u).2).1
        ∧ (stays_alive a m draws (stays_dead a sum (classical a sum) draws u).2).1 ≤ 100 := by
    intro m hm
    unfold stays_alive wrap32
    dsimp only
    unfold alive_guard
    split_ifs <;> dsimp only <;> omega
  have hc : classical a sum = 0 ∨ classical a sum = 1 ∨ classical a sum = a := by
    rw [classical_cases]; split_ifs <;> simp
  unfold cell_next
  dsimp only
  rw [if_pos hr]
  apply ha
  rcases hd (classical a sum) hc with ⟨e, g⟩ | ⟨h1, h2, _⟩
  · rw [e]
    unfold dead_guard at g
    rcases hc with h | h | h
    · left; omega
    · left; omega
    · by_cases hpos : 0 < a
      · right; exact ⟨h, hpos⟩
      · exfalso; apply g; omega
  · left; exact ⟨h1, h2⟩

/-- Claim C19 as stated fails at ages of the largest magnitude: on `huge6` the step
commits `INT_MIN` for the live cell of age `INT_MAX` and `INT_MAX` for the dead
cell of age `INT_MIN`, both outside `[-100, 100]`. -/
theorem range_lost_at_int_limits :
    2 ≤ huge6.FX ∧ 2 ≤ huge6.FY ∧ huge6.rand_rules ≠ 0
    ∧ ∃ t, field_step 3 huge6 = some t
        ∧ ¬ (-100 ≤ t.cur (2 * huge6.FX + 2)) ∧ ¬ (t.cur (2 * huge6.FX + 4) ≤ 100) := by
  refine ⟨by decide, by decide, by decide, ?_⟩
  obtain ⟨t, ht, h1, h2⟩ := huge6_step
  refine ⟨t, ht, ?_, ?_⟩
  · rw [show 2 * huge6.FX + 2 = 14 from rfl, h1]; decide
  · rw [show 2 * huge6.FX + 4 = 16 from rfl, h2]; decide

/-- Claim C19, amended (range re-established in one step): with `rand_rules` on, on
a grid with `FX >= 2` and `FY >= 2`, whatever the draws, `field_step` returns and
commits an age in `[-100, 100]` for every cell whose age lies strictly between
`INT_MIN` and `INT_MAX`, whatever its magnitude; when every cell is such, every
age of the new grid lies in `[-100, 100]` and a magnitude of 101 is not stored. -/
theorem range_after_one_step (s : Field) (fuel : Nat) (hFX : 2 ≤ s.FX) (hFY : 2 ≤ s.FY)
    (hf : 3 ≤ fuel) (hr : s.rand_rules ≠ 0) :
    ∃ t, field_step fuel s = some t
      ∧ (∀ x y, 0 ≤ x → x < s.FX → 0 ≤ y → y < s.FY →
          -2147483648 < s.cur (y * s.FX + x) → s.cur (y * s.FX + x) < 2147483647 →
          -100 ≤ t.cur (y * s.FX + x) ∧ t.cur (y * s.FX + x) ≤ 100)
      ∧ ((∀ i ∈ upto 0 (s.FX * s.FY), -2147483648 < s.cur i ∧ s.cur i < 2147483647) →
          ∀ i ∈ upto 0 (t.FX * t.FY), |t.cur i| ≤ 100 ∧ |t.cur i| ≠ 101) := by
  obtain ⟨t, ht, d1, d2, _, _, _, _, _, hc⟩ := field_step_spec s fuel hFX hFY hf
  have hcell : ∀ x y, 0 ≤ x → x < s.FX → 0 ≤ y → y < s.FY →
      -2147483648 < s.cur (y * s.FX + x) → s.cur (y * s.FX + x) < 2147483647 →
      -100 ≤ t.cur (y * s.FX + x) ∧ t.cur (y * s.FX + x) ≤ 100 := by
    intro x y hx0 hx hy0 hy hmin hmax
    obtain ⟨_, u, _, _, hu⟩ := hc x y hx0 hx hy0 hy
    rw [hu]
    exact cell_next_range _ _ _ _ _ hr hmin hmax
  refine ⟨t, ht, hcell, ?_⟩
  intro hall i hi
  rw [d1, d2] at hi
  obtain ⟨h0, h1⟩ := (mem_upto _ _ _).1 hi
  obtain ⟨a1, a2, a3, a4, a5⟩ := cell_of_index s.FX s.FY i h0 h1 (by omega)
  have hin := hall i hi
  rw [a5] at hin
  have := hcell _ _ a1 a2 a3 a4 hin.1 hin.2
  rw [← a5] at this
  have hle : |t.cur i| ≤ 100 := abs_le.2 this
  exact ⟨hle, by omega⟩

theorem torus_sum_dead (s : Field) (x y : Int) (hFX : 0 < s.FX) (hFY : 0 < s.FY)
    (h : ∀ u v, 0 ≤ u → u < s.FX → 0 ≤ v → v < s.FY → s.cur (v * s.FX + u) ≤ 0) :
    torus_sum s x y = 0 := by
  have e : ∀ dx dy, alive s ((x + dx) % s.FX) ((y + dy) % s.FY) = 0 := by
    intro dx dy
    obtain ⟨a1, a2⟩ := emod_range s.FX (x + dx) hFX
    obtain ⟨b1, b2⟩ := emod_range s.FY (y + dy) hFY
    unfold alive
    rw [if_neg (by have := h _ _ a1 a2 b1 b2; omega)]
  rw [torus_sum_unroll]
  simp only [e]
  rfl

/-- Under the modified rules a cell of positive age never keeps its age. -/
theorem cell_next_live_changes (r a sum : Int) (draws : Nat → Nat) (u : Nat)
    (hr : r ≠ 0) (ha : 0 < a) : (cell_next r a sum draws u).1 ≠ a := by
  by_cases hs : sum = 2 ∨ sum = 3
  · rw [cell_next_alive r a sum draws u hr ha hs]
    unfold wrap32
    split_ifs <;> dsimp only <;> omega
  · rw [(cell_next_pass r a sum draws u (Or.inr ⟨ha, by omega⟩)).2.2, classical_cases]
    dsimp only
    rw [if_pos (by omega)]
    omega

theorem cell_next_zero (r : Int) (draws : Nat → Nat) (u : Nat) :
    (cell_next r 0 0 draws u).1 = 0 := by
  have h1 : classical 0 0 = 0 := by rw [classical_cases]; simp
  unfold cell_next
  dsimp only
  rw [h1]
  split_ifs
  · have h2 : stays_dead 0 0 0 draws u = (0, u) := by
      unfold stays_dead
      dsimp only
      rw [if_pos (show dead_guard 0 0 from ⟨le_refl 0, le_refl 0⟩)]
      simp
    rw [h2]
    unfold stays_alive
    rw [if_neg (by unfold alive_guard; omega)]
  · rfl

/-- Claim C18 (no still state under modified rules): with `rand_rules` on, on a
grid with `FX >= 2` and `FY >= 2` and for every stream of draws, `field_step`
returns, and the ages after the step equal the ages before it on every cell if and
only if every cell age is 0; so a grid with a live cell or any non-zero age is
changed by the step and the all-zero grid is the only fixed point. -/
theorem no_still_state (s : Field) (fuel : Nat) (hFX : 2 ≤ s.FX) (hFY : 2 ≤ s.FY)
    (hf : 3 ≤ fuel) (hr : s.rand_rules ≠ 0) :
    ∃ t, field_step fuel s = some t
      ∧ ((∀ x y, 0 ≤ x → x < s.FX → 0 ≤ y → y < s.FY →
            t.cur (y * s.FX + x) = s.cur (y * s.FX + x))
          ↔ ∀ x y, 0 ≤ x → x < s.FX → 0 ≤ y → y < s.FY → s.cur (y * s.FX + x) = 0)
      ∧ (∀ x y, 0 ≤ x → x < s.FX → 0 ≤ y → y < s.FY → 0 < s.cur (y * s.FX + x) →
            t.cur (y * s.FX + x) ≠ s.cur (y * s.FX + x)) := by
  obtain ⟨t, ht, _, _, _, _, _, _, _, hc⟩ := field_step_spec s fuel hFX hFY hf
  have hlive : ∀ x y, 0 ≤ x → x < s.FX → 0 ≤ y → y < s.FY → 0 < s.cur (y * s.FX + x) →
      t.cur (y * s.FX + x) ≠ s.cur (y * s.FX + x) := by
    intro x y hx0 hx hy0 hy ha
    obtain ⟨_, u, _, _, hu⟩ := hc x y hx0 hx hy0 hy
    rw [hu]
    exact cell_next_live_changes _ _ _ _ _ hr ha
  refine ⟨t, ht, ⟨?_, ?_⟩, hlive⟩
  · intro hfix
    have hdead : ∀ u v, 0 ≤ u → u < s.FX → 0 ≤ v → v < s.FY → s.cur (v * s.FX + u) ≤ 0 := by
      intro u v hu0 hu hv0 hv
      by_contra hpos
      exact hlive u v hu0 hu hv0 hv (by omega) (hfix u v hu0 hu hv0 hv)
    intro x y hx0 hx hy0 hy
    by_contra hne
    have hneg : s.cur (y * s.FX + x) < 0 := by
      have := hdead x y hx0 hx hy0 hy
      omega
    obtain ⟨_, u, _, _, hu⟩ := hc x y hx0 hx hy0 hy
    rw [torus_sum_dead s x y (by omega) (by omega) hdead, cell_next_reset _ _ _ _ hneg] at hu
    have := hfix x y hx0 hx hy0 hy
    rw [hu] at this
    exact hne this.symm
  · intro hzero x y hx0 hx hy0 hy
    have hdead : ∀ u v, 0 ≤ u → u < s.FX → 0 ≤ v → v < s.FY → s.cur (v * s.FX + u) ≤ 0 := by
      intro u v hu0 hu hv0 hv
      rw [hzero u v hu0 hu hv0 hv]
    obtain ⟨_, u, _, _, hu⟩ := hc x y hx0 hx hy0 hy
    rw [torus_sum_dead s x y (by omega) (by omega) hdead, hzero x y hx0 hx hy0 hy] at hu
    rw [hu, hzero x y hx0 hx hy0 hy]
    exact cell_next_zero _ _ _

/-! ## The theorems at concrete grids -/

theorem age_bound_invariant_witness :
    AgeBounded aged6 ∧ ∃ t, field_step 3 aged6 = some t ∧ AgeBounded t :=
  ⟨by unfold AgeBounded; decide,
    age_bound_invariant.1 aged6 3 (by decide) (by decide) (by decide)
      (by unfold AgeBounded; decide)⟩

theorem classical_rule_witness :
    ∃ t, field_step 3 blinker5 = some t ∧ t.cur 7 = 1 ∧ t.cur 11 = 0 ∧ t.cur 12 = 1 := by
  obtain ⟨t, ht, _, _, h⟩ :=
    classical_rule blinker5 3 (by decide) (by decide) (by decide) rfl
  have h1 := (h 2 1 (by decide) (by decide) (by decide) (by decide)).2.1 (by decide)
  have h2 := (h 1 2 (by decide) (by decide) (by decide) (by decide)).1 (Or.inl (by decide))
  have h3 := (h 2 2 (by decide) (by decide) (by decide) (by decide)).2.2.1 (by decide)
  exact ⟨t, ht, h1, h2, h3⟩

theorem wraparound_symmetry_witness :
    ∃ t, field_step 3 corner4 = some t ∧ t.state_sum 0 = 2 ∧ t.state_sum 5 = 1
      ∧ t.state_sum 12 = 3 := by
  obtain ⟨t, ht, h⟩ :=
    (wraparound_symmetry corner4 3 (by decide) (by decide) (by decide)).1
  have h1 := h 0 0 (by decide) (by decide) (by decide) (by decide)
  have h2 := h 1 1 (by decide) (by decide) (by decide) (by decide)
  have h3 := h 0 3 (by decide) (by decide) (by decide) (by decide)
  exact ⟨t, ht, h1.trans (by decide), h2.trans (by decide), h3.trans (by decide)⟩

theorem blinker5_pattern : IsPattern blinker5 (blinkerH blinker5.FX 2 2) := by
  intro x y hx0 hx hy0 hy
  have hx' : x < 5 := hx
  have hy' : y < 5 := hy
  show (if y * 5 + x = 11 ∨ y * 5 + x = 12 ∨ y * 5 + x = 13 then (1 : Int) else 0)
    = if y = 2 ∧ (x = (2 - 1) % 5 ∨ x = 2 ∨ x = (2 + 1) % 5) then 1 else 0
  split_ifs <;> omega

theorem blinker_period_two_witness :
    ∃ t w, field_step 3 blinker5 = some t ∧ field_step 3 t = some w
      ∧ (t.cur 7 = 1 ∧ t.cur 12 = 1 ∧ t.cur 17 = 1 ∧ t.cur 11 = 0 ∧ t.cur 13 = 0)
      ∧ ∀ i ∈ upto 0 25, w.cur i = blinker5.cur i := by
  obtain ⟨t, w, ht, hw, h, _, _, _, _, _, hall⟩ :=
    blinker_period_two blinker5 3 2 2 (by decide) (by decide) (by decide) rfl
      (by decide) (by decide) (by decide) (by decide) blinker5_pattern
  refine ⟨t, w, ht, hw, ⟨?_, ?_, ?_, ?_, ?_⟩, hall⟩
  · exact (h 2 1 (by decide) (by decide) (by decide) (by decide)).trans (by decide)
  · exact (h 2 2 (by decide) (by decide) (by decide) (by decide)).trans (by decide)
  · exact (h 2 3 (by decide) (by decide) (by decide) (by decide)).trans (by decide)
  · exact (h 1 2 (by decide) (by decide) (by decide) (by decide)).trans (by decide)
  · exact (h 3 2 (by decide) (by decide) (by decide) (by decide)).trans (by decide)

theorem age_monotone_witness :
    ∃ t, field_step 3 aged6_stream = some t ∧ t.cur 8 = 8
      ∧ draw_index aged6_stream 2 2 = 1 ∧ t.cur 14 = 1 := by
  obtain ⟨t, ht, h⟩ :=
    age_monotone aged6_stream 3 (by decide) (by decide) (by decide) (by decide)
  have h1 := ((h 2 1 (by decide) (by decide) (by decide) (by decide) (by decide)
    (by decide) (Or.inr (by decide))).1 (by decide)).1
  have h2 := ((h 2 2 (by decide) (by decide) (by decide) (by decide) (by decide)
    (by decide) (Or.inr (by decide))).2.1 (by decide)).2.2.2
  have hd : draw_index aged6_stream 2 2 = 1 := by decide
  rw [hd] at h2
  exact ⟨t, ht, h1.trans (by decide), hd, h2.trans (by decide)⟩

theorem dead_counter_bound_witness :
    ∃ t, field_step 3 aged6_stream = some t ∧ t.cur 6 = -6 ∧ t.cur 16 = 0
      ∧ draw_index aged6_stream 1 3 = 0 ∧ t.cur 19 = 1 := by
  obtain ⟨t, ht, h⟩ :=
    dead_counter_bound aged6_stream 3 (by decide) (by decide) (by decide) (by decide)
  have h1 := ((h 0 1 (by decide) (by decide) (by decide) (by decide) (by decide)
    (by decide) (by decide) (by decide)).1 (by decide)).1
  have h2 := (((h 4 2 (by decide) (by decide) (by decide) (by decide) (by decide)
    (by decide) (by decide) (by decide)).2.1 (by decide)).1 (by decide)).1
  have h3 := (((h 1 3 (by decide) (by decide) (by decide) (by decide) (by decide)
    (by decide) (by decide) (by decide)).2.1 (by decide)).2 (by decide)).2.2.2
  have hd : draw_index aged6_stream 1 3 = 0 := by decide
  rw [hd] at h3
  exact ⟨t, ht, h1.trans (by decide), h2, hd, h3.trans (by decide)⟩

theorem zero_neighbour_reset_witness :
    ∃ t, field_step 3 aged6 = some t ∧ t.cur 32 = 0 := by
  obtain ⟨t, ht, h⟩ :=
    (zero_neighbour_reset aged6 3 (by decide) (by decide) (by decide)).1
  exact ⟨t, ht, h 2 5 (by decide) (by decide) (by decide) (by decide) (by decide)
    (by decide)⟩

theorem birth_death_pass_through_witness :
    ∃ t, field_step 3 aged6 = some t ∧ t.cur 20 = 1 ∧ t.cur 29 = 0 := by
  obtain ⟨t, ht, h⟩ :=
    (birth_death_pass_through aged6 3 (by decide) (by decide) (by decide)).1
  have h1 := ((h 2 3 (by decide) (by decide) (by decide) (by decide)).1 (by decide)
    (by decide)).1
  have h2 := ((h 5 4 (by decide) (by decide) (by decide) (by decide)).2 (by decide)
    (Or.inl (by decide))).1
  exact ⟨t, ht, h1, h2⟩

theorem ping_pong_witness :
    ∃ t w, field_step 3 blinker5 = some t ∧ field_step 3 t = some w
      ∧ t.state = Buf.b2 ∧ t.state1 = blinker5.state1 ∧ w.state = Buf.b1 := by
  obtain ⟨t, w, ht, hw, _, h2, h3⟩ :=
    ping_pong.2 blinker5 3 (by decide) (by decide) (by decide)
  have h1 := (ping_pong.1 blinker5 t 3 ht).1
  exact ⟨t, w, ht, hw, h1, h2, h3⟩

/-! ## The later theorems at concrete grids -/

theorem aged6_sameRun : SameRun aged6 aged6_dirty :=
  ⟨rfl, rfl, rfl, rfl, rfl, fun _ _ => rfl⟩

theorem determinism_witness :
    SameRun aged6 aged6_dirty
    ∧ ∃ t t', steps 3 2 aged6 = some t ∧ steps 3 2 aged6_dirty = some t'
        ∧ ∀ i ∈ upto 0 (aged6.FX * aged6.FY), t.cur i = t'.cur i :=
  ⟨aged6_sameRun,
    (determinism aged6 aged6_dirty 3 2 (by decide) (by decide) aged6_sameRun).2.2
      (by decide) (by decide) (by decide)⟩

theorem trace_update_and_decay_witness :
    ∃ t, field_step 3 blinker5 = some t
      ∧ ∀ u v, 0 ≤ u → u < blinker5.FX → 0 ≤ v → v < blinker5.FY →
          t.trace (v * blinker5.FX + u)
            = 99 / 100 * blinker5.trace (v * blinker5.FX + u)
              + 1 / 100 * (if t.cur (v * blinker5.FX + u) > 0 then 1 else 0) :=
  (trace_update_and_decay blinker5 3 2 2 (by decide) (by decide) (by decide) (by decide)
    (by decide) (by decide) (by decide)).1

theorem draw_field_writes_main (fl dl : Rounding) :
    Access.writePix 3340800
      ∈ draw_field fl dl (field_init start 600 350) 1 1200 700 2 0 2 := by
  rw [mem_draw_main]
  refine ⟨0, 696, by decide, by decide, ?_⟩
  rw [draw_pixel_main]
  decide

theorem rasterizer_clipping_witness :
    Access.writePix 3340800
        ∈ draw_field exactRounding exactRounding (field_init start 600 350) 1 1200 700 2 0 2
    ∧ (0 : Int) ≤ 3340800 ∧ (3340800 : Int) < 1200 * 700 * 4 :=
  ⟨draw_field_writes_main exactRounding exactRounding,
    (rasterizer_clipping exactRounding exactRounding (field_init start 600 350) 1 1200 700
      2 0 2 3340800 (by decide) (draw_field_writes_main exactRounding exactRounding)).1⟩

theorem seed_region_witness :
    (field_rand (field_init start 600 350)).cur (175 * 600 + 300) = 1
    ∧ (field_rand (field_init start 600 350)).cur (155 * 600 + 280) = 0
    ∧ (field_rand (field_init start 600 350)).used = 1600 := by
  have h := seed_region (field_init start 600 350) (by decide) (by decide)
  have h1 := (h.1 300 175 (by decide) (by decide) (by decide) (by decide)).2.2
  have h2 := (h.1 280 155 (by decide) (by decide) (by decide) (by decide)).2.2
  exact ⟨h1.trans (by decide), h2.trans (by decide), h.2.2.2.1⟩

theorem field_init_unchecked_witness :
    (field_init_call start 0 5 = Outcome.returned (field_init start 0 5)
      ∨ field_init_call start 0 5 = Outcome.thrown { start with FX := 0, FY := 5 })
    ∧ (field_init start 0 5).FX = 0 ∧ (field_init start 0 5).FY = 5
    ∧ (field_init start 0 5).state = Buf.b1 := by
  have h := field_init_unchecked start 0 5 (Or.inl (by decide)) (by decide)
  exact ⟨h.1.imp (fun a => a.2) (fun a => a.2), h.2.1, h.2.2.1, h.2.2.2.1⟩

theorem no_still_state_witness :
    aged6.rand_rules ≠ 0
    ∧ ∃ t, field_step 3 aged6 = some t ∧ t.cur 14 ≠ aged6.cur 14 := by
  refine ⟨by decide, ?_⟩
  obtain ⟨t, ht, _, h⟩ := no_still_state aged6 3 (by decide) (by decide) (by decide)
    (by decide)
  exact ⟨t, ht, h 2 2 (by decide) (by decide) (by decide) (by decide) (by decide)⟩

theorem range_after_one_step_witness :
    large6.cur 14 = 2147483646 ∧ large6.cur 16 = -2147483647
    ∧ ∃ t, field_step 3 large6 = some t
        ∧ (-100 ≤ t.cur 14 ∧ t.cur 14 ≤ 100) ∧ (-100 ≤ t.cur 16 ∧ t.cur 16 ≤ 100)
        ∧ ∀ i ∈ upto 0 (t.FX * t.FY), |t.cur i| ≤ 100 ∧ |t.cur i| ≠ 101 := by
  refine ⟨rfl, rfl, ?_⟩
  obtain ⟨t, ht, h, hall⟩ := range_after_one_step large6 3 (by decide) (by decide)
    (by decide) (by decide)
  refine ⟨t, ht,
    h 2 2 (by decide) (by decide) (by decide) (by decide) (by decide) (by decide),
    h 4 2 (by decide) (by decide) (by decide) (by decide) (by decide) (by decide),
    hall ?_⟩
  intro i hi
  have hc : ∀ j : Int, -2147483648 < large6.cur j ∧ large6.cur j < 2147483647 := by
    intro j
    show -2147483648 < (if j = 13 then (1 : Int) else if j = 14 then 2147483646
        else if j = 15 then 1 else if j = 16 then -2147483647 else 0)
      ∧ (if j = 13 then (1 : Int) else if j = 14 then 2147483646
        else if j = 15 then 1 else if j = 16 then -2147483647 else 0) < 2147483647
    split_ifs <;> decide
  exact hc i

end GameOfLife
